import Mathlib

/-!
Maze generator (maze_gen.c): shallow embedding and verification.

The C program builds a maze by a randomised depth-first walk over a grid of
logical cells, rendered into a character matrix.  This file embeds the
generator (stack, coordinate mapper, walk, post-processing, potion placement)
and proves properties of it.

Modelling conventions.

* unsigned int and int values are mathematical integers; dimensions are
  assumed small enough that no 32-bit arithmetic wraps at a non-negative
  value.  Coordinates and index expressions are Int: a negative value stands
  for the wrapped unsigned value, which lies outside every allocated array,
  so an access at a negative index is reported as out of bounds.
* Every array access is checked: a read or write outside the allocated
  extent (undefined behaviour in C) yields fault.out_of_bounds.
* rand() is a stream rand : Nat → Nat (the values produced after
  srand(rand_seed)), consumed through a counter in the generator state.
* Loops that the C text does not bound syntactically (the walk loop, the
  rejection sampling of potions) take fuel and yield fault.out_of_fuel when
  it runs out.
* The generator state carries a log of the calls made by the walk.  No
  branch of the code reads the log.
-/

namespace MazeGen

/-- Ways in which a run of the embedded program can fail to produce a value. -/
inductive fault where
  | out_of_bounds
  | div_by_zero
  | out_of_fuel
deriving DecidableEq

/-- The wall glyph, macro WALL. -/
abbrev WALL : Char := 'w'

/-- The potion glyph, macro POTION. -/
abbrev POTION : Char := '#'

/-- Number of potions placed, macro NEEDED_POTIONS. -/
abbrev NEEDED_POTIONS : Nat := 3

/-- The struct maze: matrix a, width w, height h, cell_size. -/
structure maze where
  a : List (List Char)
  w : Nat
  h : Nat
  cell_size : Nat

/-- The struct cell: a matrix position, x the column and y the row. -/
structure cell where
  x : Int
  y : Int
deriving DecidableEq

/-- The struct stack: slot 0 of cell_list is unused, elements start at slot 1. -/
structure stack where
  cell_list : List cell
  top_of_stack : Nat
  capacity : Nat

/-- Calls made by the walk, in the order in which they happen. -/
inductive event where
  | mark (c : cell)
  | push (c : cell) (ret : Int)
  | pop (c : cell)
  | remove_wall (a b : cell)
deriving DecidableEq

/-- State threaded through generate_maze: the maze, the stack, the number of
rand() calls made so far, and the log of calls. -/
structure gen_state where
  maze : maze
  stack : stack
  rng : Nat
  log : List event

/-- The operator % on unsigned operands; a zero divisor is undefined in C. -/
def c_mod (a b : Nat) : Except fault Nat :=
  if b = 0 then .error .div_by_zero else .ok (a % b)

/-- Checked read of a[row][col]. -/
def mat_get (a : List (List Char)) (row col : Int) : Except fault Char :=
  if 0 ≤ row ∧ 0 ≤ col then
    match a[row.toNat]? with
    | none => .error .out_of_bounds
    | some r =>
      match r[col.toNat]? with
      | none => .error .out_of_bounds
      | some ch => .ok ch
  else .error .out_of_bounds

/-- Checked write a[row][col] = v. -/
def mat_set (a : List (List Char)) (row col : Int) (v : Char) :
    Except fault (List (List Char)) :=
  if 0 ≤ row ∧ 0 ≤ col then
    match a[row.toNat]? with
    | none => .error .out_of_bounds
    | some r =>
      if col.toNat < r.length then .ok (a.set row.toNat (r.set col.toNat v))
      else .error .out_of_bounds
  else .error .out_of_bounds

/-- The assignment maze->a[row][col] = v. -/
def set_cell (m : maze) (row col : Int) (v : Char) : Except fault maze :=
  match mat_set m.a row col v with
  | .error e => .error e
  | .ok a1 => .ok { m with a := a1 }

/-- The loop for (i = start; ...; i++) body, run for a given number of
iterations: for_up body n start s runs body at start, start+1, ..., start+n-1. -/
def for_up {σ : Type} (body : Nat → σ → Except fault σ) : Nat → Nat → σ → Except fault σ
  | 0, _, s => .ok s
  | n + 1, i, s =>
    match body i s with
    | .error e => .error e
    | .ok s1 => for_up body n (i + 1) s1

/-- The function init_stack: capacity+1 slots, top_of_stack 0.  The slots
returned by malloc hold unspecified values; they are modelled as (0,0). -/
def init_stack (capacity : Nat) : stack :=
  { cell_list := List.replicate (capacity + 1) ⟨0, 0⟩, top_of_stack := 0, capacity := capacity }

/-- The function stack_pop: reads the slot at top_of_stack, then decrements
top_of_stack unless it is 0. -/
def stack_pop (s : stack) : Except fault (cell × stack) :=
  match s.cell_list[s.top_of_stack]? with
  | none => .error .out_of_bounds
  | some c =>
    .ok (c, if s.top_of_stack > 0 then { s with top_of_stack := s.top_of_stack - 1 } else s)

/-- The function stack_push: returns -1 at capacity, else advances
top_of_stack, stores the cell there and returns 0. -/
def stack_push (s : stack) (c : cell) : Except fault (Int × stack) :=
  if s.top_of_stack = s.capacity then .ok (-1, s)
  else if s.top_of_stack + 1 < s.cell_list.length then
    .ok (0, { s with top_of_stack := s.top_of_stack + 1,
                     cell_list := s.cell_list.set (s.top_of_stack + 1) c })
  else .error .out_of_bounds

/-- The function stack_isempty. -/
def stack_isempty (s : stack) : Bool := s.top_of_stack == 0

/-- The function mark_visited. -/
def mark_visited (m : maze) (c : cell) : Except fault maze :=
  set_cell m c.y c.x 'v'

/-- The function cell_to_matrix_idx. -/
def cell_to_matrix_idx (m : maze) (c : Int) : Int :=
  ((m.cell_size : Int) + 1) * c + ((m.cell_size / 2 : Nat) : Int) + 1

/-- The function maze_dimension_to_matrix. -/
def maze_dimension_to_matrix (m : maze) (dimension : Int) : Int :=
  ((m.cell_size : Int) + 1) * dimension + 1

/-- The function matrix_idx_prev_cell. -/
def matrix_idx_prev_cell (m : maze) (cell_num : Int) : Int :=
  cell_num - ((m.cell_size : Int) + 1)

/-- The function matrix_idx_next_cell. -/
def matrix_idx_next_cell (m : maze) (cell_num : Int) : Int :=
  cell_num + ((m.cell_size : Int) + 1)

/-- One of the four tests of get_available_neighbours: when the bound test
holds, read the matrix at (row, col) and append the cell unless it is 'v'.
The read happens only when the bound test holds, as with the operator &&. -/
def check_neighbour (m : maze) (bound : Bool) (row col : Int) (neighbours : List cell) :
    Except fault (List cell) :=
  if bound then
    match mat_get m.a row col with
    | .error e => .error e
    | .ok ch => .ok (if ch ≠ 'v' then neighbours ++ [⟨col, row⟩] else neighbours)
  else .ok neighbours

/-- The function get_available_neighbours: the list holds neighbours[0..num-1],
its length is the returned count.  Order of the tests: above, left, right, below. -/
def get_available_neighbours (m : maze) (c : cell) : Except fault (List cell) :=
  match check_neighbour m (decide (c.y > cell_to_matrix_idx m 0))
      (matrix_idx_prev_cell m c.y) c.x [] with
  | .error e => .error e
  | .ok n1 =>
    match check_neighbour m (decide (c.x > cell_to_matrix_idx m 0))
        c.y (matrix_idx_prev_cell m c.x) n1 with
    | .error e => .error e
    | .ok n2 =>
      match check_neighbour m (decide (c.x < cell_to_matrix_idx m ((m.w : Int) - 1)))
          c.y (matrix_idx_next_cell m c.x) n2 with
      | .error e => .error e
      | .ok n3 =>
        check_neighbour m (decide (c.y < cell_to_matrix_idx m ((m.h : Int) - 1)))
          (matrix_idx_next_cell m c.y) c.x n3

/-- The function remove_wall.  The quotient ((int)a.x-(int)b.x)/2 is the
truncating division of C. -/
def remove_wall (m : maze) (a b : cell) : Except fault maze :=
  if a.y = b.y then
    for_up (fun i m1 =>
      set_cell m1 (a.y - ((m.cell_size / 2 : Nat) : Int) + (i : Int))
        (a.x - Int.tdiv (a.x - b.x) 2) ' ') m.cell_size 0 m
  else
    for_up (fun i m1 =>
      set_cell m1 (a.y - Int.tdiv (a.y - b.y) 2)
        (a.x - ((m.cell_size / 2 : Nat) : Int) + (i : Int)) ' ') m.cell_size 0 m

/-- The function fill_cell. -/
def fill_cell (m : maze) (c : cell) (value : Char) : Except fault maze :=
  for_up (fun i m1 =>
    for_up (fun j m2 =>
      set_cell m2 (c.y - ((m.cell_size / 2 : Nat) : Int) + (i : Int))
        (c.x - ((m.cell_size / 2 : Nat) : Int) + (j : Int)) value) m.cell_size 0 m1)
    m.cell_size 0 m

/-- Lines 203-225 of generate_maze: the maze record, the stack, the matrix
filled with walls, the start cell on the left border, marked and pushed. -/
def gen_init (width height cell_size : Nat) (rand : Nat → Nat) : Except fault gen_state :=
  let m0 : maze := { a := [], w := width, h := height, cell_size := cell_size }
  let st0 := init_stack (width * height)
  let rows := (maze_dimension_to_matrix m0 height).toNat
  let cols := (maze_dimension_to_matrix m0 width).toNat
  let m1 : maze := { m0 with a := List.replicate rows (List.replicate cols WALL) }
  match c_mod (rand 0) height with
  | .error e => .error e
  | .ok r =>
    let c : cell := ⟨cell_to_matrix_idx m1 0, cell_to_matrix_idx m1 r⟩
    match mark_visited m1 c with
    | .error e => .error e
    | .ok m2 =>
      match stack_push st0 c with
      | .error e => .error e
      | .ok (ret, st1) =>
        .ok { maze := m2, stack := st1, rng := 1, log := [event.mark c, event.push c ret] }

/-- The body of the while loop of generate_maze (lines 228-244). -/
def walk_step (rand : Nat → Nat) (s : gen_state) : Except fault gen_state :=
  match stack_pop s.stack with
  | .error e => .error e
  | .ok (c, st1) =>
    match get_available_neighbours s.maze c with
    | .error e => .error e
    | .ok neighbours =>
      if neighbours.length > 0 then
        match stack_push st1 c with
        | .error e => .error e
        | .ok (r1, st2) =>
          match c_mod (rand s.rng) neighbours.length with
          | .error e => .error e
          | .ok k =>
            match neighbours[k]? with
            | none => .error .out_of_bounds
            | some next =>
              match mark_visited s.maze next with
              | .error e => .error e
              | .ok m1 =>
                match remove_wall m1 c next with
                | .error e => .error e
                | .ok m2 =>
                  match stack_push st2 next with
                  | .error e => .error e
                  | .ok (r2, st3) =>
                    .ok { maze := m2, stack := st3, rng := s.rng + 1,
                          log := s.log ++ [event.pop c, event.push c r1, event.mark next,
                                           event.remove_wall c next, event.push next r2] }
      else .ok { s with stack := st1, log := s.log ++ [event.pop c] }

/-- The while loop of generate_maze (line 227), with fuel: one unit per test
of the loop condition. -/
def walk (rand : Nat → Nat) : Nat → gen_state → Except fault gen_state
  | 0, _ => .error .out_of_fuel
  | fuel + 1, s =>
    if stack_isempty s.stack then .ok s
    else
      match walk_step rand s with
      | .error e => .error e
      | .ok s1 => walk rand fuel s1

/-- The body of the loops of lines 248-254 of generate_maze: a matrix position
holding 'v' has fill_cell applied to it. -/
def unmark_at (m : maze) (row col : Nat) : Except fault maze :=
  match mat_get m.a (row : Int) (col : Int) with
  | .error e => .error e
  | .ok ch => if ch = 'v' then fill_cell m ⟨(col : Int), (row : Int)⟩ ' ' else .ok m

/-- Lines 248-254 of generate_maze: the scan of the whole matrix, rows then
columns. -/
def unmark (m : maze) (width height : Nat) : Except fault maze :=
  for_up (fun row m1 =>
    for_up (fun col m2 => unmark_at m2 row col)
      (maze_dimension_to_matrix m width).toNat 0 m1)
    (maze_dimension_to_matrix m height).toNat 0 m

/-- Lines 258-259 of generate_maze: the loop over row upwards from its second
argument, for the given number of remaining iterations. -/
def carve_entrance (m : maze) : Nat → Nat → Except fault maze
  | 0, _ => .ok m
  | n + 1, row =>
    match mat_get m.a row 1 with
    | .error e => .error e
    | .ok ch =>
      if ch = ' ' then set_cell m row 0 ' '
      else carve_entrance m n (row + 1)

/-- Lines 262-266 of generate_maze: the loop over row downwards; the argument
is row+1, so 0 means row has passed below 0. -/
def carve_exit (m : maze) (width : Nat) : Nat → Except fault maze
  | 0 => .ok m
  | row + 1 =>
    match mat_get m.a row (cell_to_matrix_idx m ((width : Int) - 1)) with
    | .error e => .error e
    | .ok ch =>
      if ch = ' ' then set_cell m row (maze_dimension_to_matrix m width - 1) ' '
      else carve_exit m width row

/-- Lines 273-277 of generate_maze: one do-while loop and the write of the
potion.  One unit of fuel per draw of (row, col). -/
def place_potion (rand : Nat → Nat) : Nat → gen_state → Except fault gen_state
  | 0, _ => .error .out_of_fuel
  | fuel + 1, s =>
    match c_mod (rand s.rng) (s.maze.h - 1) with
    | .error e => .error e
    | .ok row =>
      match c_mod (rand (s.rng + 1)) (s.maze.w - 1) with
      | .error e => .error e
      | .ok col =>
        match mat_get s.maze.a row col with
        | .error e => .error e
        | .ok ch =>
          if ch ≠ ' ' then place_potion rand fuel { s with rng := s.rng + 2 }
          else
            match set_cell s.maze row col POTION with
            | .error e => .error e
            | .ok m1 => .ok { s with rng := s.rng + 2, maze := m1 }

/-- Lines 203-269 of generate_maze: everything before the potions.  The
result carries the matrix dimensions in the fields w and h. -/
def build_maze (width height cell_size : Nat) (rand : Nat → Nat) (fuel : Nat) :
    Except fault gen_state :=
  match gen_init width height cell_size rand with
  | .error e => .error e
  | .ok s0 =>
    match walk rand fuel s0 with
    | .error e => .error e
    | .ok s1 =>
      match unmark s1.maze width height with
      | .error e => .error e
      | .ok m2 =>
        match carve_entrance m2 (maze_dimension_to_matrix m2 height).toNat 0 with
        | .error e => .error e
        | .ok m3 =>
          match carve_exit m3 width (maze_dimension_to_matrix m3 height).toNat with
          | .error e => .error e
          | .ok m4 =>
            .ok { s1 with maze := { m4 with w := (maze_dimension_to_matrix m4 m4.w).toNat,
                                            h := (maze_dimension_to_matrix m4 m4.h).toNat } }

/-- Lines 272-278 of generate_maze: NEEDED_POTIONS potions, one after another. -/
def place_potions (rand : Nat → Nat) (fuel : Nat) (s : gen_state) : Except fault gen_state :=
  for_up (fun _ s1 => place_potion rand fuel s1) NEEDED_POTIONS 0 s

/-- The function generate_maze, with its final state.  The argument rand is
the stream of values of rand() after srand(rand_seed); fuel bounds the walk
loop and each rejection-sampling loop. -/
def generate_maze_state (width height cell_size : Nat) (rand : Nat → Nat) (fuel : Nat) :
    Except fault gen_state :=
  match build_maze width height cell_size rand fuel with
  | .error e => .error e
  | .ok s => place_potions rand fuel s

/-- The function generate_maze: the returned struct maze. -/
def generate_maze (width height cell_size : Nat) (rand : Nat → Nat) (fuel : Nat) :
    Except fault maze :=
  match generate_maze_state width height cell_size rand fuel with
  | .error e => .error e
  | .ok s => .ok s.maze

/-- A stream of rand() values given by a finite list, continued with 0. -/
def rand_of (l : List Nat) : Nat → Nat := fun n => l.getD n 0

/-! ## Vocabulary of the specification -/

/-- The matrix a has H rows, each of W characters. -/
def Dims (a : List (List Char)) (H W : Nat) : Prop :=
  a.length = H ∧ ∀ row ∈ a, row.length = W

/-- Matrix index of the centre of the block of logical index c, as a natural
number: the value of cell_to_matrix_idx at c. -/
def ctr (cs c : Nat) : Nat := (cs + 1) * c + cs / 2 + 1

/-- The cell at the centre of the block of logical cell (x, y), computed with
cell_to_matrix_idx. -/
def centre (cs x y : Nat) : cell :=
  let m : maze := { a := [], w := 0, h := 0, cell_size := cs }
  ⟨cell_to_matrix_idx m (x : Int), cell_to_matrix_idx m (y : Int)⟩

/-- Logical cells (x, y) and (x1, y1) are neighbours in the grid graph. -/
def grid_adj (x y x1 y1 : Nat) : Prop :=
  (x = x1 ∧ (y + 1 = y1 ∨ y1 + 1 = y)) ∨ (y = y1 ∧ (x + 1 = x1 ∨ x1 + 1 = x))

/-- The cells marked visited, in the order of the calls of mark_visited. -/
def marks_of : List event → List cell
  | [] => []
  | event.mark c :: l => c :: marks_of l
  | _ :: l => marks_of l

/-- The pairs (current cell, chosen neighbour) of the calls of remove_wall, in order. -/
def walls_of : List event → List (cell × cell)
  | [] => []
  | event.remove_wall a b :: l => (a, b) :: walls_of l
  | _ :: l => walls_of l

/-- The calls of stack_push, in order: the cell pushed and the value returned. -/
def pushes_of : List event → List (cell × Int)
  | [] => []
  | event.push c r :: l => (c, r) :: pushes_of l
  | _ :: l => pushes_of l

/-- The cells on the stack, bottom first: slots 1..top_of_stack. -/
def stack_cells (st : stack) : List cell := (st.cell_list.drop 1).take st.top_of_stack

/-- True when the matrix holds the visited mark 'v' at (row, col). -/
def is_v (a : List (List Char)) (row col : Int) : Bool :=
  match mat_get a row col with
  | .ok ch => ch == 'v'
  | .error _ => false

/-- The centres of the grid neighbours of logical cell (x, y) in a grid of
w x h cells, in the order above, left, right, below. -/
def candidates (cs w h x y : Nat) : List cell :=
  (if 0 < y then [centre cs x (y - 1)] else []) ++
  (if 0 < x then [centre cs (x - 1) y] else []) ++
  (if x + 1 < w then [centre cs (x + 1) y] else []) ++
  (if y + 1 < h then [centre cs x (y + 1)] else [])

/-- The lists vs (cells in the order visited) and es (edges in the order
carved) grow a tree from a root: every edge joins a cell visited before to a
grid neighbour that was not visited before, which is visited next. -/
inductive grows (cs w h : Nat) : List cell → List (cell × cell) → Prop where
  | root (x y : Nat) (hx : x < w) (hy : y < h) : grows cs w h [centre cs x y] []
  | step (vs : List cell) (es : List (cell × cell)) (x y x1 y1 : Nat)
      (hg : grows cs w h vs es) (hx : x < w) (hy : y < h) (hx1 : x1 < w) (hy1 : y1 < h)
      (hadj : grid_adj x y x1 y1) (hin : centre cs x y ∈ vs) (hout : centre cs x1 y1 ∉ vs) :
      grows cs w h (vs ++ [centre cs x1 y1]) (es ++ [(centre cs x y, centre cs x1 y1)])

/-- The maze m1 differs from m at most in its matrix. -/
def frame_eq (m m1 : maze) : Prop :=
  m1.w = m.w ∧ m1.h = m.h ∧ m1.cell_size = m.cell_size

/-- Position (r, c) lies in the cs x cs block of logical cell (x, y): rows
(cs+1)*y+1 .. (cs+1)*y+cs, columns (cs+1)*x+1 .. (cs+1)*x+cs. -/
def in_block (cs x y : Nat) (r c : Int) : Prop :=
  (((cs + 1) * y : Nat) : Int) < r ∧ r ≤ (((cs + 1) * y + cs : Nat) : Int) ∧
  (((cs + 1) * x : Nat) : Int) < c ∧ c ≤ (((cs + 1) * x + cs : Nat) : Int)

/-- The line index written by remove_wall when stepping from logical index p
to the adjacent index q: the wall line (cs+1)*q when q = p+1, and
(cs+1)*p + 1 - cs % 2 when q = p-1. -/
def carve_line (cs p q : Nat) : Nat :=
  if p < q then (cs + 1) * q else (cs + 1) * p + 1 - cs % 2

/-- The positions written by remove_wall between the centres of the adjacent
logical cells (x, y) and (x1, y1). -/
def carved (cs x y x1 y1 : Nat) (r c : Int) : Prop :=
  if y = y1 then
    (((cs + 1) * y : Nat) : Int) < r ∧ r ≤ (((cs + 1) * y + cs : Nat) : Int) ∧
      c = (carve_line cs x x1 : Int)
  else
    (((cs + 1) * x : Nat) : Int) < c ∧ c ≤ (((cs + 1) * x + cs : Nat) : Int) ∧
      r = (carve_line cs y y1 : Int)

instance (cs x y : Nat) (r c : Int) : Decidable (in_block cs x y r c) := by
  unfold in_block; exact inferInstance

instance (cs x y x1 y1 : Nat) (r c : Int) : Decidable (carved cs x y x1 y1 r c) := by
  unfold carved; exact inferInstance

instance (x y x1 y1 : Nat) : Decidable (grid_adj x y x1 y1) := by
  unfold grid_adj; exact inferInstance

/-- The centres of all logical cells of a grid of w x h cells. -/
def all_centres (cs w h : Nat) : List cell :=
  (List.product (List.range w) (List.range h)).map (fun p => centre cs p.1 p.2)

/-- The invariant of the walk loop of generate_maze, at the test of the loop
condition, for a grid of w x h logical cells of size cs. -/
structure walk_inv (cs w h : Nat) (s : gen_state) : Prop where
  hw : s.maze.w = w
  hh : s.maze.h = h
  hcs : s.maze.cell_size = cs
  dims : Dims s.maze.a ((cs + 1) * h + 1) ((cs + 1) * w + 1)
  mat_v : ∀ r c : Int, mat_get s.maze.a r c = .ok 'v' ↔ (⟨c, r⟩ : cell) ∈ marks_of s.log
  mat_sp : ∀ r c : Int, mat_get s.maze.a r c = .ok ' ' ↔
    ∃ x y x1 y1, (centre cs x y, centre cs x1 y1) ∈ walls_of s.log ∧ carved cs x y x1 y1 r c
  content : ∀ (r c : Int) (ch : Char), mat_get s.maze.a r c = .ok ch →
    ch = 'w' ∨ ch = 'v' ∨ ch = ' '
  interior : ∀ (r c : Int) (ch : Char), mat_get s.maze.a r c = .ok ch → ch ≠ 'w' →
    1 ≤ r ∧ r + 1 < (((cs + 1) * h + 1 : Nat) : Int) ∧
    1 ≤ c ∧ c + 1 < (((cs + 1) * w + 1 : Nat) : Int)
  st_len : s.stack.cell_list.length = s.stack.capacity + 1
  st_cap : s.stack.capacity = w * h
  st_top : s.stack.top_of_stack ≤ s.stack.capacity
  st_nodup : (stack_cells s.stack).Nodup
  st_marked : ∀ c, c ∈ stack_cells s.stack → c ∈ marks_of s.log
  dfs : ∀ x y x1 y1, x < w → y < h → x1 < w → y1 < h → grid_adj x y x1 y1 →
    centre cs x y ∈ marks_of s.log → centre cs x y ∉ stack_cells s.stack →
    centre cs x1 y1 ∈ marks_of s.log
  tree : grows cs w h (marks_of s.log) (walls_of s.log)
  pushes_ok : ∀ p, p ∈ pushes_of s.log → p.2 = 0
  pushes_len : (pushes_of s.log).length + 1 = 2 * (marks_of s.log).length

/-- The while loop of generate_maze run for at most n iterations: the state
at the n-th test of the loop condition, or the final state if the loop ends
before. -/
def walk_upto (rand : Nat → Nat) : Nat → gen_state → Except fault gen_state
  | 0, s => .ok s
  | n + 1, s =>
    if stack_isempty s.stack then .ok s
    else
      match walk_step rand s with
      | .error e => .error e
      | .ok s1 => walk_upto rand n s1

/-- The maze m1 is m with the blocks of the logical cells selected by D
rewritten to passage: the state of the unmark pass once the centres selected
by D have been scanned. -/
def unmarked (cs w h : Nat) (D : Nat → Nat → Prop) (m m1 : maze) : Prop :=
  Dims m1.a ((cs + 1) * h + 1) ((cs + 1) * w + 1) ∧ frame_eq m m1 ∧
  (∀ r c : Int, (∃ x y, x < w ∧ y < h ∧ D x y ∧ in_block cs x y r c) →
    mat_get m1.a r c = .ok ' ') ∧
  (∀ r c : Int, ¬ (∃ x y, x < w ∧ y < h ∧ D x y ∧ in_block cs x y r c) →
    mat_get m1.a r c = mat_get m.a r c)

/-- The maze as it stands when the potions are about to be placed, for a grid
of w x h logical cells of size cs: the fields w and h hold the matrix
dimensions, every cell is wall or passage, every block is passage, the
entrance (1, 0) and the exit ((cs+1)*h - 1, (cs+1)*w) are passages, and every
other passage lies strictly inside the border. -/
structure built (cs w h : Nat) (m : maze) : Prop where
  hw : m.w = (cs + 1) * w + 1
  hh : m.h = (cs + 1) * h + 1
  hcs : m.cell_size = cs
  dims : Dims m.a ((cs + 1) * h + 1) ((cs + 1) * w + 1)
  content : ∀ (r c : Int) (ch : Char), mat_get m.a r c = .ok ch → ch = 'w' ∨ ch = ' '
  blocks : ∀ (r c : Int), (∃ x y, x < w ∧ y < h ∧ in_block cs x y r c) →
    mat_get m.a r c = .ok ' '
  entrance : mat_get m.a 1 0 = .ok ' '
  exit_cell : mat_get m.a ((((cs + 1) * h - 1 : Nat) : Int)) ((((cs + 1) * w : Nat) : Int))
    = .ok ' '
  border : ∀ (r c : Int) (ch : Char), mat_get m.a r c = .ok ch → ch ≠ 'w' →
    (1 ≤ r ∧ r + 1 < (((cs + 1) * h + 1 : Nat) : Int) ∧
      1 ≤ c ∧ c + 1 < (((cs + 1) * w + 1 : Nat) : Int)) ∨
    (r = 1 ∧ c = 0) ∨
    (r = ((((cs + 1) * h - 1 : Nat)) : Int) ∧ c = ((((cs + 1) * w : Nat)) : Int))

/-- Cells a and b are joined by a chain of edges of es, each used in either
direction. -/
inductive linked (es : List (cell × cell)) : cell → cell → Prop where
  | refl (a : cell) : linked es a a
  | step (a b c : cell) (hl : linked es a b) (he : (b, c) ∈ es ∨ (c, b) ∈ es) : linked es a c

/-- Number of occurrences of the glyph g in the matrix a. -/
def count_glyph (a : List (List Char)) (g : Char) : Nat :=
  (a.map (fun row => row.count g)).sum

/-- The cell (r, c) lies in the matrix and is not a wall. -/
def open_cell (a : List (List Char)) (r c : Int) : Prop :=
  ∃ ch, mat_get a r c = .ok ch ∧ ch ≠ WALL

/-- One move up, down, left or right. -/
def one_move (r c r1 c1 : Int) : Prop :=
  (r1 = r ∧ (c1 = c + 1 ∨ c1 + 1 = c)) ∨ (c1 = c ∧ (r1 = r + 1 ∨ r1 + 1 = r))

/-- The cell (r1, c1) is reached from (r, c) by up/down/left/right moves that
never step on a wall cell. -/
inductive reachable (a : List (List Char)) (r c : Int) : Int → Int → Prop where
  | start (h0 : open_cell a r c) : reachable a r c r c
  | move (r1 c1 r2 c2 : Int) (hr : reachable a r c r1 c1) (hm : one_move r1 c1 r2 c2)
      (ho : open_cell a r2 c2) : reachable a r c r2 c2

/-- The shape of the log of the walk: the initial mark and push, then one
group of calls per iteration of the loop: a pop alone when the cell is
retired; or the pop of the current cell, its push back, the mark of the chosen
neighbour, remove_wall between the two, and the push of the neighbour. -/
inductive log_shape : List event → Prop where
  | init (c : cell) (r : Int) : log_shape [event.mark c, event.push c r]
  | retire (l : List event) (c : cell) (hl : log_shape l) : log_shape (l ++ [event.pop c])
  | enter (l : List event) (c n : cell) (r1 r2 : Int) (hl : log_shape l) :
      log_shape (l ++ [event.pop c, event.push c r1, event.mark n, event.remove_wall c n,
        event.push n r2])

/-- A maze of 2 x 2 logical cells of cell_size 1, as it stands during the
walk (w and h hold the logical size) when only logical cell (0, 0) is marked. -/
def demo_maze : maze :=
  ⟨["wwwww".toList, "wvwww".toList, "wwwww".toList, "wwwww".toList, "wwwww".toList], 2, 2, 1⟩

/-- The test of exitMaze (line 315): playerHeight == h - 2 and
playerWidth + 1 == w - 1, the player standing left of the exit. -/
def exit_test (m : maze) (playerHeight playerWidth : Int) : Prop :=
  playerHeight = (m.h : Int) - 2 ∧ playerWidth + 1 = (m.w : Int) - 1

/-- Number of calls of stack_push with the cell c in the log l. -/
def pushes_at (l : List event) (c : cell) : Nat :=
  (pushes_of l).countP (fun p => decide (p.1 = c))

/-- Number of calls of remove_wall from the cell c in the log l: the number
of neighbours entered from c. -/
def entered_from (l : List event) (c : cell) : Nat :=
  (walls_of l).countP (fun e => decide (e.1 = c))

/-! ## Matrix reads and writes -/

theorem mat_get_bounds {a : List (List Char)} {H W : Nat} (hd : Dims a H W) {r c : Int}
    {ch : Char} (h : mat_get a r c = .ok ch) : 0 ≤ r ∧ r < H ∧ 0 ≤ c ∧ c < W := by
  unfold mat_get at h
  split at h
  · rename_i hrc
    split at h
    · cases h
    · rename_i row hrow
      split at h
      · cases h
      · rename_i ch1 hch
        have h1 := List.getElem?_eq_some_iff.mp hrow
        obtain ⟨hlt, hrow2⟩ := h1
        have hmem : row ∈ a := by rw [← hrow2]; exact List.getElem_mem _
        have h2 := List.getElem?_eq_some_iff.mp hch
        obtain ⟨hlt2, _⟩ := h2
        rw [hd.2 row hmem] at hlt2
        rw [hd.1] at hlt
        omega
  · cases h

theorem mat_get_inb {a : List (List Char)} {H W : Nat} (hd : Dims a H W) {r c : Int}
    (hr0 : 0 ≤ r) (hr : r < H) (hc0 : 0 ≤ c) (hc : c < W) : ∃ ch, mat_get a r c = .ok ch := by
  unfold mat_get
  have hlt : r.toNat < a.length := by rw [hd.1]; omega
  have hmem : a[r.toNat] ∈ a := List.getElem_mem _
  have hlt2 : c.toNat < (a[r.toNat]).length := by rw [hd.2 _ hmem]; omega
  refine ⟨(a[r.toNat])[c.toNat], ?_⟩
  simp [hr0, hc0, List.getElem?_eq_getElem hlt, List.getElem?_eq_getElem hlt2]

theorem mat_set_inb {a : List (List Char)} {H W : Nat} (hd : Dims a H W) {r c : Int} (v : Char)
    (hr0 : 0 ≤ r) (hr : r < H) (hc0 : 0 ≤ c) (hc : c < W) : ∃ a1, mat_set a r c v = .ok a1 := by
  unfold mat_set
  have hlt : r.toNat < a.length := by rw [hd.1]; omega
  have hmem : a[r.toNat] ∈ a := List.getElem_mem _
  have hlt2 : c.toNat < (a[r.toNat]).length := by rw [hd.2 _ hmem]; omega
  simp [hr0, hc0, List.getElem?_eq_getElem hlt, hlt2]

theorem mat_set_dims {a a1 : List (List Char)} {H W : Nat} (hd : Dims a H W) {r c : Int}
    {v : Char} (h : mat_set a r c v = .ok a1) : Dims a1 H W := by
  unfold mat_set at h
  split at h
  · split at h
    · cases h
    · rename_i row hrow
      split at h
      · cases h
        obtain ⟨hlt, hrow2⟩ := List.getElem?_eq_some_iff.mp hrow
        have hmem : row ∈ a := by rw [← hrow2]; exact List.getElem_mem _
        refine ⟨by simp [hd.1], ?_⟩
        intro row1 hrow1
        rcases List.mem_or_eq_of_mem_set hrow1 with h1 | h1
        · exact hd.2 _ h1
        · rw [h1, List.length_set]; exact hd.2 _ hmem
      · cases h
  · cases h

theorem mat_get_set {a a1 : List (List Char)} {r c : Int} {v : Char}
    (h : mat_set a r c v = .ok a1) (r1 c1 : Int) :
    mat_get a1 r1 c1 = if r1 = r ∧ c1 = c then .ok v else mat_get a r1 c1 := by
  unfold mat_set at h
  split at h
  · rename_i hrc
    split at h
    · cases h
    · rename_i row hrow
      split at h
      · rename_i hclt
        cases h
        obtain ⟨hlt, hrow2⟩ := List.getElem?_eq_some_iff.mp hrow
        unfold mat_get
        by_cases h0 : 0 ≤ r1 ∧ 0 ≤ c1
        · simp only [h0, and_self, if_true]
          by_cases hr : r1 = r
          · subst hr
            simp only [List.getElem?_set, if_true, hlt, true_and]
            by_cases hc : c1 = c
            · subst hc
              simp [hclt]
            · have : ¬ c.toNat = c1.toNat := by omega
              simp [hc, this, hrow]
          · have : ¬ r.toNat = r1.toNat := by omega
            simp [hr, this, List.getElem?_set]
        · have : ¬ (r1 = r ∧ c1 = c) := by
            rintro ⟨rfl, rfl⟩; exact h0 hrc
          simp [h0, this]
      · cases h
  · cases h

/-! ## Bounded loops -/

theorem for_up_spec {σ : Type} (body : Nat → σ → Except fault σ) (P : Nat → σ → Prop) :
    ∀ (n start : Nat) (s : σ),
      (∀ i s0, start ≤ i → i < start + n → P i s0 → ∃ s1, body i s0 = .ok s1 ∧ P (i + 1) s1) →
      P start s → ∃ s1, for_up body n start s = .ok s1 ∧ P (start + n) s1 := by
  intro n
  induction n with
  | zero => intro start s _ hP; exact ⟨s, rfl, hP⟩
  | succ n ih =>
    intro start s hbody hP
    obtain ⟨s1, hs1, hP1⟩ := hbody start s (le_refl _) (by omega) hP
    obtain ⟨s2, hs2, hP2⟩ := ih (start + 1) s1
      (fun i s0 hi hi2 hPi => hbody i s0 (by omega) (by omega) hPi) hP1
    refine ⟨s2, ?_, ?_⟩
    · simp only [for_up, hs1, hs2]
    · have : start + (n + 1) = start + 1 + n := by omega
      rw [this]; exact hP2

theorem for_up_ok_inv {σ : Type} (body : Nat → σ → Except fault σ) (P : σ → Prop) :
    ∀ (n start : Nat) (s s2 : σ),
      (∀ i s0 s1, P s0 → body i s0 = .ok s1 → P s1) →
      P s → for_up body n start s = .ok s2 → P s2 := by
  intro n
  induction n with
  | zero => intro start s s2 _ hP h; simp only [for_up] at h; cases h; exact hP
  | succ n ih =>
    intro start s s2 hbody hP h
    simp only [for_up] at h
    split at h
    · cases h
    · rename_i s1 hs1
      exact ih (start + 1) s1 s2 hbody (hbody _ _ _ hP hs1) h

/-! ## Writes to the matrix -/

theorem frame_eq_refl (m : maze) : frame_eq m m := ⟨rfl, rfl, rfl⟩

theorem frame_eq_trans {m m1 m2 : maze} (h1 : frame_eq m m1) (h2 : frame_eq m1 m2) :
    frame_eq m m2 :=
  ⟨h2.1.trans h1.1, h2.2.1.trans h1.2.1, h2.2.2.trans h1.2.2⟩

theorem set_cell_ok {m m1 : maze} {r c : Int} {v : Char} (h : set_cell m r c v = .ok m1) :
    mat_set m.a r c v = .ok m1.a ∧ frame_eq m m1 := by
  unfold set_cell at h
  split at h
  · cases h
  · rename_i a1 ha1
    cases h
    exact ⟨ha1, rfl, rfl, rfl⟩

theorem set_cell_get {m m1 : maze} {r c : Int} {v : Char} (h : set_cell m r c v = .ok m1)
    (r1 c1 : Int) :
    mat_get m1.a r1 c1 = if r1 = r ∧ c1 = c then .ok v else mat_get m.a r1 c1 :=
  mat_get_set (set_cell_ok h).1 r1 c1

theorem set_cell_dims {m m1 : maze} {H W : Nat} {r c : Int} {v : Char}
    (hd : Dims m.a H W) (h : set_cell m r c v = .ok m1) : Dims m1.a H W :=
  mat_set_dims hd (set_cell_ok h).1

theorem set_cell_inb {m : maze} {H W : Nat} (hd : Dims m.a H W) {r c : Int} (v : Char)
    (hr0 : 0 ≤ r) (hr : r < H) (hc0 : 0 ≤ c) (hc : c < W) :
    ∃ m1, set_cell m r c v = .ok m1 := by
  obtain ⟨a1, ha1⟩ := mat_set_inb hd v hr0 hr hc0 hc
  exact ⟨{ m with a := a1 }, by simp [set_cell, ha1]⟩

/-- A loop of n writes of v at the positions (R i, C i), all inside the matrix. -/
theorem strip_spec (R C : Nat → Int) (v : Char) (n : Nat) (m : maze) {H W : Nat}
    (hd : Dims m.a H W)
    (hin : ∀ i, i < n → 0 ≤ R i ∧ R i < H ∧ 0 ≤ C i ∧ C i < W) :
    ∃ m1, for_up (fun i m0 => set_cell m0 (R i) (C i) v) n 0 m = .ok m1 ∧
      Dims m1.a H W ∧ frame_eq m m1 ∧
      ∀ r c, mat_get m1.a r c =
        if ∃ i, i < n ∧ r = R i ∧ c = C i then .ok v else mat_get m.a r c := by
  have key := for_up_spec (fun i m0 => set_cell m0 (R i) (C i) v)
    (fun k m0 => Dims m0.a H W ∧ frame_eq m m0 ∧
      ∀ r c, mat_get m0.a r c =
        if ∃ i, i < k ∧ r = R i ∧ c = C i then .ok v else mat_get m.a r c) n 0 m
  simp only [Nat.zero_add] at key
  apply key
  · intro i s0 _ hi ⟨hd0, hf0, hg0⟩
    obtain ⟨hr0, hr, hc0, hc⟩ := hin i hi
    obtain ⟨m1, hm1⟩ := set_cell_inb hd0 v hr0 hr hc0 hc
    refine ⟨m1, hm1, set_cell_dims hd0 hm1, frame_eq_trans hf0 (set_cell_ok hm1).2, ?_⟩
    intro r c
    rw [set_cell_get hm1, hg0]
    by_cases h1 : r = R i ∧ c = C i
    · have h4 : ∃ j, j < i + 1 ∧ r = R j ∧ c = C j := ⟨i, by omega, h1⟩
      rw [if_pos h1, if_pos h4]
    · by_cases h2 : ∃ j, j < i ∧ r = R j ∧ c = C j
      · obtain ⟨j, hj, hj2⟩ := h2
        have h3 : ∃ j, j < i ∧ r = R j ∧ c = C j := ⟨j, hj, hj2⟩
        have h4 : ∃ j, j < i + 1 ∧ r = R j ∧ c = C j := ⟨j, by omega, hj2⟩
        simp only [h1, h3, h4, if_true, if_false]
      · have h4 : ¬ ∃ j, j < i + 1 ∧ r = R j ∧ c = C j := by
          rintro ⟨j, hj, hj2⟩
          rcases Nat.lt_succ_iff_lt_or_eq.mp hj with h5 | h5
          · exact h2 ⟨j, h5, hj2⟩
          · subst h5; exact h1 hj2
        simp only [h1, h2, h4, if_false]
  · refine ⟨hd, frame_eq_refl m, ?_⟩
    intro r c
    simp

/-- A loop nest of n x k writes of v at the positions (R i, C j), all inside the matrix. -/
theorem rect_spec (R C : Nat → Int) (v : Char) (n k : Nat) (m : maze) {H W : Nat}
    (hd : Dims m.a H W)
    (hinR : ∀ i, i < n → 0 ≤ R i ∧ R i < H) (hinC : ∀ j, j < k → 0 ≤ C j ∧ C j < W) :
    ∃ m1, for_up (fun i m0 => for_up (fun j m2 => set_cell m2 (R i) (C j) v) k 0 m0) n 0 m
        = .ok m1 ∧
      Dims m1.a H W ∧ frame_eq m m1 ∧
      ∀ r c, mat_get m1.a r c =
        if (∃ i, i < n ∧ r = R i) ∧ (∃ j, j < k ∧ c = C j) then .ok v else mat_get m.a r c := by
  have key := for_up_spec
    (fun i m0 => for_up (fun j m2 => set_cell m2 (R i) (C j) v) k 0 m0)
    (fun t m0 => Dims m0.a H W ∧ frame_eq m m0 ∧
      ∀ r c, mat_get m0.a r c =
        if (∃ i, i < t ∧ r = R i) ∧ (∃ j, j < k ∧ c = C j) then .ok v else mat_get m.a r c)
    n 0 m
  simp only [Nat.zero_add] at key
  apply key
  · intro i s0 _ hi ⟨hd0, hf0, hg0⟩
    obtain ⟨m1, hm1, hd1, hf1, hg1⟩ := strip_spec (fun _ => R i) C v k s0 hd0
      (fun j hj => ⟨(hinR i hi).1, (hinR i hi).2, (hinC j hj).1, (hinC j hj).2⟩)
    refine ⟨m1, hm1, hd1, frame_eq_trans hf0 hf1, ?_⟩
    intro r c
    rw [hg1, hg0]
    by_cases hc : ∃ j, j < k ∧ c = C j
    · by_cases h1 : r = R i
      · have h2 : ∃ j, j < k ∧ r = R i ∧ c = C j := by
          obtain ⟨j, hj, hj2⟩ := hc; exact ⟨j, hj, h1, hj2⟩
        have h3 : ∃ t, t < i + 1 ∧ r = R t := ⟨i, by omega, h1⟩
        simp only [h2, h3, hc, and_self, if_true]
      · have h2 : ¬ ∃ j, j < k ∧ r = R i ∧ c = C j := by
          rintro ⟨j, _, hj2, _⟩; exact h1 hj2
        have h3 : (∃ t, t < i + 1 ∧ r = R t) ↔ (∃ t, t < i ∧ r = R t) := by
          constructor
          · rintro ⟨t, ht, ht2⟩
            rcases Nat.lt_succ_iff_lt_or_eq.mp ht with h5 | h5
            · exact ⟨t, h5, ht2⟩
            · subst h5; exact absurd ht2 h1
          · rintro ⟨t, ht, ht2⟩; exact ⟨t, by omega, ht2⟩
        simp only [h2, h3, if_false]
    · have h2 : ¬ ∃ j, j < k ∧ r = R i ∧ c = C j := by
        rintro ⟨j, hj, _, hj2⟩; exact hc ⟨j, hj, hj2⟩
      simp only [h2, hc, and_false, if_false]
  · refine ⟨hd, frame_eq_refl m, ?_⟩
    intro r c
    simp

/-! ## Stack contents -/

theorem stack_cells_length {st : stack} (hlen : st.cell_list.length = st.capacity + 1)
    (htop : st.top_of_stack ≤ st.capacity) : (stack_cells st).length = st.top_of_stack := by
  simp [stack_cells, List.length_take, List.length_drop, hlen]
  omega

theorem stack_push_cells (st : stack) (c : cell)
    (hlen : st.cell_list.length = st.capacity + 1) (htop : st.top_of_stack < st.capacity) :
    ∃ st1, stack_push st c = .ok (0, st1) ∧ stack_cells st1 = stack_cells st ++ [c] ∧
      st1.top_of_stack = st.top_of_stack + 1 ∧ st1.capacity = st.capacity ∧
      st1.cell_list.length = st1.capacity + 1 := by
  have h1 : ¬ st.top_of_stack = st.capacity := by omega
  have h2 : st.top_of_stack + 1 < st.cell_list.length := by omega
  refine ⟨{ st with top_of_stack := st.top_of_stack + 1,
                    cell_list := st.cell_list.set (st.top_of_stack + 1) c }, ?_, ?_, rfl, rfl, ?_⟩
  · simp only [stack_push, h1, h2, if_true, if_false]
  · apply List.ext_getElem?
    intro i
    simp only [stack_cells, List.getElem?_take, List.getElem?_drop, List.getElem?_set,
      List.getElem?_append, List.length_take, List.length_drop]
    have h3 : min st.top_of_stack (st.cell_list.length - 1) = st.top_of_stack := by omega
    rw [h3]
    by_cases hi : i < st.top_of_stack
    · have h4 : ¬ st.top_of_stack + 1 = 1 + i := by omega
      have h5 : i < st.top_of_stack + 1 := by omega
      simp [hi, h4, h5]
    · by_cases hi2 : i = st.top_of_stack
      · subst hi2
        have h4 : st.top_of_stack + 1 = 1 + st.top_of_stack := by omega
        simp [h4]
        omega
      · have h5 : ¬ i < st.top_of_stack + 1 := by omega
        have h6 : i - st.top_of_stack ≠ 0 := by omega
        simp [hi, h5]
        cases hk : i - st.top_of_stack with
        | zero => omega
        | succ k => simp
  · simp [hlen]

theorem stack_pop_cells {st : stack}
    (hlen : st.cell_list.length = st.capacity + 1) (htop : st.top_of_stack ≤ st.capacity)
    (hpos : 0 < st.top_of_stack) :
    ∃ c st1, stack_pop st = .ok (c, st1) ∧ stack_cells st = stack_cells st1 ++ [c] ∧
      st1.top_of_stack + 1 = st.top_of_stack ∧ st1.capacity = st.capacity ∧
      st1.cell_list.length = st1.capacity + 1 := by
  have h2 : st.top_of_stack < st.cell_list.length := by omega
  refine ⟨st.cell_list[st.top_of_stack], { st with top_of_stack := st.top_of_stack - 1 },
    ?_, ?_, ?_, rfl, hlen⟩
  · simp [stack_pop, List.getElem?_eq_getElem h2, hpos]
  · apply List.ext_getElem?
    intro i
    simp only [stack_cells, List.getElem?_take, List.getElem?_drop,
      List.getElem?_append, List.length_take, List.length_drop]
    have h3 : min (st.top_of_stack - 1) (st.cell_list.length - 1) = st.top_of_stack - 1 := by
      omega
    rw [h3]
    by_cases hi : i < st.top_of_stack - 1
    · have h5 : i < st.top_of_stack := by omega
      simp [hi, h5]
    · by_cases hi2 : i = st.top_of_stack - 1
      · subst hi2
        have h4 : 1 + (st.top_of_stack - 1) = st.top_of_stack := by omega
        have h5 : st.top_of_stack - 1 < st.top_of_stack := by omega
        simp [h4, h5, List.getElem?_eq_getElem h2]
      · have h5 : ¬ i < st.top_of_stack := by omega
        simp [hi, h5]
        cases hk : i - (st.top_of_stack - 1) with
        | zero => omega
        | succ k => simp
  · show st.top_of_stack - 1 + 1 = st.top_of_stack
    omega

/-! ## Geometry of blocks and centres -/

theorem c2m_nat (m : maze) (c : Nat) :
    cell_to_matrix_idx m (c : Int) = ((ctr m.cell_size c : Nat) : Int) := by
  simp only [cell_to_matrix_idx, ctr]
  push_cast
  ring

theorem centre_eq (cs x y : Nat) :
    centre cs x y = ⟨((ctr cs x : Nat) : Int), ((ctr cs y : Nat) : Int)⟩ := by
  simp only [centre, c2m_nat]

theorem centre_x (cs x y : Nat) : (centre cs x y).x = ((ctr cs x : Nat) : Int) := by
  rw [centre_eq]

theorem centre_y (cs x y : Nat) : (centre cs x y).y = ((ctr cs y : Nat) : Int) := by
  rw [centre_eq]

theorem mul_succ_le (cs : Nat) {x w : Nat} (h : x < w) :
    (cs + 1) * x + (cs + 1) ≤ (cs + 1) * w := by
  have h1 : (cs + 1) * (x + 1) ≤ (cs + 1) * w := Nat.mul_le_mul_left _ h
  rw [Nat.mul_succ] at h1
  exact h1

theorem ctr_succ (cs x : Nat) : ctr cs (x + 1) = ctr cs x + (cs + 1) := by
  simp only [ctr, Nat.mul_succ]
  omega

theorem ctr_zero (cs : Nat) : ctr cs 0 = cs / 2 + 1 := by
  simp [ctr]

theorem ctr_lt_of_lt (cs : Nat) {x x1 : Nat} (h : x < x1) : ctr cs x + (cs + 1) ≤ ctr cs x1 := by
  have := mul_succ_le cs h
  simp only [ctr]
  omega

theorem ctr_lt_iff (cs : Nat) {x x1 : Nat} : ctr cs x < ctr cs x1 ↔ x < x1 := by
  constructor
  · intro h
    by_contra hn
    rcases Nat.lt_or_ge x1 x with h1 | h1
    · have := ctr_lt_of_lt cs h1; omega
    · have : x = x1 := by omega
      subst this; omega
  · intro h
    have := ctr_lt_of_lt cs h
    omega

theorem ctr_inj (cs : Nat) {x x1 : Nat} (h : ctr cs x = ctr cs x1) : x = x1 := by
  rcases Nat.lt_trichotomy x x1 with h1 | h1 | h1
  · have := ctr_lt_of_lt cs h1; omega
  · exact h1
  · have := ctr_lt_of_lt cs h1; omega

theorem centre_inj {cs x y x1 y1 : Nat} (h : centre cs x y = centre cs x1 y1) :
    x = x1 ∧ y = y1 := by
  rw [centre_eq, centre_eq] at h
  injection h with h1 h2
  exact ⟨ctr_inj cs (by exact_mod_cast h1), ctr_inj cs (by exact_mod_cast h2)⟩

/-- The centre of an index inside a dimension of n logical cells lies in the
block of that index, hence strictly inside the matrix extent (cs+1)*n+1. -/
theorem ctr_bounds {cs : Nat} (hcs : 1 ≤ cs) {x n : Nat} (h : x < n) :
    (cs + 1) * x + 1 ≤ ctr cs x ∧ ctr cs x ≤ (cs + 1) * x + cs ∧
      (cs + 1) * x + cs + 1 ≤ (cs + 1) * n := by
  have := mul_succ_le cs h
  simp only [ctr]
  omega

theorem exists_offset (b r : Int) (n : Nat) :
    (∃ i : Nat, i < n ∧ r = b + (i : Int)) ↔ b ≤ r ∧ r < b + n := by
  constructor
  · rintro ⟨i, hi, rfl⟩; omega
  · rintro ⟨h1, h2⟩
    exact ⟨(r - b).toNat, by omega, by omega⟩

theorem in_block_centre {cs : Nat} (hcs : 1 ≤ cs) (x y : Nat) :
    in_block cs x y ((ctr cs y : Nat) : Int) ((ctr cs x : Nat) : Int) := by
  simp only [in_block, ctr]
  omega

theorem in_block_inj {cs x y x1 y1 : Nat} {r c : Int} (h : in_block cs x y r c)
    (h1 : in_block cs x1 y1 r c) : x = x1 ∧ y = y1 := by
  obtain ⟨a1, a2, a3, a4⟩ := h
  obtain ⟨b1, b2, b3, b4⟩ := h1
  constructor
  · rcases Nat.lt_trichotomy x x1 with h2 | h2 | h2
    · have := mul_succ_le cs h2; omega
    · exact h2
    · have := mul_succ_le cs h2; omega
  · rcases Nat.lt_trichotomy y y1 with h2 | h2 | h2
    · have := mul_succ_le cs h2; omega
    · exact h2
    · have := mul_succ_le cs h2; omega

theorem fill_cell_centre {m : maze} {cs w h : Nat} (hcs : m.cell_size = cs) (hcs1 : 1 ≤ cs)
    (hd : Dims m.a ((cs + 1) * h + 1) ((cs + 1) * w + 1)) {x y : Nat} (hx : x < w) (hy : y < h)
    (v : Char) :
    ∃ m1, fill_cell m (centre cs x y) v = .ok m1 ∧
      Dims m1.a ((cs + 1) * h + 1) ((cs + 1) * w + 1) ∧ frame_eq m m1 ∧
      ∀ r c, mat_get m1.a r c = if in_block cs x y r c then .ok v else mat_get m.a r c := by
  have hbx := ctr_bounds hcs1 hx
  have hby := ctr_bounds hcs1 hy
  obtain ⟨m1, hm1, hd1, hf1, hg1⟩ := rect_spec
    (fun i => (centre cs x y).y - ((cs / 2 : Nat) : Int) + (i : Int))
    (fun j => (centre cs x y).x - ((cs / 2 : Nat) : Int) + (j : Int)) v cs cs m hd
    (by intro i hi; simp only [centre_y, ctr] at *; omega)
    (by intro j hj; simp only [centre_x, ctr] at *; omega)
  refine ⟨m1, ?_, hd1, hf1, ?_⟩
  · simp only [fill_cell, hcs]; exact hm1
  · intro r c
    rw [hg1]
    have e1 : (∃ i, i < cs ∧ r = (centre cs x y).y - ((cs / 2 : Nat) : Int) + (i : Int)) ∧
        (∃ j, j < cs ∧ c = (centre cs x y).x - ((cs / 2 : Nat) : Int) + (j : Int)) ↔
        in_block cs x y r c := by
      rw [exists_offset, exists_offset]
      simp only [in_block, centre_x, centre_y, ctr]
      omega
    simp only [e1]

/-! ## The function remove_wall -/

theorem tdiv_two_nat (n : Nat) : Int.tdiv (n : Int) 2 = ((n / 2 : Nat) : Int) := by
  rw [Int.tdiv_eq_ediv (by omega) (by omega)]
  omega

theorem carve_line_eq (cs : Nat) {p q : Nat} (h : q = p + 1 ∨ p = q + 1) :
    ((ctr cs p : Nat) : Int) - Int.tdiv (((ctr cs p : Nat) : Int) - ((ctr cs q : Nat) : Int)) 2
      = ((carve_line cs p q : Nat) : Int) := by
  rcases h with h | h
  · subst h
    have e1 : ((ctr cs p : Nat) : Int) - ((ctr cs (p + 1) : Nat) : Int)
        = -(((cs + 1 : Nat)) : Int) := by
      rw [ctr_succ]; push_cast; ring
    rw [e1, Int.neg_tdiv, tdiv_two_nat]
    have e2 : carve_line cs p (p + 1) = (cs + 1) * (p + 1) := by simp [carve_line]
    rw [e2]
    simp only [ctr, Nat.mul_succ]
    push_cast
    omega
  · subst h
    have e1 : ((ctr cs (q + 1) : Nat) : Int) - ((ctr cs q : Nat) : Int)
        = (((cs + 1 : Nat)) : Int) := by
      rw [ctr_succ]; push_cast; ring
    rw [e1]
    rw [tdiv_two_nat]
    have e2 : carve_line cs (q + 1) q = (cs + 1) * (q + 1) + 1 - cs % 2 := by simp [carve_line]
    rw [e2]
    simp only [ctr]
    omega

theorem carve_line_bounds {cs : Nat} (hcs : 1 ≤ cs) {p q n : Nat} (hp : p < n) (hq : q < n)
    (h : q = p + 1 ∨ p = q + 1) :
    1 ≤ carve_line cs p q ∧ carve_line cs p q + 1 < (cs + 1) * n + 1 := by
  rcases h with h | h
  · subst h
    have := mul_succ_le cs hq
    have e2 : carve_line cs p (p + 1) = (cs + 1) * (p + 1) := by simp [carve_line]
    rw [e2]
    simp only [Nat.mul_succ] at *
    omega
  · subst h
    have h1 := mul_succ_le cs hp
    have h2 : (cs + 1) * 1 ≤ (cs + 1) * (q + 1) := Nat.mul_le_mul_left _ (by omega)
    have e2 : carve_line cs (q + 1) q = (cs + 1) * (q + 1) + 1 - cs % 2 := by simp [carve_line]
    rw [e2]
    generalize (cs + 1) * (q + 1) = L at *
    omega

theorem carve_line_ne_ctr {cs : Nat} (hcs : 1 ≤ cs) {p q : Nat} (h : q = p + 1 ∨ p = q + 1)
    (z : Nat) : carve_line cs p q ≠ ctr cs z := by
  have key : ∀ t : Nat, (cs + 1) * t ≠ ctr cs z ∧
      ((cs + 1) * t + 1 = ctr cs z → cs % 2 = 1) := by
    intro t
    rcases Nat.lt_trichotomy z t with h2 | h2 | h2
    · have := mul_succ_le cs h2; simp only [ctr]; omega
    · subst h2; simp only [ctr]; omega
    · have := mul_succ_le cs h2; simp only [ctr]; omega
  rcases h with h | h
  · subst h
    have e2 : carve_line cs p (p + 1) = (cs + 1) * (p + 1) := by simp [carve_line]
    rw [e2]; exact (key _).1
  · subst h
    have e2 : carve_line cs (q + 1) q = (cs + 1) * (q + 1) + 1 - cs % 2 := by simp [carve_line]
    rw [e2]
    have k := key (q + 1)
    by_cases hodd : cs % 2 = 1
    · have : (cs + 1) * (q + 1) + 1 - cs % 2 = (cs + 1) * (q + 1) := by omega
      rw [this]; exact k.1
    · have : (cs + 1) * (q + 1) + 1 - cs % 2 = (cs + 1) * (q + 1) + 1 := by omega
      rw [this]
      intro h3; exact hodd (k.2 h3)

theorem carved_interior {cs w h x y x1 y1 : Nat} (hcs1 : 1 ≤ cs) (hx : x < w) (hy : y < h) (hx1 : x1 < w)
    (hy1 : y1 < h) (hadj : grid_adj x y x1 y1) {r c : Int} (hc : carved cs x y x1 y1 r c) :
    1 ≤ r ∧ r + 1 < (((cs + 1) * h + 1 : Nat) : Int) ∧
      1 ≤ c ∧ c + 1 < (((cs + 1) * w + 1 : Nat) : Int) := by
  unfold carved at hc
  rcases hadj with ⟨hxx, hyy⟩ | ⟨hyy, hxx⟩
  · have hne : ¬ y = y1 := by omega
    rw [if_neg hne] at hc
    obtain ⟨c1, c2, c3⟩ := hc
    have hb := carve_line_bounds hcs1 hy hy1 (by omega)
    have := mul_succ_le cs hx
    omega
  · rw [if_pos hyy] at hc
    obtain ⟨c1, c2, c3⟩ := hc
    have hb := carve_line_bounds hcs1 hx hx1 (by omega)
    have := mul_succ_le cs hy
    omega

theorem carved_not_centre {cs : Nat} (hcs : 1 ≤ cs) {x y x1 y1 : Nat}
    (hadj : grid_adj x y x1 y1) {r c : Int} (hc : carved cs x y x1 y1 r c) (x2 y2 : Nat) :
    ¬ (r = ((ctr cs y2 : Nat) : Int) ∧ c = ((ctr cs x2 : Nat) : Int)) := by
  unfold carved at hc
  rintro ⟨hr, hcc⟩
  rcases hadj with ⟨hxx, hyy⟩ | ⟨hyy, hxx⟩
  · have hne : ¬ y = y1 := by omega
    rw [if_neg hne] at hc
    obtain ⟨c1, c2, c3⟩ := hc
    have := carve_line_ne_ctr hcs (p := y) (q := y1) (by omega) y2
    omega
  · rw [if_pos hyy] at hc
    obtain ⟨c1, c2, c3⟩ := hc
    have := carve_line_ne_ctr hcs (p := x) (q := x1) (by omega) x2
    omega

theorem remove_wall_spec {m : maze} {cs w h : Nat} (hcs : m.cell_size = cs) (hcs1 : 1 ≤ cs)
    (hd : Dims m.a ((cs + 1) * h + 1) ((cs + 1) * w + 1)) {x y x1 y1 : Nat}
    (hx : x < w) (hy : y < h) (hx1 : x1 < w) (hy1 : y1 < h) (hadj : grid_adj x y x1 y1) :
    ∃ m1, remove_wall m (centre cs x y) (centre cs x1 y1) = .ok m1 ∧
      Dims m1.a ((cs + 1) * h + 1) ((cs + 1) * w + 1) ∧ frame_eq m m1 ∧
      ∀ r c, mat_get m1.a r c = if carved cs x y x1 y1 r c then .ok ' ' else mat_get m.a r c := by
  have hbx := ctr_bounds hcs1 hx
  have hby := ctr_bounds hcs1 hy
  by_cases hyy : y = y1
  · have hxx : x1 = x + 1 ∨ x = x1 + 1 := by
      rcases hadj with ⟨h1, h2⟩ | ⟨_, h2⟩
      · omega
      · omega
    have hl := carve_line_bounds hcs1 hx hx1 hxx
    have hcol := carve_line_eq cs hxx
    obtain ⟨m1, hm1, hd1, hf1, hg1⟩ := strip_spec
      (fun i => (centre cs x y).y - ((cs / 2 : Nat) : Int) + (i : Int))
      (fun _ => (centre cs x y).x - Int.tdiv ((centre cs x y).x - (centre cs x1 y1).x) 2)
      ' ' cs m hd
      (by
        intro i hi
        simp only [centre_x, centre_y, hcol]
        simp only [ctr] at *
        omega)
    refine ⟨m1, ?_, hd1, hf1, ?_⟩
    · have e : (centre cs x y).y = (centre cs x1 y1).y := by rw [hyy, centre_y, centre_y]
      simp only [remove_wall, hcs, e, if_true]
      rw [← e]; exact hm1
    · intro r c
      rw [hg1]
      have e1 : (∃ i, i < cs ∧ r = (centre cs x y).y - ((cs / 2 : Nat) : Int) + (i : Int) ∧
          c = (centre cs x y).x - Int.tdiv ((centre cs x y).x - (centre cs x1 y1).x) 2) ↔
          carved cs x y x1 y1 r c := by
        have e2 : (∃ i, i < cs ∧ r = (centre cs x y).y - ((cs / 2 : Nat) : Int) + (i : Int) ∧
          c = (centre cs x y).x - Int.tdiv ((centre cs x y).x - (centre cs x1 y1).x) 2) ↔
          (∃ i : Nat, i < cs ∧ r = (centre cs x y).y - ((cs / 2 : Nat) : Int) + (i : Int)) ∧
          c = (centre cs x y).x - Int.tdiv ((centre cs x y).x - (centre cs x1 y1).x) 2 := by
          constructor
          · rintro ⟨i, h1, h2, h3⟩; exact ⟨⟨i, h1, h2⟩, h3⟩
          · rintro ⟨⟨i, h1, h2⟩, h3⟩; exact ⟨i, h1, h2, h3⟩
        rw [e2, exists_offset]
        simp only [carved, hyy, if_true, centre_x, centre_y, hcol]
        simp only [ctr]
        omega
      simp only [e1]
  · have hxx : x = x1 := by
      rcases hadj with ⟨h1, _⟩ | ⟨h1, _⟩
      · exact h1
      · exact absurd h1 hyy
    have hyy2 : y1 = y + 1 ∨ y = y1 + 1 := by
      rcases hadj with ⟨_, h2⟩ | ⟨h1, _⟩
      · omega
      · exact absurd h1 hyy
    have hl := carve_line_bounds hcs1 hy hy1 hyy2
    have hrow := carve_line_eq cs hyy2
    obtain ⟨m1, hm1, hd1, hf1, hg1⟩ := strip_spec
      (fun _ => (centre cs x y).y - Int.tdiv ((centre cs x y).y - (centre cs x1 y1).y) 2)
      (fun i => (centre cs x y).x - ((cs / 2 : Nat) : Int) + (i : Int))
      ' ' cs m hd
      (by
        intro i hi
        simp only [centre_x, centre_y, hrow]
        simp only [ctr] at *
        omega)
    refine ⟨m1, ?_, hd1, hf1, ?_⟩
    · have e : ¬ (centre cs x y).y = (centre cs x1 y1).y := by
        rw [centre_y, centre_y]
        intro h2
        exact hyy (ctr_inj cs (by exact_mod_cast h2))
      simp only [remove_wall, hcs, e, if_false]
      exact hm1
    · intro r c
      rw [hg1]
      have e1 : (∃ i, i < cs ∧
          r = (centre cs x y).y - Int.tdiv ((centre cs x y).y - (centre cs x1 y1).y) 2 ∧
          c = (centre cs x y).x - ((cs / 2 : Nat) : Int) + (i : Int)) ↔
          carved cs x y x1 y1 r c := by
        have e2 : (∃ i, i < cs ∧
          r = (centre cs x y).y - Int.tdiv ((centre cs x y).y - (centre cs x1 y1).y) 2 ∧
          c = (centre cs x y).x - ((cs / 2 : Nat) : Int) + (i : Int)) ↔
          (∃ i : Nat, i < cs ∧ c = (centre cs x y).x - ((cs / 2 : Nat) : Int) + (i : Int)) ∧
          r = (centre cs x y).y - Int.tdiv ((centre cs x y).y - (centre cs x1 y1).y) 2 := by
          constructor
          · rintro ⟨i, h1, h2, h3⟩; exact ⟨⟨i, h1, h3⟩, h2⟩
          · rintro ⟨⟨i, h1, h2⟩, h3⟩; exact ⟨i, h1, h3, h2⟩
        rw [e2, exists_offset]
        simp only [carved, hyy, if_false, centre_x, centre_y, hrow]
        simp only [ctr]
        omega
      simp only [e1]

/-! ## The function get_available_neighbours -/

theorem check_neighbour_centre {m : maze} {cs w h : Nat}
    (hd : Dims m.a ((cs + 1) * h + 1) ((cs + 1) * w + 1)) (hcs1 : 1 ≤ cs)
    (cond : Prop) [Decidable cond] (row col : Int) (x1 y1 : Nat) (N : List cell)
    (hc : cond → row = ((ctr cs y1 : Nat) : Int) ∧ col = ((ctr cs x1 : Nat) : Int) ∧
      x1 < w ∧ y1 < h) :
    check_neighbour m (decide cond) row col N =
      .ok (N ++ (if cond then [centre cs x1 y1] else []).filter
        (fun n => !is_v m.a n.y n.x)) := by
  by_cases hcond : cond
  · obtain ⟨hr, hcl, hx1, hy1⟩ := hc hcond
    have hbx := ctr_bounds hcs1 hx1
    have hby := ctr_bounds hcs1 hy1
    obtain ⟨ch, hch⟩ := mat_get_inb hd (r := row) (c := col)
      (by omega) (by rw [hr]; omega) (by omega) (by rw [hcl]; omega)
    have e : centre cs x1 y1 = ⟨col, row⟩ := by rw [centre_eq, hr, hcl]
    simp only [check_neighbour, hcond, decide_True, if_true, hch, e, List.filter, is_v]
    by_cases hv : ch = 'v'
    · simp [hv]
    · have hb : (ch == 'v') = false := by simp [hv]
      simp [hb, hv]
  · simp [check_neighbour, hcond]

theorem get_available_neighbours_spec {m : maze} {cs w h : Nat} (hcs : m.cell_size = cs)
    (hcs1 : 1 ≤ cs) (hw : m.w = w) (hh : m.h = h)
    (hd : Dims m.a ((cs + 1) * h + 1) ((cs + 1) * w + 1)) {x y : Nat} (hx : x < w) (hy : y < h) :
    get_available_neighbours m (centre cs x y) =
      .ok ((candidates cs w h x y).filter (fun n => !is_v m.a n.y n.x)) := by
  have h0 : cell_to_matrix_idx m 0 = ((ctr cs 0 : Nat) : Int) := by
    have := c2m_nat m 0; rw [hcs] at this; exact_mod_cast this
  have hw1 : cell_to_matrix_idx m ((m.w : Int) - 1) = ((ctr cs (w - 1) : Nat) : Int) := by
    have := c2m_nat m (w - 1); rw [hcs] at this; rw [← this, hw]
    congr 1; omega
  have hh1 : cell_to_matrix_idx m ((m.h : Int) - 1) = ((ctr cs (h - 1) : Nat) : Int) := by
    have := c2m_nat m (h - 1); rw [hcs] at this; rw [← this, hh]
    congr 1; omega
  have e1 : ((centre cs x y).y > cell_to_matrix_idx m 0) ↔ 0 < y := by
    rw [h0, centre_y]
    have := @ctr_lt_iff cs 0 y
    omega
  have e2 : ((centre cs x y).x > cell_to_matrix_idx m 0) ↔ 0 < x := by
    rw [h0, centre_x]
    have := @ctr_lt_iff cs 0 x
    omega
  have e3 : ((centre cs x y).x < cell_to_matrix_idx m ((m.w : Int) - 1)) ↔ x + 1 < w := by
    rw [hw1, centre_x]
    have := @ctr_lt_iff cs x (w - 1)
    omega
  have e4 : ((centre cs x y).y < cell_to_matrix_idx m ((m.h : Int) - 1)) ↔ y + 1 < h := by
    rw [hh1, centre_y]
    have := @ctr_lt_iff cs y (h - 1)
    omega
  have k1 := check_neighbour_centre hd hcs1 (0 < y)
    (matrix_idx_prev_cell m (centre cs x y).y) (centre cs x y).x x (y - 1) []
    (by
      intro hp
      have := ctr_succ cs (y - 1)
      have e : y - 1 + 1 = y := by omega
      rw [e] at this
      refine ⟨?_, ?_, hx, by omega⟩
      · simp only [matrix_idx_prev_cell, hcs, centre_y]; omega
      · simp only [centre_x])
  have k2 := fun N => check_neighbour_centre hd hcs1 (0 < x)
    (centre cs x y).y (matrix_idx_prev_cell m (centre cs x y).x) (x - 1) y N
    (by
      intro hp
      have := ctr_succ cs (x - 1)
      have e : x - 1 + 1 = x := by omega
      rw [e] at this
      refine ⟨?_, ?_, by omega, hy⟩
      · simp only [centre_y]
      · simp only [matrix_idx_prev_cell, hcs, centre_x]; omega)
  have k3 := fun N => check_neighbour_centre hd hcs1 (x + 1 < w)
    (centre cs x y).y (matrix_idx_next_cell m (centre cs x y).x) (x + 1) y N
    (by
      intro hp
      have := ctr_succ cs x
      refine ⟨?_, ?_, hp, hy⟩
      · simp only [centre_y]
      · simp only [matrix_idx_next_cell, hcs, centre_x]; omega)
  have k4 := fun N => check_neighbour_centre hd hcs1 (y + 1 < h)
    (matrix_idx_next_cell m (centre cs x y).y) (centre cs x y).x x (y + 1) N
    (by
      intro hp
      have := ctr_succ cs y
      refine ⟨?_, ?_, hx, hp⟩
      · simp only [matrix_idx_next_cell, hcs, centre_y]; omega
      · simp only [centre_x])
  have d1 : decide ((centre cs x y).y > cell_to_matrix_idx m 0) = decide (0 < y) :=
    decide_eq_decide.mpr e1
  have d2 : decide ((centre cs x y).x > cell_to_matrix_idx m 0) = decide (0 < x) :=
    decide_eq_decide.mpr e2
  have d3 : decide ((centre cs x y).x < cell_to_matrix_idx m ((m.w : Int) - 1))
      = decide (x + 1 < w) := decide_eq_decide.mpr e3
  have d4 : decide ((centre cs x y).y < cell_to_matrix_idx m ((m.h : Int) - 1))
      = decide (y + 1 < h) := decide_eq_decide.mpr e4
  simp only [get_available_neighbours, d1, d2, d3, d4, k1, k2, k3, k4, candidates,
    List.filter_append, List.nil_append, List.append_assoc]

/-! ## Logs, trees and centres -/

theorem marks_of_append (l1 l2 : List event) :
    marks_of (l1 ++ l2) = marks_of l1 ++ marks_of l2 := by
  induction l1 with
  | nil => rfl
  | cons e l ih => cases e <;> simp [marks_of, ih]

theorem walls_of_append (l1 l2 : List event) :
    walls_of (l1 ++ l2) = walls_of l1 ++ walls_of l2 := by
  induction l1 with
  | nil => rfl
  | cons e l ih => cases e <;> simp [walls_of, ih]

theorem pushes_of_append (l1 l2 : List event) :
    pushes_of (l1 ++ l2) = pushes_of l1 ++ pushes_of l2 := by
  induction l1 with
  | nil => rfl
  | cons e l ih => cases e <;> simp [pushes_of, ih]

theorem grows_centre {cs w h : Nat} {vs : List cell} {es : List (cell × cell)}
    (hg : grows cs w h vs es) : ∀ c, c ∈ vs → ∃ x y, x < w ∧ y < h ∧ c = centre cs x y := by
  induction hg with
  | root x y hx hy =>
    intro c hc
    simp only [List.mem_singleton] at hc
    exact ⟨x, y, hx, hy, hc⟩
  | step vs es x y x1 y1 hg hx hy hx1 hy1 hadj hin hout ih =>
    intro c hc
    rcases List.mem_append.mp hc with h1 | h1
    · exact ih c h1
    · simp only [List.mem_singleton] at h1
      exact ⟨x1, y1, hx1, hy1, h1⟩

theorem grows_nodup {cs w h : Nat} {vs : List cell} {es : List (cell × cell)}
    (hg : grows cs w h vs es) : vs.Nodup := by
  induction hg with
  | root x y hx hy => simp
  | step vs es x y x1 y1 hg hx hy hx1 hy1 hadj hin hout ih =>
    rw [List.nodup_append]
    refine ⟨ih, by simp, ?_⟩
    intro a ha hb
    simp only [List.mem_singleton] at hb
    subst hb
    exact hout ha

theorem grows_length {cs w h : Nat} {vs : List cell} {es : List (cell × cell)}
    (hg : grows cs w h vs es) : es.length + 1 = vs.length := by
  induction hg with
  | root x y hx hy => simp
  | step vs es x y x1 y1 hg hx hy hx1 hy1 hadj hin hout ih =>
    simp only [List.length_append, List.length_singleton]
    omega

theorem mem_all_centres {cs w h : Nat} {c : cell} :
    c ∈ all_centres cs w h ↔ ∃ x y, x < w ∧ y < h ∧ c = centre cs x y := by
  simp only [all_centres, List.mem_map, Prod.exists, List.pair_mem_product, List.mem_range]
  constructor
  · rintro ⟨x, y, ⟨hx, hy⟩, he⟩; exact ⟨x, y, hx, hy, he.symm⟩
  · rintro ⟨x, y, hx, hy, he⟩; exact ⟨x, y, ⟨hx, hy⟩, he.symm⟩

theorem all_centres_length (cs w h : Nat) : (all_centres cs w h).length = w * h := by
  unfold all_centres
  rw [List.length_map]
  have := List.length_product (List.range w) (List.range h)
  simp only [List.length_range] at this
  exact this

theorem all_centres_nodup (cs w h : Nat) : (all_centres cs w h).Nodup := by
  unfold all_centres
  refine List.Nodup.map_on ?_ (List.Nodup.product (List.nodup_range w) (List.nodup_range h))
  rintro ⟨x, y⟩ _ ⟨x1, y1⟩ _ he
  obtain ⟨h1, h2⟩ := centre_inj he
  simp only at h1 h2
  simp [h1, h2]

theorem centres_length_le (cs : Nat) {w h : Nat} {l : List cell} (hn : l.Nodup)
    (hc : ∀ c, c ∈ l → ∃ x y, x < w ∧ y < h ∧ c = centre cs x y) : l.length ≤ w * h := by
  rw [← all_centres_length cs w h]
  exact (List.subperm_of_subset hn (fun c hcl => mem_all_centres.mpr (hc c hcl))).length_le

theorem mem_candidates {cs w h x y : Nat} (hx : x < w) (hy : y < h) {n : cell} :
    n ∈ candidates cs w h x y ↔
      ∃ x1 y1, x1 < w ∧ y1 < h ∧ grid_adj x y x1 y1 ∧ n = centre cs x1 y1 := by
  unfold candidates grid_adj
  constructor
  · intro hn
    simp only [List.mem_append] at hn
    rcases hn with ((hn | hn) | hn) | hn
    · split at hn
      · simp only [List.mem_singleton] at hn
        exact ⟨x, y - 1, hx, by omega, by omega, hn⟩
      · simp at hn
    · split at hn
      · simp only [List.mem_singleton] at hn
        exact ⟨x - 1, y, by omega, hy, by omega, hn⟩
      · simp at hn
    · split at hn
      · simp only [List.mem_singleton] at hn
        exact ⟨x + 1, y, by omega, hy, by omega, hn⟩
      · simp at hn
    · split at hn
      · simp only [List.mem_singleton] at hn
        exact ⟨x, y + 1, hx, by omega, by omega, hn⟩
      · simp at hn
  · rintro ⟨x1, y1, hx1, hy1, hadj, rfl⟩
    simp only [List.mem_append]
    rcases hadj with ⟨h1, h2 | h2⟩ | ⟨h1, h2 | h2⟩
    · subst h1; subst h2
      right; simp [hy1]
    · subst h1; subst h2
      left; left; left; simp
    · subst h1; subst h2
      left; right; simp [hx1]
    · subst h1; subst h2
      left; left; right; simp

theorem is_v_iff (a : List (List Char)) (r c : Int) :
    is_v a r c = true ↔ mat_get a r c = .ok 'v' := by
  unfold is_v
  split
  · rename_i ch hch
    simp [hch]
  · rename_i e he
    simp [he]

/-! ## One step of the walk: the matrix -/

theorem grows_walls {cs w h : Nat} {vs : List cell} {es : List (cell × cell)}
    (hg : grows cs w h vs es) : ∀ e, e ∈ es →
      ∃ x y x1 y1, x < w ∧ y < h ∧ x1 < w ∧ y1 < h ∧ grid_adj x y x1 y1 ∧
        e = (centre cs x y, centre cs x1 y1) := by
  induction hg with
  | root x y hx hy => intro e he; simp at he
  | step vs es x y x1 y1 hg hx hy hx1 hy1 hadj hin hout ih =>
    intro e he
    rcases List.mem_append.mp he with h1 | h1
    · exact ih e h1
    · simp only [List.mem_singleton] at h1
      exact ⟨x, y, x1, y1, hx, hy, hx1, hy1, hadj, h1⟩

theorem neighbours_of_inv {cs w h : Nat} (hcs1 : 1 ≤ cs) {s : gen_state}
    (hi : walk_inv cs w h s) {x y : Nat} (hx : x < w) (hy : y < h) :
    ∃ N, get_available_neighbours s.maze (centre cs x y) = .ok N ∧
      ∀ n, n ∈ N ↔ ∃ x1 y1, x1 < w ∧ y1 < h ∧ grid_adj x y x1 y1 ∧
        n = centre cs x1 y1 ∧ n ∉ marks_of s.log := by
  refine ⟨_, get_available_neighbours_spec hi.hcs hcs1 hi.hw hi.hh hi.dims hx hy, ?_⟩
  intro n
  have hv : (!is_v s.maze.a n.y n.x) = true ↔ n ∉ marks_of s.log := by
    have h1 := is_v_iff s.maze.a n.y n.x
    have h2 := hi.mat_v n.y n.x
    have h3 : (⟨n.x, n.y⟩ : cell) = n := by cases n; rfl
    rw [h3] at h2
    rw [← h2, ← h1]
    simp
  rw [List.mem_filter, mem_candidates hx hy, hv]
  constructor
  · rintro ⟨⟨x1, y1, a1, a2, a3, a4⟩, a5⟩; exact ⟨x1, y1, a1, a2, a3, a4, a5⟩
  · rintro ⟨x1, y1, a1, a2, a3, a4, a5⟩; exact ⟨⟨x1, y1, a1, a2, a3, a4⟩, a5⟩

/-- The matrix part of the invariant after marking the chosen neighbour and
removing the wall towards it. -/
theorem matrix_step {cs w h : Nat} (hcs1 : 1 ≤ cs) {s : gen_state} (hi : walk_inv cs w h s)
    {x y x1 y1 : Nat} (hx : x < w) (hy : y < h) (hx1 : x1 < w) (hy1 : y1 < h)
    (hadj : grid_adj x y x1 y1) {m1 m2 : maze}
    (hg1 : ∀ r c, mat_get m1.a r c =
      if r = (centre cs x1 y1).y ∧ c = (centre cs x1 y1).x then .ok 'v'
      else mat_get s.maze.a r c)
    (hg2 : ∀ r c, mat_get m2.a r c =
      if carved cs x y x1 y1 r c then .ok ' ' else mat_get m1.a r c) :
    (∀ r c : Int, mat_get m2.a r c = .ok 'v' ↔
      (⟨c, r⟩ : cell) ∈ marks_of s.log ++ [centre cs x1 y1]) ∧
    (∀ r c : Int, mat_get m2.a r c = .ok ' ' ↔
      ∃ x2 y2 x3 y3, (centre cs x2 y2, centre cs x3 y3) ∈
        walls_of s.log ++ [(centre cs x y, centre cs x1 y1)] ∧ carved cs x2 y2 x3 y3 r c) ∧
    (∀ (r c : Int) (ch : Char), mat_get m2.a r c = .ok ch → ch = 'w' ∨ ch = 'v' ∨ ch = ' ') ∧
    (∀ (r c : Int) (ch : Char), mat_get m2.a r c = .ok ch → ch ≠ 'w' →
      1 ≤ r ∧ r + 1 < (((cs + 1) * h + 1 : Nat) : Int) ∧
      1 ≤ c ∧ c + 1 < (((cs + 1) * w + 1 : Nat) : Int)) := by
  have hcen : ∀ r c : Int, (⟨c, r⟩ : cell) ∈ marks_of s.log ++ [centre cs x1 y1] →
      ∃ x2 y2, r = ((ctr cs y2 : Nat) : Int) ∧ c = ((ctr cs x2 : Nat) : Int) := by
    intro r c hm
    rcases List.mem_append.mp hm with h1 | h1
    · obtain ⟨x2, y2, _, _, he⟩ := grows_centre hi.tree _ h1
      rw [centre_eq] at he
      injection he with he1 he2
      exact ⟨x2, y2, he2, he1⟩
    · simp only [List.mem_singleton] at h1
      rw [centre_eq] at h1
      injection h1 with he1 he2
      exact ⟨x1, y1, he2, he1⟩
  have hold : ∀ x2 y2 x3 y3 (r c : Int), (centre cs x2 y2, centre cs x3 y3) ∈ walls_of s.log →
      carved cs x2 y2 x3 y3 r c →
      ∀ x4 y4, ¬ (r = ((ctr cs y4 : Nat) : Int) ∧ c = ((ctr cs x4 : Nat) : Int)) := by
    intro x2 y2 x3 y3 r c hmem hcv
    obtain ⟨a, b, a1, b1, _, _, _, _, hadj2, he⟩ := grows_walls hi.tree _ hmem
    injection he with he1 he2
    obtain ⟨r1, r2⟩ := centre_inj he1
    obtain ⟨r3, r4⟩ := centre_inj he2
    subst r1; subst r2; subst r3; subst r4
    exact carved_not_centre hcs1 hadj2 hcv
  have hpos : ∀ r c : Int, (r = (centre cs x1 y1).y ∧ c = (centre cs x1 y1).x) ↔
      (⟨c, r⟩ : cell) = centre cs x1 y1 := by
    intro r c
    constructor
    · rintro ⟨rfl, rfl⟩; rfl
    · intro he; rw [← he]; exact ⟨rfl, rfl⟩
  refine ⟨?_, ?_, ?_, ?_⟩
  · intro r c
    rw [hg2]
    by_cases hcv : carved cs x y x1 y1 r c
    · rw [if_pos hcv]
      constructor
      · intro h1; cases h1
      · intro h1
        obtain ⟨x2, y2, h2⟩ := hcen r c h1
        exact absurd h2 (carved_not_centre hcs1 hadj hcv x2 y2)
    · rw [if_neg hcv, hg1]
      by_cases hp : r = (centre cs x1 y1).y ∧ c = (centre cs x1 y1).x
      · rw [if_pos hp]
        simp [(hpos r c).mp hp]
      · rw [if_neg hp, hi.mat_v]
        have : ¬ (⟨c, r⟩ : cell) = centre cs x1 y1 := fun h1 => hp ((hpos r c).mpr h1)
        simp [this]
  · intro r c
    rw [hg2]
    by_cases hcv : carved cs x y x1 y1 r c
    · rw [if_pos hcv]
      constructor
      · intro _; exact ⟨x, y, x1, y1, by simp, hcv⟩
      · intro _; rfl
    · rw [if_neg hcv, hg1]
      have hnew : ∀ x2 y2 x3 y3, (centre cs x2 y2, centre cs x3 y3) ∈
          walls_of s.log ++ [(centre cs x y, centre cs x1 y1)] → carved cs x2 y2 x3 y3 r c →
          (centre cs x2 y2, centre cs x3 y3) ∈ walls_of s.log := by
        intro x2 y2 x3 y3 hm hc2
        rcases List.mem_append.mp hm with h1 | h1
        · exact h1
        · simp only [List.mem_singleton] at h1
          injection h1 with he1 he2
          obtain ⟨r1, r2⟩ := centre_inj he1
          obtain ⟨r3, r4⟩ := centre_inj he2
          subst r1; subst r2; subst r3; subst r4
          exact absurd hc2 hcv
      by_cases hp : r = (centre cs x1 y1).y ∧ c = (centre cs x1 y1).x
      · rw [if_pos hp]
        constructor
        · intro h1; cases h1
        · rintro ⟨x2, y2, x3, y3, hm, hc2⟩
          have h3 := hold x2 y2 x3 y3 r c (hnew _ _ _ _ hm hc2) hc2 x1 y1
          rw [centre_x, centre_y] at hp
          exact absurd hp h3
      · rw [if_neg hp, hi.mat_sp]
        constructor
        · rintro ⟨x2, y2, x3, y3, hm, hc2⟩
          exact ⟨x2, y2, x3, y3, List.mem_append_left _ hm, hc2⟩
        · rintro ⟨x2, y2, x3, y3, hm, hc2⟩
          exact ⟨x2, y2, x3, y3, hnew _ _ _ _ hm hc2, hc2⟩
  · intro r c ch
    rw [hg2]
    by_cases hcv : carved cs x y x1 y1 r c
    · rw [if_pos hcv]; intro h1; cases h1; simp
    · rw [if_neg hcv, hg1]
      by_cases hp : r = (centre cs x1 y1).y ∧ c = (centre cs x1 y1).x
      · rw [if_pos hp]; intro h1; cases h1; simp
      · rw [if_neg hp]; exact hi.content r c ch
  · intro r c ch
    rw [hg2]
    by_cases hcv : carved cs x y x1 y1 r c
    · intro _ _
      exact carved_interior hcs1 hx hy hx1 hy1 hadj hcv
    · rw [if_neg hcv, hg1]
      by_cases hp : r = (centre cs x1 y1).y ∧ c = (centre cs x1 y1).x
      · intro _ _
        rw [centre_x, centre_y] at hp
        have hbx := ctr_bounds hcs1 hx1
        have hby := ctr_bounds hcs1 hy1
        omega
      · rw [if_neg hp]; exact hi.interior r c ch

/-! ## One step of the walk -/

/-- One iteration of the walk loop preserves the invariant.  Either the cell
is retired (the stack shrinks by one, nothing is marked) or a neighbour is
entered (the stack grows by one, one more cell is marked). -/
theorem walk_step_inv {cs w h : Nat} (hcs1 : 1 ≤ cs) (rand : Nat → Nat) {s : gen_state}
    (hi : walk_inv cs w h s) (hpos : 0 < s.stack.top_of_stack) :
    ∃ s1, walk_step rand s = .ok s1 ∧ walk_inv cs w h s1 ∧
      ((s1.stack.top_of_stack + 1 = s.stack.top_of_stack ∧
          marks_of s1.log = marks_of s.log) ∨
        (s1.stack.top_of_stack = s.stack.top_of_stack + 1 ∧
          (marks_of s1.log).length = (marks_of s.log).length + 1)) := by
  obtain ⟨c, st1, hpop, hcells, htop1, hcap1, hlen1⟩ :=
    stack_pop_cells hi.st_len hi.st_top hpos
  have hcm : c ∈ marks_of s.log := hi.st_marked c (by rw [hcells]; simp)
  obtain ⟨x, y, hx, hy, rfl⟩ := grows_centre hi.tree c hcm
  obtain ⟨N, hN, hNmem⟩ := neighbours_of_inv hcs1 hi hx hy
  have hnd := hi.st_nodup
  have hsm := hi.st_marked
  have htop := hi.st_top
  have hcap := hi.st_cap
  rw [hcells] at hnd hsm
  by_cases hlen : N.length > 0
  · -- a neighbour is entered
    obtain ⟨st2, hpush1, hcells2, htop2, hcap2, hlen2⟩ :=
      stack_push_cells st1 (centre cs x y) hlen1 (by omega)
    have hk : rand s.rng % N.length < N.length := Nat.mod_lt _ hlen
    have hmod : c_mod (rand s.rng) N.length = .ok (rand s.rng % N.length) := by
      have : ¬ N.length = 0 := by omega
      simp [c_mod, this]
    obtain ⟨next, hnext, hnin⟩ : ∃ next, N[rand s.rng % N.length]? = some next ∧ next ∈ N :=
      ⟨N[rand s.rng % N.length], List.getElem?_eq_getElem hk, List.getElem_mem _⟩
    obtain ⟨x1, y1, hx1, hy1, hadj, rfl, hnm⟩ := (hNmem next).mp hnin
    have hbx := ctr_bounds hcs1 hx1
    have hby := ctr_bounds hcs1 hy1
    obtain ⟨m1, hm1⟩ := set_cell_inb hi.dims 'v' (r := (centre cs x1 y1).y)
      (c := (centre cs x1 y1).x) (by rw [centre_y]; omega) (by rw [centre_y]; omega)
      (by rw [centre_x]; omega) (by rw [centre_x]; omega)
    have hd1 := set_cell_dims hi.dims hm1
    have hf1 := (set_cell_ok hm1).2
    obtain ⟨m2, hm2, hd2, hf2, hg2⟩ := remove_wall_spec (m := m1) (hf1.2.2.trans hi.hcs) hcs1
      hd1 hx hy hx1 hy1 hadj
    have hnd3 : (stack_cells st2 ++ [centre cs x1 y1]).Nodup := by
      rw [hcells2, List.nodup_append]
      refine ⟨hnd, by simp, ?_⟩
      intro a ha hb
      simp only [List.mem_singleton] at hb
      subst hb
      exact hnm (hsm _ ha)
    have hcard : (stack_cells st2 ++ [centre cs x1 y1]).length ≤ w * h := by
      apply centres_length_le cs hnd3
      intro a ha
      rcases List.mem_append.mp ha with h1 | h1
      · rw [hcells2] at h1; exact grows_centre hi.tree a (hsm a h1)
      · simp only [List.mem_singleton] at h1
        exact ⟨x1, y1, hx1, hy1, h1⟩
    have hl2 : (stack_cells st2).length = st2.top_of_stack :=
      stack_cells_length hlen2 (by omega)
    rw [List.length_append, hl2] at hcard
    simp only [List.length_singleton] at hcard
    obtain ⟨st3, hpush2, hcells3, htop3, hcap3, hlen3⟩ :=
      stack_push_cells st2 (centre cs x1 y1) hlen2 (by omega)
    have hmat := matrix_step hcs1 hi hx hy hx1 hy1 hadj (set_cell_get hm1) hg2
    have hlog_m : marks_of (s.log ++ [event.pop (centre cs x y), event.push (centre cs x y) 0,
        event.mark (centre cs x1 y1), event.remove_wall (centre cs x y) (centre cs x1 y1),
        event.push (centre cs x1 y1) 0]) = marks_of s.log ++ [centre cs x1 y1] := by
      rw [marks_of_append]; rfl
    have hlog_w : walls_of (s.log ++ [event.pop (centre cs x y), event.push (centre cs x y) 0,
        event.mark (centre cs x1 y1), event.remove_wall (centre cs x y) (centre cs x1 y1),
        event.push (centre cs x1 y1) 0]) =
        walls_of s.log ++ [(centre cs x y, centre cs x1 y1)] := by
      rw [walls_of_append]; rfl
    have hlog_p : pushes_of (s.log ++ [event.pop (centre cs x y),
        event.push (centre cs x y) 0,
        event.mark (centre cs x1 y1), event.remove_wall (centre cs x y) (centre cs x1 y1),
        event.push (centre cs x1 y1) 0]) =
        pushes_of s.log ++ [(centre cs x y, 0), (centre cs x1 y1, 0)] := by
      rw [pushes_of_append]; rfl
    refine ⟨{ maze := m2, stack := st3, rng := s.rng + 1,
              log := s.log ++ [event.pop (centre cs x y), event.push (centre cs x y) 0,
                event.mark (centre cs x1 y1),
                event.remove_wall (centre cs x y) (centre cs x1 y1),
                event.push (centre cs x1 y1) 0] }, ?_, ?_, Or.inr ⟨?_, ?_⟩⟩
    · simp only [walk_step, hpop, hN, hlen, if_true, hpush1, hmod, hnext, mark_visited, hm1,
        hm2, hpush2]
    · constructor
      · exact hf2.1.trans (hf1.1.trans hi.hw)
      · exact hf2.2.1.trans (hf1.2.1.trans hi.hh)
      · exact hf2.2.2.trans (hf1.2.2.trans hi.hcs)
      · exact hd2
      · simp only [hlog_m]; exact hmat.1
      · simp only [hlog_w]; exact hmat.2.1
      · exact hmat.2.2.1
      · exact hmat.2.2.2
      · exact hlen3
      · show st3.capacity = w * h
        omega
      · show st3.top_of_stack ≤ st3.capacity
        omega
      · show (stack_cells st3).Nodup
        rw [hcells3]; exact hnd3
      · intro a ha
        simp only [hlog_m]
        rw [show stack_cells st3 = stack_cells st2 ++ [centre cs x1 y1] from hcells3,
          hcells2] at ha
        rcases List.mem_append.mp ha with h1 | h1
        · exact List.mem_append_left _ (hsm a h1)
        · exact List.mem_append_right _ h1
      · intro x2 y2 x3 y3 hx2 hy2 hx3 hy3 hadj2 hin hout
        simp only [hlog_m] at hin ⊢
        rw [show stack_cells st3 = stack_cells st2 ++ [centre cs x1 y1] from hcells3,
          hcells2, ← hcells] at hout
        have hout1 : centre cs x2 y2 ∉ stack_cells s.stack :=
          fun h1 => hout (List.mem_append_left _ h1)
        have hne : centre cs x2 y2 ≠ centre cs x1 y1 :=
          fun h1 => hout (List.mem_append_right _ (by simp [h1]))
        have hin1 : centre cs x2 y2 ∈ marks_of s.log := by
          rcases List.mem_append.mp hin with h1 | h1
          · exact h1
          · simp only [List.mem_singleton] at h1; exact absurd h1 hne
        exact List.mem_append_left _ (hi.dfs x2 y2 x3 y3 hx2 hy2 hx3 hy3 hadj2 hin1 hout1)
      · simp only [hlog_m, hlog_w]
        exact grows.step _ _ x y x1 y1 hi.tree hx hy hx1 hy1 hadj hcm hnm
      · intro p hp
        simp only [hlog_p] at hp
        rcases List.mem_append.mp hp with h1 | h1
        · exact hi.pushes_ok p h1
        · simp only [List.mem_cons, List.mem_singleton, List.not_mem_nil, or_false] at h1
          rcases h1 with h1 | h1 <;> rw [h1]
      · simp only [hlog_m, hlog_p, List.length_append, List.length_cons, List.length_nil]
        have := hi.pushes_len
        omega
    · show st3.top_of_stack = s.stack.top_of_stack + 1
      omega
    · simp only [hlog_m, List.length_append, List.length_singleton]
  · -- the cell is retired
    have hNnil : N = [] := List.eq_nil_of_length_eq_zero (by omega)
    have hlog_m : marks_of (s.log ++ [event.pop (centre cs x y)]) = marks_of s.log := by
      rw [marks_of_append]; simp [marks_of]
    have hlog_w : walls_of (s.log ++ [event.pop (centre cs x y)]) = walls_of s.log := by
      rw [walls_of_append]; simp [walls_of]
    have hlog_p : pushes_of (s.log ++ [event.pop (centre cs x y)]) = pushes_of s.log := by
      rw [pushes_of_append]; simp [pushes_of]
    refine ⟨{ s with stack := st1, log := s.log ++ [event.pop (centre cs x y)] }, ?_, ?_,
      Or.inl ⟨htop1, hlog_m⟩⟩
    · simp only [walk_step, hpop, hN, hlen, if_false]
    · constructor
      · exact hi.hw
      · exact hi.hh
      · exact hi.hcs
      · exact hi.dims
      · simp only [hlog_m]; exact hi.mat_v
      · simp only [hlog_w]; exact hi.mat_sp
      · exact hi.content
      · exact hi.interior
      · exact hlen1
      · show st1.capacity = w * h
        omega
      · show st1.top_of_stack ≤ st1.capacity
        omega
      · show (stack_cells st1).Nodup
        exact (List.nodup_append.mp hnd).1
      · intro a ha
        simp only [hlog_m]
        exact hsm a (List.mem_append_left _ ha)
      · intro x2 y2 x3 y3 hx2 hy2 hx3 hy3 hadj2 hin hout
        simp only [hlog_m] at hin ⊢
        by_cases hc : centre cs x2 y2 = centre cs x y
        · obtain ⟨r1, r2⟩ := centre_inj hc
          subst r1; subst r2
          by_contra hnot
          have : centre cs x3 y3 ∈ N :=
            (hNmem _).mpr ⟨x3, y3, hx3, hy3, hadj2, rfl, hnot⟩
          rw [hNnil] at this
          simp at this
        · have hout1 : centre cs x2 y2 ∉ stack_cells s.stack := by
            rw [hcells]
            intro h1
            rcases List.mem_append.mp h1 with h2 | h2
            · exact hout h2
            · simp only [List.mem_singleton] at h2; exact hc h2
          exact hi.dfs x2 y2 x3 y3 hx2 hy2 hx3 hy3 hadj2 hin hout1
      · simp only [hlog_m, hlog_w]; exact hi.tree
      · intro p hp
        simp only [hlog_p] at hp
        exact hi.pushes_ok p hp
      · simp only [hlog_m, hlog_p]; exact hi.pushes_len

/-! ## The initial state of the walk -/

theorem dims_replicate (H W : Nat) (v : Char) :
    Dims (List.replicate H (List.replicate W v)) H W := by
  refine ⟨by simp, ?_⟩
  intro row hrow
  rw [List.eq_of_mem_replicate hrow]
  simp

theorem mat_get_replicate {H W : Nat} {v ch : Char} {r c : Int}
    (h : mat_get (List.replicate H (List.replicate W v)) r c = .ok ch) : ch = v := by
  unfold mat_get at h
  split at h
  · split at h
    · cases h
    · rename_i row hrow
      split at h
      · cases h
      · rename_i ch1 hch
        cases h
        obtain ⟨_, hrow2⟩ := List.getElem?_eq_some_iff.mp hrow
        obtain ⟨_, hch2⟩ := List.getElem?_eq_some_iff.mp hch
        subst hrow2
        simp at hch2
        exact hch2.symm
  · cases h

theorem dim_nat (m : maze) (n : Nat) :
    (maze_dimension_to_matrix m (n : Int)).toNat = (m.cell_size + 1) * n + 1 := by
  unfold maze_dimension_to_matrix
  have : ((m.cell_size : Int) + 1) * (n : Int) + 1 = (((m.cell_size + 1) * n + 1 : Nat) : Int) := by
    push_cast; ring
  rw [this]
  exact Int.toNat_natCast _

theorem gen_init_inv {cs w h : Nat} (hcs1 : 1 ≤ cs) (hw1 : 1 ≤ w) (hh1 : 1 ≤ h)
    (rand : Nat → Nat) :
    ∃ s, gen_init w h cs rand = .ok s ∧ walk_inv cs w h s ∧
      s.log = [event.mark (centre cs 0 (rand 0 % h)), event.push (centre cs 0 (rand 0 % h)) 0] ∧
      s.stack.top_of_stack = 1 := by
  have hy : rand 0 % h < h := Nat.mod_lt _ (by omega)
  have hx : 0 < w := by omega
  have hmod : c_mod (rand 0) h = .ok (rand 0 % h) := by
    have : ¬ h = 0 := by omega
    simp [c_mod, this]
  have hbx := ctr_bounds hcs1 hx
  have hby := ctr_bounds hcs1 hy
  have hd0 : Dims (List.replicate ((cs + 1) * h + 1) (List.replicate ((cs + 1) * w + 1) WALL))
      ((cs + 1) * h + 1) ((cs + 1) * w + 1) := dims_replicate _ _ _
  obtain ⟨m2, hm2⟩ := set_cell_inb
    (m := { a := List.replicate ((cs + 1) * h + 1) (List.replicate ((cs + 1) * w + 1) WALL),
            w := w, h := h, cell_size := cs })
    hd0 'v' (r := (centre cs 0 (rand 0 % h)).y)
    (c := (centre cs 0 (rand 0 % h)).x) (by rw [centre_y]; omega) (by rw [centre_y]; omega)
    (by rw [centre_x]; omega) (by rw [centre_x]; omega)
  have hd2 := set_cell_dims hd0 hm2
  have hf2 := (set_cell_ok hm2).2
  have hg2 := set_cell_get hm2
  have hwh : 0 < w * h := Nat.mul_pos hx (by omega)
  obtain ⟨st1, hpush, hcells, htop, hcap, hlen⟩ :=
    stack_push_cells (init_stack (w * h)) (centre cs 0 (rand 0 % h))
      (by simp [init_stack]) (by simp only [init_stack]; exact hwh)
  have hcells0 : stack_cells (init_stack (w * h)) = [] := by simp [stack_cells, init_stack]
  rw [hcells0] at hcells
  have hpos : ∀ r c : Int, (r = (centre cs 0 (rand 0 % h)).y ∧ c = (centre cs 0 (rand 0 % h)).x)
      ↔ (⟨c, r⟩ : cell) = centre cs 0 (rand 0 % h) := by
    intro r c
    constructor
    · rintro ⟨rfl, rfl⟩; rfl
    · intro he; rw [← he]; exact ⟨rfl, rfl⟩
  refine ⟨{ maze := m2, stack := st1, rng := 1,
            log := [event.mark (centre cs 0 (rand 0 % h)),
                    event.push (centre cs 0 (rand 0 % h)) 0] }, ?_, ?_, rfl, ?_⟩
  · have ex : ∀ (a : List (List Char)) (w0 h0 : Nat),
        cell_to_matrix_idx { a := a, w := w0, h := h0, cell_size := cs } 0
          = (centre cs 0 (rand 0 % h)).x := by
      intro a w0 h0; simp only [centre, cell_to_matrix_idx]; rfl
    have ey : ∀ (a : List (List Char)) (w0 h0 : Nat),
        cell_to_matrix_idx { a := a, w := w0, h := h0, cell_size := cs }
          ((rand 0 % h : Nat) : Int) = (centre cs 0 (rand 0 % h)).y := by
      intro a w0 h0; simp only [centre, cell_to_matrix_idx]
    have e0 : (⟨(centre cs 0 (rand 0 % h)).x, (centre cs 0 (rand 0 % h)).y⟩ : cell)
        = centre cs 0 (rand 0 % h) := rfl
    simp only [gen_init, hmod, dim_nat, mark_visited, ex, ey, e0, hm2, hpush]
  · constructor
    · exact hf2.1
    · exact hf2.2.1
    · exact hf2.2.2
    · exact hd2
    · intro r c
      rw [hg2]
      by_cases hp : r = (centre cs 0 (rand 0 % h)).y ∧ c = (centre cs 0 (rand 0 % h)).x
      · rw [if_pos hp]; simp [marks_of, (hpos r c).mp hp]
      · rw [if_neg hp]
        have : ¬ (⟨c, r⟩ : cell) = centre cs 0 (rand 0 % h) := fun h1 => hp ((hpos r c).mpr h1)
        simp only [marks_of, List.mem_singleton, this, iff_false]
        intro h1
        have := mat_get_replicate h1
        exact absurd this (by decide)
    · intro r c
      rw [hg2]
      simp only [walls_of, List.not_mem_nil, false_and, exists_false, iff_false]
      by_cases hp : r = (centre cs 0 (rand 0 % h)).y ∧ c = (centre cs 0 (rand 0 % h)).x
      · rw [if_pos hp]; intro h1; cases h1
      · rw [if_neg hp]
        intro h1
        have := mat_get_replicate h1
        exact absurd this (by decide)
    · intro r c ch
      rw [hg2]
      by_cases hp : r = (centre cs 0 (rand 0 % h)).y ∧ c = (centre cs 0 (rand 0 % h)).x
      · rw [if_pos hp]; intro h1; cases h1; simp
      · rw [if_neg hp]
        intro h1
        exact Or.inl (mat_get_replicate h1)
    · intro r c ch
      rw [hg2]
      by_cases hp : r = (centre cs 0 (rand 0 % h)).y ∧ c = (centre cs 0 (rand 0 % h)).x
      · intro _ _
        rw [centre_x, centre_y] at hp
        omega
      · rw [if_neg hp]
        intro h1 h2
        exact absurd (mat_get_replicate h1) h2
    · exact hlen
    · show st1.capacity = w * h
      rw [hcap]; rfl
    · show st1.top_of_stack ≤ st1.capacity
      rw [htop, hcap]; simp only [init_stack]; omega
    · show (stack_cells st1).Nodup
      rw [hcells]; simp
    · intro a ha
      rw [show stack_cells st1 = [] ++ [centre cs 0 (rand 0 % h)] from hcells] at ha
      simpa [marks_of] using ha
    · intro x2 y2 x3 y3 _ _ _ _ _ hin hout
      exfalso
      apply hout
      rw [show stack_cells st1 = [] ++ [centre cs 0 (rand 0 % h)] from hcells]
      simpa [marks_of] using hin
    · exact grows.root 0 (rand 0 % h) hx hy
    · intro p hp
      simp only [pushes_of, List.mem_singleton] at hp
      rw [hp]
    · simp [pushes_of, marks_of]
  · show st1.top_of_stack = 1
    rw [htop]; rfl

/-! ## The walk loop -/

theorem inv_marks_le {cs w h : Nat} {s : gen_state} (hi : walk_inv cs w h s) :
    (marks_of s.log).length ≤ w * h :=
  centres_length_le cs (grows_nodup hi.tree) (grows_centre hi.tree)

theorem walk_total {cs w h : Nat} (hcs1 : 1 ≤ cs) (rand : Nat → Nat) :
    ∀ (fuel : Nat) (s : gen_state), walk_inv cs w h s →
      2 * (w * h - (marks_of s.log).length) + s.stack.top_of_stack + 1 ≤ fuel →
      ∃ s1, walk rand fuel s = .ok s1 ∧ walk_inv cs w h s1 ∧ s1.stack.top_of_stack = 0 := by
  intro fuel
  induction fuel with
  | zero => intro s _ hf; omega
  | succ fuel ih =>
    intro s hi hf
    by_cases h0 : s.stack.top_of_stack = 0
    · exact ⟨s, by simp [walk, stack_isempty, h0], hi, h0⟩
    · obtain ⟨s1, hs1, hi1, hm⟩ := walk_step_inv hcs1 rand hi (by omega)
      have hle := inv_marks_le hi1
      obtain ⟨s2, hs2, hi2, h2⟩ := ih s1 hi1 (by
        rcases hm with ⟨a1, a2⟩ | ⟨a1, a2⟩
        · rw [a2]; omega
        · omega)
      refine ⟨s2, ?_, hi2, h2⟩
      simp only [walk, stack_isempty, beq_iff_eq, h0, if_false, hs1]
      exact hs2

theorem walk_upto_inv {cs w h : Nat} (hcs1 : 1 ≤ cs) (rand : Nat → Nat) :
    ∀ (n : Nat) (s : gen_state), walk_inv cs w h s →
      ∃ s1, walk_upto rand n s = .ok s1 ∧ walk_inv cs w h s1 := by
  intro n
  induction n with
  | zero => intro s hi; exact ⟨s, rfl, hi⟩
  | succ n ih =>
    intro s hi
    by_cases h0 : s.stack.top_of_stack = 0
    · exact ⟨s, by simp [walk_upto, stack_isempty, h0], hi⟩
    · obtain ⟨s1, hs1, hi1, _⟩ := walk_step_inv hcs1 rand hi (by omega)
      obtain ⟨s2, hs2, hi2⟩ := ih s1 hi1
      refine ⟨s2, ?_, hi2⟩
      simp only [walk_upto, stack_isempty, beq_iff_eq, h0, if_false, hs1]
      exact hs2

theorem walk_fuel_mono (rand : Nat → Nat) :
    ∀ (fuel : Nat) (s s1 : gen_state), walk rand fuel s = .ok s1 →
      ∀ k, walk rand (fuel + k) s = .ok s1 := by
  intro fuel
  induction fuel with
  | zero => intro s s1 h; simp [walk] at h
  | succ fuel ih =>
    intro s s1 h k
    have e : fuel + 1 + k = (fuel + k) + 1 := by omega
    rw [e]
    simp only [walk] at h ⊢
    split at h
    · rename_i he; rw [if_pos he]; exact h
    · rename_i he
      rw [if_neg he]
      split at h
      · cases h
      · rename_i s2 hs2
        try simp only [hs2]
        exact ih s2 s1 h k

theorem line_connected (P : Nat → Prop) (n : Nat)
    (hstep : ∀ i, i + 1 < n → (P i ↔ P (i + 1))) : ∀ i, i < n → (P i ↔ P 0) := by
  intro i
  induction i with
  | zero => intro _; exact Iff.rfl
  | succ i ih =>
    intro hi
    exact (hstep i hi).symm.trans (ih (by omega))

theorem grid_connected {w h : Nat} (S : Nat → Nat → Prop)
    (hcl : ∀ x y x1 y1, x < w → y < h → x1 < w → y1 < h → grid_adj x y x1 y1 →
      S x y → S x1 y1)
    {x0 y0 : Nat} (hx0 : x0 < w) (hy0 : y0 < h) (h0 : S x0 y0) :
    ∀ x y, x < w → y < h → S x y := by
  have hrow : ∀ x, x < w → S x y0 := by
    have key := line_connected (fun x => S x y0) w (by
      intro i hi
      constructor
      · exact hcl i y0 (i + 1) y0 (by omega) hy0 hi hy0 (Or.inr ⟨rfl, Or.inl rfl⟩)
      · exact hcl (i + 1) y0 i y0 hi hy0 (by omega) hy0 (Or.inr ⟨rfl, Or.inr rfl⟩))
    intro x hx
    exact (key x hx).mpr ((key x0 hx0).mp h0)
  intro x y hx hy
  have key := line_connected (fun y => S x y) h (by
    intro i hi
    constructor
    · exact hcl x i x (i + 1) hx (by omega) hx hi (Or.inl ⟨rfl, Or.inl rfl⟩)
    · exact hcl x (i + 1) x i hx hi hx (by omega) (Or.inl ⟨rfl, Or.inr rfl⟩))
  exact (key y hy).mpr ((key y0 hy0).mp (hrow x hx))

/-- When the walk has ended (empty stack), every logical cell is marked. -/
theorem inv_final_all {cs w h : Nat} {s : gen_state} (hi : walk_inv cs w h s)
    (h0 : s.stack.top_of_stack = 0) :
    ∀ x y, x < w → y < h → centre cs x y ∈ marks_of s.log := by
  have hem : stack_cells s.stack = [] := by
    apply List.eq_nil_of_length_eq_zero
    rw [stack_cells_length hi.st_len hi.st_top, h0]
  have hne : marks_of s.log ≠ [] := by
    intro h1
    have := grows_length hi.tree
    rw [h1] at this
    simp at this
  obtain ⟨c0, hc0⟩ := List.exists_mem_of_ne_nil _ hne
  obtain ⟨x0, y0, hx0, hy0, rfl⟩ := grows_centre hi.tree c0 hc0
  apply grid_connected (fun x y => centre cs x y ∈ marks_of s.log) _ hx0 hy0 hc0
  intro x y x1 y1 hx hy hx1 hy1 hadj hin
  exact hi.dfs x y x1 y1 hx hy hx1 hy1 hadj hin (by rw [hem]; simp)

theorem inv_final_perm {cs w h : Nat} {s : gen_state} (hi : walk_inv cs w h s)
    (h0 : s.stack.top_of_stack = 0) : (marks_of s.log).Perm (all_centres cs w h) := by
  rw [List.perm_ext_iff_of_nodup (grows_nodup hi.tree) (all_centres_nodup cs w h)]
  intro c
  rw [mem_all_centres]
  constructor
  · exact grows_centre hi.tree c
  · rintro ⟨x, y, hx, hy, rfl⟩
    exact inv_final_all hi h0 x y hx hy

/-! ## The unmark pass -/

theorem unmarked_congr {cs w h : Nat} {D D1 : Nat → Nat → Prop} {m m1 : maze}
    (hu : unmarked cs w h D m m1)
    (hD : ∀ x y, x < w → y < h → (D x y ↔ D1 x y)) : unmarked cs w h D1 m m1 := by
  obtain ⟨h1, h2, h3, h4⟩ := hu
  have e : ∀ r c : Int, (∃ x y, x < w ∧ y < h ∧ D1 x y ∧ in_block cs x y r c) ↔
      (∃ x y, x < w ∧ y < h ∧ D x y ∧ in_block cs x y r c) := by
    intro r c
    constructor
    · rintro ⟨x, y, a1, a2, a3, a4⟩; exact ⟨x, y, a1, a2, (hD x y a1 a2).mpr a3, a4⟩
    · rintro ⟨x, y, a1, a2, a3, a4⟩; exact ⟨x, y, a1, a2, (hD x y a1 a2).mp a3, a4⟩
  refine ⟨h1, h2, ?_, ?_⟩
  · intro r c hc; exact h3 r c ((e r c).mp hc)
  · intro r c hc; exact h4 r c (fun h5 => hc ((e r c).mpr h5))

/-- One position of the scan of the unmark pass. -/
theorem unmark_cell {cs w h : Nat} (hcs1 : 1 ≤ cs) {m : maze} (hcs : m.cell_size = cs)
    (hv : ∀ r c : Int, mat_get m.a r c = .ok 'v' ↔
      ∃ x y, x < w ∧ y < h ∧ r = ((ctr cs y : Nat) : Int) ∧ c = ((ctr cs x : Nat) : Int))
    (D : Nat → Nat → Prop) {row col : Nat} (hrow : row < (cs + 1) * h + 1)
    (hcol : col < (cs + 1) * w + 1)
    (hD : ∀ x y, D x y → ¬ (ctr cs y = row ∧ ctr cs x = col))
    {m1 : maze} (hu : unmarked cs w h D m m1) :
    ∃ m2, unmark_at m1 row col = .ok m2 ∧
      unmarked cs w h (fun x y => D x y ∨ (ctr cs y = row ∧ ctr cs x = col)) m m2 := by
  obtain ⟨hd1, hf1, hb1, hn1⟩ := hu
  obtain ⟨ch, hch⟩ := mat_get_inb hd1 (r := (row : Int)) (c := (col : Int))
    (by omega) (by omega) (by omega) (by omega)
  -- a centre at the scanned position that D has not selected still holds 'v'
  have hcentre : ∀ x y, x < w → y < h → ctr cs y = row → ctr cs x = col → ch = 'v' := by
    intro x y hx hy hy2 hx2
    have hnot : ¬ (∃ x1 y1, x1 < w ∧ y1 < h ∧ D x1 y1 ∧
        in_block cs x1 y1 (row : Int) (col : Int)) := by
      rintro ⟨x1, y1, _, _, hD1, hb⟩
      have hb2 : in_block cs x y (row : Int) (col : Int) := by
        rw [← hy2, ← hx2]; exact in_block_centre hcs1 x y
      obtain ⟨r1, r2⟩ := in_block_inj hb hb2
      subst r1; subst r2
      exact hD _ _ hD1 ⟨hy2, hx2⟩
    have h1 := hn1 _ _ hnot
    have h2 : mat_get m.a (row : Int) (col : Int) = .ok 'v' :=
      (hv _ _).mpr ⟨x, y, hx, hy, by rw [hy2], by rw [hx2]⟩
    rw [hch, h2] at h1
    injection h1
  by_cases hchv : ch = 'v'
  · subst hchv
    have hnot : ¬ (∃ x1 y1, x1 < w ∧ y1 < h ∧ D x1 y1 ∧
        in_block cs x1 y1 (row : Int) (col : Int)) := by
      intro hc
      have := hb1 _ _ hc
      rw [hch] at this
      injection this with h2
      exact absurd h2 (by decide)
    have h1 := hn1 _ _ hnot
    rw [hch] at h1
    obtain ⟨x, y, hx, hy, hy2, hx2⟩ := (hv _ _).mp h1.symm
    have hy3 : ctr cs y = row := by exact_mod_cast hy2.symm
    have hx3 : ctr cs x = col := by exact_mod_cast hx2.symm
    obtain ⟨m2, hm2, hd2, hf2, hg2⟩ :=
      fill_cell_centre (m := m1) (hf1.2.2.trans hcs) hcs1 hd1 hx hy ' '
    have ec : (⟨(col : Int), (row : Int)⟩ : cell) = centre cs x y := by
      rw [centre_eq, hy2, hx2]
    refine ⟨m2, by simp only [unmark_at, hch, if_true, ec, hm2], hd2,
      frame_eq_trans hf1 hf2, ?_, ?_⟩
    · rintro r c ⟨x1, y1, hx1, hy1, hD1 | hD1, hb⟩
      · rw [hg2]
        split
        · rfl
        · exact hb1 r c ⟨x1, y1, hx1, hy1, hD1, hb⟩
      · have r1 : y1 = y := ctr_inj cs (hD1.1.trans hy3.symm)
        have r2 : x1 = x := ctr_inj cs (hD1.2.trans hx3.symm)
        subst r1; subst r2
        rw [hg2, if_pos hb]
    · intro r c hc
      have hnb : ¬ in_block cs x y r c :=
        fun hb => hc ⟨x, y, hx, hy, Or.inr ⟨hy3, hx3⟩, hb⟩
      rw [hg2, if_neg hnb]
      exact hn1 r c (fun ⟨x1, y1, a1, a2, a3, a4⟩ => hc ⟨x1, y1, a1, a2, Or.inl a3, a4⟩)
  · refine ⟨m1, by simp only [unmark_at, hch, hchv, if_false], ?_⟩
    apply unmarked_congr ⟨hd1, hf1, hb1, hn1⟩
    intro x y hx hy
    constructor
    · intro hD1; exact Or.inl hD1
    · rintro (hD1 | ⟨hy2, hx2⟩)
      · exact hD1
      · exact absurd (hcentre x y hx hy hy2 hx2) hchv

theorem unmark_spec {cs w h : Nat} (hcs1 : 1 ≤ cs) {m : maze} (hcs : m.cell_size = cs)
    (hd : Dims m.a ((cs + 1) * h + 1) ((cs + 1) * w + 1))
    (hv : ∀ r c : Int, mat_get m.a r c = .ok 'v' ↔
      ∃ x y, x < w ∧ y < h ∧ r = ((ctr cs y : Nat) : Int) ∧ c = ((ctr cs x : Nat) : Int)) :
    ∃ m2, unmark m w h = .ok m2 ∧ unmarked cs w h (fun _ _ => True) m m2 := by
  have hrowloop : ∀ row, row < (cs + 1) * h + 1 → ∀ m1,
      unmarked cs w h (fun _ y => ctr cs y < row) m m1 →
      ∃ m2, for_up (fun col m2 => unmark_at m2 row col)
          ((cs + 1) * w + 1) 0 m1 = .ok m2 ∧
        unmarked cs w h (fun _ y => ctr cs y < row + 1) m m2 := by
    intro row hrow m1 hu
    have key := for_up_spec (fun col m2 => unmark_at m2 row col)
      (fun col m2 => unmarked cs w h
        (fun x y => ctr cs y < row ∨ (ctr cs y = row ∧ ctr cs x < col)) m m2)
      ((cs + 1) * w + 1) 0 m1
    simp only [Nat.zero_add] at key
    obtain ⟨m2, hm2, hu2⟩ := key
      (by
        intro col s0 _ hcol hu0
        obtain ⟨m3, hm3, hu3⟩ := unmark_cell hcs1 hcs hv _ hrow hcol
          (by intro x y hD; omega) hu0
        refine ⟨m3, hm3, unmarked_congr hu3 ?_⟩
        intro x y _ _
        omega)
      (unmarked_congr hu (by intro x y _ _; omega))
    refine ⟨m2, hm2, unmarked_congr hu2 ?_⟩
    intro x y hx _
    have := ctr_bounds hcs1 hx
    omega
  have key := for_up_spec (fun row m1 => for_up (fun col m2 => unmark_at m2 row col)
          ((cs + 1) * w + 1) 0 m1)
    (fun row m1 => unmarked cs w h (fun _ y => ctr cs y < row) m m1)
    ((cs + 1) * h + 1) 0 m
  simp only [Nat.zero_add] at key
  obtain ⟨m2, hm2, hu2⟩ := key
    (by intro row s0 _ hrow hu0; exact hrowloop row hrow s0 hu0)
    ⟨hd, frame_eq_refl m, by rintro r c ⟨x, y, _, _, hD, _⟩; omega, by intro r c _; rfl⟩
  refine ⟨m2, ?_, unmarked_congr hu2 ?_⟩
  · simp only [unmark, dim_nat, hcs]
    exact hm2
  · intro x y _ hy
    have := ctr_bounds hcs1 hy
    simp only [iff_true]
    omega

/-! ## Entrance and exit -/

theorem carve_entrance_eq {m : maze} {ch0 : Char} (n : Nat)
    (h0 : mat_get m.a 0 1 = .ok ch0) (hne : ch0 ≠ ' ') (h1 : mat_get m.a 1 1 = .ok ' ') :
    carve_entrance m (n + 2) 0 = set_cell m 1 0 ' ' := by
  simp only [carve_entrance, Nat.cast_zero, h0, hne, if_false, Nat.zero_add, Nat.cast_one, h1,
    if_true]

theorem carve_exit_eq {m : maze} {ch0 : Char} (wd k : Nat)
    (h0 : mat_get m.a ((k + 1 : Nat) : Int) (cell_to_matrix_idx m ((wd : Int) - 1)) = .ok ch0)
    (hne : ch0 ≠ ' ')
    (h1 : mat_get m.a (k : Int) (cell_to_matrix_idx m ((wd : Int) - 1)) = .ok ' ') :
    carve_exit m wd (k + 2) = set_cell m (k : Int) (maze_dimension_to_matrix m wd - 1) ' ' := by
  simp only [carve_exit, h0, hne, if_false, h1, if_true]

theorem walked_v {cs w h : Nat} {s : gen_state} (hi : walk_inv cs w h s)
    (h0 : s.stack.top_of_stack = 0) (r c : Int) :
    mat_get s.maze.a r c = .ok 'v' ↔
      ∃ x y, x < w ∧ y < h ∧ r = ((ctr cs y : Nat) : Int) ∧ c = ((ctr cs x : Nat) : Int) := by
  rw [hi.mat_v]
  constructor
  · intro hm
    obtain ⟨x, y, hx, hy, he⟩ := grows_centre hi.tree _ hm
    rw [centre_eq] at he
    injection he with he1 he2
    exact ⟨x, y, hx, hy, he2, he1⟩
  · rintro ⟨x, y, hx, hy, rfl, rfl⟩
    have := inv_final_all hi h0 x y hx hy
    rw [centre_eq] at this
    exact this

/-- The maze after the unmark pass on the final state of the walk. -/
theorem unmarked_facts {cs w h : Nat} (hcs1 : 1 ≤ cs) {s : gen_state}
    (hi : walk_inv cs w h s) (h0 : s.stack.top_of_stack = 0) {m2 : maze}
    (hu : unmarked cs w h (fun _ _ => True) s.maze m2) :
    (∀ (r c : Int) (ch : Char), mat_get m2.a r c = .ok ch → ch = 'w' ∨ ch = ' ') ∧
    (∀ (r c : Int) (ch : Char), mat_get m2.a r c = .ok ch → ch ≠ 'w' →
      1 ≤ r ∧ r + 1 < (((cs + 1) * h + 1 : Nat) : Int) ∧
      1 ≤ c ∧ c + 1 < (((cs + 1) * w + 1 : Nat) : Int)) ∧
    (∀ (r c : Int), (∃ x y, x < w ∧ y < h ∧ in_block cs x y r c) →
      mat_get m2.a r c = .ok ' ') := by
  obtain ⟨hd2, hf2, hb2, hn2⟩ := hu
  have hblk : ∀ r c : Int, (∃ x y, x < w ∧ y < h ∧ in_block cs x y r c) →
      (∃ x y, x < w ∧ y < h ∧ True ∧ in_block cs x y r c) := by
    rintro r c ⟨x, y, a1, a2, a3⟩; exact ⟨x, y, a1, a2, trivial, a3⟩
  refine ⟨?_, ?_, fun r c hc => hb2 r c (hblk r c hc)⟩
  · intro r c ch hch
    by_cases hc : ∃ x y, x < w ∧ y < h ∧ True ∧ in_block cs x y r c
    · rw [hb2 r c hc] at hch
      injection hch with h1
      exact Or.inr h1.symm
    · rw [hn2 r c hc] at hch
      rcases hi.content r c ch hch with h1 | h1 | h1
      · exact Or.inl h1
      · subst h1
        obtain ⟨x, y, hx, hy, rfl, rfl⟩ := (walked_v hi h0 r c).mp hch
        exact absurd ⟨x, y, hx, hy, trivial, in_block_centre hcs1 x y⟩ hc
      · exact Or.inr h1
  · intro r c ch hch hne
    by_cases hc : ∃ x y, x < w ∧ y < h ∧ True ∧ in_block cs x y r c
    · obtain ⟨x, y, hx, hy, _, b1, b2, b3, b4⟩ := hc
      have := mul_succ_le cs hx
      have := mul_succ_le cs hy
      omega
    · rw [hn2 r c hc] at hch
      exact hi.interior r c ch hch hne

/-! ## The maze before the potions -/

/-- Entrance and exit carved into the maze left by the unmark pass. -/
theorem carve_spec {cs w h : Nat} (hcs1 : 1 ≤ cs) (hw1 : 1 ≤ w) (hh1 : 1 ≤ h) {m2 : maze}
    (hcs : m2.cell_size = cs) (hmw : m2.w = w) (hmh : m2.h = h)
    (hd : Dims m2.a ((cs + 1) * h + 1) ((cs + 1) * w + 1))
    (hcont : ∀ (r c : Int) (ch : Char), mat_get m2.a r c = .ok ch → ch = 'w' ∨ ch = ' ')
    (hint : ∀ (r c : Int) (ch : Char), mat_get m2.a r c = .ok ch → ch ≠ 'w' →
      1 ≤ r ∧ r + 1 < (((cs + 1) * h + 1 : Nat) : Int) ∧
      1 ≤ c ∧ c + 1 < (((cs + 1) * w + 1 : Nat) : Int))
    (hblk : ∀ (r c : Int), (∃ x y, x < w ∧ y < h ∧ in_block cs x y r c) →
      mat_get m2.a r c = .ok ' ') :
    ∃ m3 m4, carve_entrance m2 (maze_dimension_to_matrix m2 (h : Int)).toNat 0 = .ok m3 ∧
      carve_exit m3 w (maze_dimension_to_matrix m3 (h : Int)).toNat = .ok m4 ∧
      built cs w h { m4 with w := (maze_dimension_to_matrix m4 (m4.w : Int)).toNat,
                             h := (maze_dimension_to_matrix m4 (m4.h : Int)).toNat } := by
  have hW := mul_succ_le cs (show 0 < w by omega)
  have hH := mul_succ_le cs (show 0 < h by omega)
  have hW2 := mul_succ_le cs (show w - 1 < w by omega)
  have hH2 : (cs + 1) * (h - 1) + (cs + 1) = (cs + 1) * h := by
    obtain ⟨h2, rfl⟩ : ∃ h2, h = h2 + 1 := ⟨h - 1, by omega⟩
    simp only [Nat.add_sub_cancel, Nat.mul_succ]
  simp only [Nat.mul_zero, Nat.zero_add] at hW hH
  -- the entrance
  obtain ⟨ch0, hch0⟩ := mat_get_inb hd (r := 0) (c := 1) (by omega) (by omega) (by omega)
    (by omega)
  have hne0 : ch0 ≠ ' ' := by
    intro h1
    have := hint 0 1 ch0 hch0 (by rw [h1]; decide)
    omega
  have h11 : mat_get m2.a 1 1 = .ok ' ' :=
    hblk 1 1 ⟨0, 0, by omega, by omega, by simp only [in_block]; omega⟩
  obtain ⟨k, hk⟩ : ∃ k, (cs + 1) * h + 1 = k + 2 := ⟨(cs + 1) * h - 1, by omega⟩
  obtain ⟨m3, hm3⟩ := set_cell_inb hd ' ' (r := 1) (c := 0) (by omega) (by omega) (by omega)
    (by omega)
  have hd3 := set_cell_dims hd hm3
  have hf3 := (set_cell_ok hm3).2
  have hg3 := set_cell_get hm3
  -- the exit
  have hcx : cell_to_matrix_idx m3 ((w : Int) - 1) = ((ctr cs (w - 1) : Nat) : Int) := by
    have := c2m_nat m3 (w - 1)
    rw [hf3.2.2, hcs] at this
    rw [← this]
    congr 1; omega
  have hbx := ctr_bounds hcs1 (show w - 1 < w by omega)
  obtain ⟨ch1, hch1⟩ := mat_get_inb hd3 (r := ((k + 1 : Nat) : Int))
    (c := ((ctr cs (w - 1) : Nat) : Int)) (by omega) (by omega) (by omega) (by omega)
  have hne1 : ch1 ≠ ' ' := by
    intro h1
    rw [hg3] at hch1
    have hp : ¬ (((k + 1 : Nat) : Int) = 1 ∧ ((ctr cs (w - 1) : Nat) : Int) = 0) := by omega
    rw [if_neg hp] at hch1
    have := hint _ _ ch1 hch1 (by rw [h1]; decide)
    omega
  have hk1 : mat_get m3.a (k : Int) ((ctr cs (w - 1) : Nat) : Int) = .ok ' ' := by
    rw [hg3]
    have hp : ¬ ((k : Int) = 1 ∧ ((ctr cs (w - 1) : Nat) : Int) = 0) := by omega
    rw [if_neg hp]
    apply hblk
    refine ⟨w - 1, h - 1, by omega, by omega, ?_⟩
    simp only [in_block]
    omega
  have hdimw : maze_dimension_to_matrix m3 (w : Int) - 1 = (((cs + 1) * w : Nat) : Int) := by
    simp only [maze_dimension_to_matrix, hf3.2.2, hcs]
    push_cast; ring
  obtain ⟨m4, hm4⟩ := set_cell_inb hd3 ' ' (r := (k : Int)) (c := (((cs + 1) * w : Nat) : Int))
    (by omega) (by omega) (by omega) (by omega)
  have hd4 := set_cell_dims hd3 hm4
  have hf4 := (set_cell_ok hm4).2
  have hg4 := set_cell_get hm4
  have hk2 : (k : Int) = (((cs + 1) * h - 1 : Nat) : Int) := by omega
  have hget : ∀ r c : Int, mat_get m4.a r c =
      if r = (((cs + 1) * h - 1 : Nat) : Int) ∧ c = (((cs + 1) * w : Nat) : Int) then .ok ' '
      else if r = 1 ∧ c = 0 then .ok ' ' else mat_get m2.a r c := by
    intro r c
    rw [hg4, hg3, hk2]
  refine ⟨m3, m4, ?_, ?_, ?_⟩
  · rw [dim_nat, hcs, hk, carve_entrance_eq k hch0 hne0 h11]
    exact hm3
  · rw [dim_nat, hf3.2.2, hcs, hk, carve_exit_eq w k (by rw [hcx]; exact hch1) hne1
      (by rw [hcx]; exact hk1), hdimw]
    exact hm4
  · constructor
    · show (maze_dimension_to_matrix m4 (m4.w : Int)).toNat = (cs + 1) * w + 1
      rw [dim_nat, hf4.2.2, hf3.2.2, hcs, hf4.1, hf3.1, hmw]
    · show (maze_dimension_to_matrix m4 (m4.h : Int)).toNat = (cs + 1) * h + 1
      rw [dim_nat, hf4.2.2, hf3.2.2, hcs, hf4.2.1, hf3.2.1, hmh]
    · show m4.cell_size = cs
      rw [hf4.2.2, hf3.2.2, hcs]
    · exact hd4
    · intro r c ch
      show mat_get m4.a r c = .ok ch → _
      rw [hget]
      split
      · intro h1; injection h1 with h2; exact Or.inr h2.symm
      · split
        · intro h1; injection h1 with h2; exact Or.inr h2.symm
        · exact hcont r c ch
    · intro r c hc
      show mat_get m4.a r c = .ok ' '
      rw [hget]
      split
      · rfl
      · split
        · rfl
        · exact hblk r c hc
    · show mat_get m4.a 1 0 = .ok ' '
      rw [hget]
      split
      · rfl
      · simp
    · show mat_get m4.a _ _ = .ok ' '
      rw [hget]
      simp
    · intro r c ch
      show mat_get m4.a r c = .ok ch → _
      rw [hget]
      split
      · rename_i h1; intro _ _; exact Or.inr (Or.inr h1)
      · split
        · rename_i h1; intro _ _; exact Or.inr (Or.inl h1)
        · intro h1 h2; exact Or.inl (hint r c ch h1 h2)

/-- Everything before the potions: with fuel 2*w*h or more, build_maze yields
the final state of the walk with the finished matrix. -/
theorem build_maze_spec {cs w h : Nat} (hcs1 : 1 ≤ cs) (hw1 : 1 ≤ w) (hh1 : 1 ≤ h)
    (rand : Nat → Nat) (fuel : Nat) (hfuel : 2 * w * h ≤ fuel) :
    ∃ s0 s1 s, gen_init w h cs rand = .ok s0 ∧ walk rand fuel s0 = .ok s1 ∧
      walk_inv cs w h s0 ∧ walk_inv cs w h s1 ∧ s1.stack.top_of_stack = 0 ∧
      build_maze w h cs rand fuel = .ok s ∧
      s.stack = s1.stack ∧ s.rng = s1.rng ∧ s.log = s1.log ∧ built cs w h s.maze := by
  obtain ⟨s0, hs0, hi0, hlog0, htop0⟩ := gen_init_inv hcs1 hw1 hh1 rand
  obtain ⟨s1, hs1, hi1, htop1⟩ := walk_total hcs1 rand fuel s0 hi0 (by
    have hm : (marks_of s0.log).length = 1 := by rw [hlog0]; rfl
    have hwh : 0 < w * h := Nat.mul_pos (by omega) (by omega)
    rw [hm, htop0]
    have : 2 * w * h = 2 * (w * h) := by ring
    omega)
  obtain ⟨m2, hm2, hu2⟩ := unmark_spec hcs1 hi1.hcs hi1.dims (walked_v hi1 htop1)
  obtain ⟨hc2, hint2, hb2⟩ := unmarked_facts hcs1 hi1 htop1 hu2
  obtain ⟨m3, m4, hm3, hm4, hb⟩ := carve_spec hcs1 hw1 hh1 (hu2.2.1.2.2.trans hi1.hcs)
    (hu2.2.1.1.trans hi1.hw) (hu2.2.1.2.1.trans hi1.hh) hu2.1 hc2 hint2 hb2
  refine ⟨s0, s1,
    { s1 with maze := { m4 with w := (maze_dimension_to_matrix m4 (m4.w : Int)).toNat,
                                h := (maze_dimension_to_matrix m4 (m4.h : Int)).toNat } },
    hs0, hs1, hi0, hi1, htop1, ?_, rfl, rfl, rfl, hb⟩
  simp only [build_maze, hs0, hs1, hm2, hm3, hm4]

/-! ## Fuel and the potions -/

theorem build_maze_walk {w h cs : Nat} {rand : Nat → Nat} {fuel : Nat} {s : gen_state}
    (hb : build_maze w h cs rand fuel = .ok s) :
    ∃ s0 s1, gen_init w h cs rand = .ok s0 ∧ walk rand fuel s0 = .ok s1 := by
  unfold build_maze at hb
  split at hb
  · cases hb
  · rename_i s0 hs0
    split at hb
    · cases hb
    · rename_i s1 hs1
      exact ⟨s0, s1, hs0, hs1⟩

theorem build_fuel_mono {w h cs : Nat} {rand : Nat → Nat} {fuel : Nat} {s : gen_state}
    (hb : build_maze w h cs rand fuel = .ok s) (k : Nat) :
    build_maze w h cs rand (fuel + k) = .ok s := by
  obtain ⟨s0, s1, hs0, hs1⟩ := build_maze_walk hb
  have hs2 := walk_fuel_mono rand fuel s0 s1 hs1 k
  simp only [build_maze, hs0, hs1, hs2] at hb ⊢
  exact hb

/-- Whenever build_maze yields a state, with whatever fuel, it is the state
described by build_maze_spec. -/
theorem build_maze_ok {cs w h : Nat} (hcs1 : 1 ≤ cs) (hw1 : 1 ≤ w) (hh1 : 1 ≤ h)
    {rand : Nat → Nat} {fuel : Nat} {s : gen_state}
    (hb : build_maze w h cs rand fuel = .ok s) :
    ∃ s0 s1, gen_init w h cs rand = .ok s0 ∧ walk rand fuel s0 = .ok s1 ∧
      walk_inv cs w h s0 ∧ walk_inv cs w h s1 ∧ s1.stack.top_of_stack = 0 ∧
      s.stack = s1.stack ∧ s.rng = s1.rng ∧ s.log = s1.log ∧ built cs w h s.maze := by
  obtain ⟨s0, s1, hs0, hs1⟩ := build_maze_walk hb
  obtain ⟨t0, t1, t, ht0, ht1, hi0, hi1, htop, htb, e1, e2, e3, hbuilt⟩ :=
    build_maze_spec hcs1 hw1 hh1 rand (fuel + 2 * w * h) (by omega)
  have hb2 := build_fuel_mono hb (2 * w * h)
  rw [htb] at hb2
  injection hb2 with hb3
  subst hb3
  rw [hs0] at ht0
  injection ht0 with ht0
  subst ht0
  have hs2 := walk_fuel_mono rand fuel s0 s1 hs1 (2 * w * h)
  rw [ht1] at hs2
  injection hs2 with hs2
  subst hs2
  exact ⟨s0, t1, hs0, hs1, hi0, hi1, htop, e1, e2, e3, hbuilt⟩

theorem place_potion_ok (rand : Nat → Nat) :
    ∀ (fuel : Nat) (s s1 : gen_state), place_potion rand fuel s = .ok s1 →
      ∃ r c : Nat, r < s.maze.h - 1 ∧ c < s.maze.w - 1 ∧
        mat_get s.maze.a (r : Int) (c : Int) = .ok ' ' ∧
        set_cell s.maze (r : Int) (c : Int) POTION = .ok s1.maze ∧
        s1.stack = s.stack ∧ s1.log = s.log := by
  intro fuel
  induction fuel with
  | zero => intro s s1 h; simp [place_potion] at h
  | succ fuel ih =>
    intro s s1 h
    simp only [place_potion] at h
    split at h
    · cases h
    · rename_i row hrow
      split at h
      · cases h
      · rename_i col hcol
        split at h
        · cases h
        · rename_i ch hch
          have hr : row < s.maze.h - 1 := by
            unfold c_mod at hrow
            split at hrow
            · cases hrow
            · rename_i hne
              injection hrow with hrow
              rw [← hrow]
              exact Nat.mod_lt _ (by omega)
          have hc : col < s.maze.w - 1 := by
            unfold c_mod at hcol
            split at hcol
            · cases hcol
            · rename_i hne
              injection hcol with hcol
              rw [← hcol]
              exact Nat.mod_lt _ (by omega)
          split at h
          · exact ih { s with rng := s.rng + 2 } s1 h
          · rename_i hsp
            have hch2 : ch = ' ' := by
              by_contra hne; exact hsp hne
            subst hch2
            split at h
            · cases h
            · rename_i m1 hm1
              injection h with h
              subst h
              exact ⟨row, col, hr, hc, hch, hm1, rfl, rfl⟩

theorem place_potions_ok (rand : Nat → Nat) (fuel : Nat) (s s3 : gen_state)
    (h : place_potions rand fuel s = .ok s3) :
    ∃ s1 s2, place_potion rand fuel s = .ok s1 ∧ place_potion rand fuel s1 = .ok s2 ∧
      place_potion rand fuel s2 = .ok s3 := by
  simp only [place_potions, for_up] at h
  split at h
  · cases h
  · rename_i s1 hs1
    split at h
    · cases h
    · rename_i s2 hs2
      split at h
      · cases h
      · rename_i s3b hs3
        injection h with h
        subst h
        exact ⟨s1, s2, hs1, hs2, hs3⟩

/-! ## The carved edges form a spanning tree -/

theorem grows_start {cs w h : Nat} {vs : List cell} {es : List (cell × cell)}
    (hg : grows cs w h vs es) : ∃ x y, x < w ∧ y < h ∧ vs.head? = some (centre cs x y) := by
  induction hg with
  | root x y hx hy => exact ⟨x, y, hx, hy, rfl⟩
  | step vs es x y x1 y1 hg hx hy hx1 hy1 hadj hin hout ih =>
    obtain ⟨x0, y0, hx0, hy0, hh⟩ := ih
    refine ⟨x0, y0, hx0, hy0, ?_⟩
    cases vs with
    | nil => simp at hh
    | cons v vs => simpa using hh

theorem grows_ends {cs w h : Nat} {vs : List cell} {es : List (cell × cell)}
    (hg : grows cs w h vs es) : ∀ e, e ∈ es → e.1 ∈ vs ∧ e.2 ∈ vs := by
  induction hg with
  | root x y hx hy => intro e he; simp at he
  | step vs es x y x1 y1 hg hx hy hx1 hy1 hadj hin hout ih =>
    intro e he
    rcases List.mem_append.mp he with h1 | h1
    · exact ⟨List.mem_append_left _ (ih e h1).1, List.mem_append_left _ (ih e h1).2⟩
    · simp only [List.mem_singleton] at h1
      subst h1
      exact ⟨List.mem_append_left _ hin, List.mem_append_right _ (by simp)⟩

theorem linked_mono {es es1 : List (cell × cell)} (hsub : ∀ e, e ∈ es → e ∈ es1) {a b : cell}
    (hl : linked es a b) : linked es1 a b := by
  induction hl with
  | refl => exact linked.refl _
  | step b c hl he ih =>
    exact linked.step _ b c ih (he.elim (fun h => Or.inl (hsub _ h)) (fun h => Or.inr (hsub _ h)))

/-- Every visited cell is joined to the first one by carved edges. -/
theorem grows_linked {cs w h : Nat} {vs : List cell} {es : List (cell × cell)}
    (hg : grows cs w h vs es) : ∀ r, vs.head? = some r → ∀ c, c ∈ vs → linked es r c := by
  induction hg with
  | root x y hx hy =>
    intro r hr c hc
    simp only [List.head?_cons, Option.some.injEq] at hr
    simp only [List.mem_singleton] at hc
    subst hr; subst hc
    exact linked.refl _
  | step vs es x y x1 y1 hg hx hy hx1 hy1 hadj hin hout ih =>
    intro r hr c hc
    have hr2 : vs.head? = some r := by
      cases vs with
      | nil => simp at hin
      | cons v vs => simpa using hr
    have hmono : ∀ c, linked es r c → linked (es ++ [(centre cs x y, centre cs x1 y1)]) r c :=
      fun c hl => linked_mono (fun e he => List.mem_append_left _ he) hl
    rcases List.mem_append.mp hc with h1 | h1
    · exact hmono c (ih r hr2 c h1)
    · simp only [List.mem_singleton] at h1
      subst h1
      exact linked.step _ _ _ (hmono _ (ih r hr2 _ hin)) (Or.inl (by simp))

/-- A new edge towards a cell outside vs joins no two cells of vs that were
not joined before. -/
theorem linked_leaf {es : List (cell × cell)} {vs : List cell} {a b : cell}
    (hends : ∀ e, e ∈ es → e.1 ∈ vs ∧ e.2 ∈ vs) (ha : a ∈ vs) (hb : b ∉ vs)
    {x : cell} (hx : x ∈ vs) {y : cell} (hl : linked (es ++ [(a, b)]) x y) :
    (y ∈ vs → linked es x y) ∧ (y = b → linked es x a) := by
  induction hl with
  | refl =>
    exact ⟨fun _ => linked.refl _, fun h => absurd (h ▸ hx) hb⟩
  | step y1 y2 hl he ih =>
    have hcases : ((y1, y2) ∈ es ∨ (y2, y1) ∈ es) ∨ (y1 = a ∧ y2 = b) ∨ (y2 = a ∧ y1 = b) := by
      rcases he with h1 | h1
      · rcases List.mem_append.mp h1 with h2 | h2
        · exact Or.inl (Or.inl h2)
        · simp only [List.mem_singleton, Prod.mk.injEq] at h2
          exact Or.inr (Or.inl h2)
      · rcases List.mem_append.mp h1 with h2 | h2
        · exact Or.inl (Or.inr h2)
        · simp only [List.mem_singleton, Prod.mk.injEq] at h2
          exact Or.inr (Or.inr h2)
    rcases hcases with h1 | ⟨h1, h2⟩ | ⟨h1, h2⟩
    · have hy1 : y1 ∈ vs := h1.elim (fun h => (hends _ h).1) (fun h => (hends _ h).2)
      have hy2 : y2 ∈ vs := h1.elim (fun h => (hends _ h).2) (fun h => (hends _ h).1)
      refine ⟨fun _ => linked.step _ y1 y2 (ih.1 hy1) h1, fun h => absurd (h ▸ hy2) hb⟩
    · subst h1; subst h2
      exact ⟨fun h => absurd h hb, fun _ => ih.1 ha⟩
    · subst h1; subst h2
      exact ⟨fun _ => ih.2 rfl, fun h => absurd (h ▸ ha) hb⟩

theorem linked_in {es : List (cell × cell)} {vs : List cell}
    (hends : ∀ e, e ∈ es → e.1 ∈ vs ∧ e.2 ∈ vs) {x : cell} (hx : x ∈ vs) {y : cell}
    (hl : linked es x y) : y ∈ vs := by
  induction hl with
  | refl => exact hx
  | step y1 y2 hl he ih =>
    exact he.elim (fun h => (hends _ h).2) (fun h => (hends _ h).1)

/-- No carved edge closes a cycle: without it its endpoints are not joined. -/
theorem grows_acyclic {cs w h : Nat} {vs : List cell} {es : List (cell × cell)}
    (hg : grows cs w h vs es) : ∀ e, e ∈ es → ¬ linked (es.erase e) e.1 e.2 := by
  induction hg with
  | root x y hx hy => intro e he; simp at he
  | step vs es x y x1 y1 hg hx hy hx1 hy1 hadj hin hout ih =>
    intro e he
    have hends := grows_ends hg
    have hnew : (centre cs x y, centre cs x1 y1) ∉ es :=
      fun h1 => hout (hends _ h1).2
    by_cases hmem : e ∈ es
    · have herase : (es ++ [(centre cs x y, centre cs x1 y1)]).erase e
          = es.erase e ++ [(centre cs x y, centre cs x1 y1)] :=
        List.erase_append_left _ hmem
      rw [herase]
      intro hl
      have hends2 : ∀ e1, e1 ∈ es.erase e → e1.1 ∈ vs ∧ e1.2 ∈ vs :=
        fun e1 h1 => hends e1 (List.mem_of_mem_erase h1)
      exact ih e hmem ((linked_leaf hends2 hin hout (hends e hmem).1 hl).1 (hends e hmem).2)
    · have he2 : e = (centre cs x y, centre cs x1 y1) := by
        rcases List.mem_append.mp he with h1 | h1
        · exact absurd h1 hmem
        · simpa using h1
      have herase : (es ++ [(centre cs x y, centre cs x1 y1)]).erase e = es := by
        rw [List.erase_append_right _ hmem, he2]
        simp
      rw [herase, he2]
      intro hl
      exact hout (linked_in hends hin hl)

/-! ## Counting glyphs -/

theorem mem_mat_get {a : List (List Char)} {row : List Char} {ch : Char} (hrow : row ∈ a)
    (hch : ch ∈ row) : ∃ r c : Nat, mat_get a (r : Int) (c : Int) = .ok ch := by
  obtain ⟨r, hr, hr2⟩ := List.getElem_of_mem hrow
  obtain ⟨c, hc, hc2⟩ := List.getElem_of_mem hch
  refine ⟨r, c, ?_⟩
  simp [mat_get, List.getElem?_eq_getElem hr, hr2, List.getElem?_eq_getElem hc, hc2]

theorem count_glyph_zero {a : List (List Char)} {g : Char}
    (h : ∀ (r c : Int) (ch : Char), mat_get a r c = .ok ch → ch ≠ g) : count_glyph a g = 0 := by
  unfold count_glyph
  apply List.sum_eq_zero
  intro n hn
  obtain ⟨row, hrow, rfl⟩ := List.mem_map.mp hn
  apply List.count_eq_zero_of_not_mem
  intro hg
  obtain ⟨r, c, hrc⟩ := mem_mat_get hrow hg
  exact h _ _ _ hrc rfl

theorem sum_map_set {α : Type} (f : α → Nat) :
    ∀ (l : List α) (i : Nat) (x : α) (hi : i < l.length),
      ((l.set i x).map f).sum + f l[i] = (l.map f).sum + f x := by
  intro l
  induction l with
  | nil => intro i x hi; simp at hi
  | cons y l ih =>
    intro i x hi
    cases i with
    | zero => simp; omega
    | succ i =>
      simp only [List.set_cons_succ, List.map_cons, List.sum_cons, List.getElem_cons_succ]
      have := ih i x (by simpa using hi)
      omega

theorem count_glyph_set {a a1 : List (List Char)} {r c : Int} {old g : Char}
    (hs : mat_set a r c g = .ok a1) (hg : mat_get a r c = .ok old) (hne : old ≠ g) :
    count_glyph a1 g = count_glyph a g + 1 := by
  unfold mat_set at hs
  unfold mat_get at hg
  split at hs
  · rename_i hrc
    rw [if_pos hrc] at hg
    split at hs
    · cases hs
    · rename_i row hrow
      rw [hrow] at hg
      simp only at hg
      split at hs
      · rename_i hclt
        injection hs with hs
        subst hs
        obtain ⟨hlt, hrow2⟩ := List.getElem?_eq_some_iff.mp hrow
        rw [List.getElem?_eq_getElem hclt] at hg
        simp only at hg
        injection hg with hg
        unfold count_glyph
        have h1 := sum_map_set (fun row : List Char => row.count g) a r.toNat
          (row.set c.toNat g) hlt
        simp only at h1
        rw [hrow2] at h1
        have h2 := List.count_set g g row c.toNat hclt
        have h3 : (row[c.toNat] == g) = false := by
          rw [hg]; simpa using hne
        simp only [h3, beq_self_eq_true, if_true] at h2
        simp at h2
        omega
      · cases hs
  · cases hs

/-- The run of generate_maze behind a returned maze: the maze built before the
potions, then three writes of a potion, each on a cell that held a passage. -/
theorem potions_trace {cs w h : Nat} (hcs1 : 1 ≤ cs) (hw1 : 1 ≤ w) (hh1 : 1 ≤ h)
    {rand : Nat → Nat} {fuel : Nat} {m : maze}
    (hg : generate_maze w h cs rand fuel = .ok m) :
    ∃ (s : gen_state) (m1 m2 : maze) (p1 p2 p3 : Nat × Nat),
      build_maze w h cs rand fuel = .ok s ∧ built cs w h s.maze ∧
      (p1.1 < (cs + 1) * h ∧ p1.2 < (cs + 1) * w) ∧
      (p2.1 < (cs + 1) * h ∧ p2.2 < (cs + 1) * w) ∧
      (p3.1 < (cs + 1) * h ∧ p3.2 < (cs + 1) * w) ∧
      mat_get s.maze.a (p1.1 : Int) (p1.2 : Int) = .ok ' ' ∧
      set_cell s.maze (p1.1 : Int) (p1.2 : Int) POTION = .ok m1 ∧
      mat_get m1.a (p2.1 : Int) (p2.2 : Int) = .ok ' ' ∧
      set_cell m1 (p2.1 : Int) (p2.2 : Int) POTION = .ok m2 ∧
      mat_get m2.a (p3.1 : Int) (p3.2 : Int) = .ok ' ' ∧
      set_cell m2 (p3.1 : Int) (p3.2 : Int) POTION = .ok m := by
  unfold generate_maze generate_maze_state at hg
  split at hg
  · cases hg
  · rename_i s3 hs3
    injection hg with hg
    subst hg
    split at hs3
    · cases hs3
    · rename_i s hs
      obtain ⟨_, _, _, _, _, _, _, _, _, _, hb⟩ := build_maze_ok hcs1 hw1 hh1 hs
      obtain ⟨s1, s2, h1, h2, h3⟩ := place_potions_ok rand fuel s s3 hs3
      obtain ⟨r1, c1, a1, a2, a3, a4, _, _⟩ := place_potion_ok rand fuel s s1 h1
      obtain ⟨r2, c2, b1, b2, b3, b4, _, _⟩ := place_potion_ok rand fuel s1 s2 h2
      obtain ⟨r3, c3, d1, d2, d3, d4, _, _⟩ := place_potion_ok rand fuel s2 s3 h3
      have f1 := (set_cell_ok a4).2
      have f2 := (set_cell_ok b4).2
      have hh := hb.hh
      have hw := hb.hw
      refine ⟨s, s1.maze, s2.maze, (r1, c1), (r2, c2), (r3, c3), hs, hb, ?_, ?_, ?_,
        a3, a4, b3, b4, d3, d4⟩
      · simp only; omega
      · have e1 := f1.1
        have e2 := f1.2.1
        simp only; omega
      · have e1 := f1.1
        have e2 := f1.2.1
        have e3 := f2.1
        have e4 := f2.2.1
        simp only; omega

/-- The matrix of a returned maze, cell by cell: the three potions, and the
matrix built before them everywhere else. -/
theorem potions_get {m0 m1 m2 m : maze} {p1 p2 p3 : Nat × Nat}
    (h1 : set_cell m0 (p1.1 : Int) (p1.2 : Int) POTION = .ok m1)
    (h2 : set_cell m1 (p2.1 : Int) (p2.2 : Int) POTION = .ok m2)
    (h3 : set_cell m2 (p3.1 : Int) (p3.2 : Int) POTION = .ok m) (r c : Int) :
    mat_get m.a r c =
      if (r = (p1.1 : Int) ∧ c = (p1.2 : Int)) ∨ (r = (p2.1 : Int) ∧ c = (p2.2 : Int)) ∨
          (r = (p3.1 : Int) ∧ c = (p3.2 : Int)) then .ok POTION
      else mat_get m0.a r c := by
  rw [set_cell_get h3, set_cell_get h2, set_cell_get h1]
  by_cases a3 : r = (p3.1 : Int) ∧ c = (p3.2 : Int)
  · simp [a3]
  · by_cases a2 : r = (p2.1 : Int) ∧ c = (p2.2 : Int)
    · simp [a2]
    · by_cases a1 : r = (p1.1 : Int) ∧ c = (p1.2 : Int)
      · simp [a1]
      · simp [a1, a2, a3]

theorem potions_distinct {m0 m1 m2 : maze} {p1 p2 p3 : Nat × Nat}
    (h1 : set_cell m0 (p1.1 : Int) (p1.2 : Int) POTION = .ok m1)
    (g2 : mat_get m1.a (p2.1 : Int) (p2.2 : Int) = .ok ' ')
    (h2 : set_cell m1 (p2.1 : Int) (p2.2 : Int) POTION = .ok m2)
    (g3 : mat_get m2.a (p3.1 : Int) (p3.2 : Int) = .ok ' ') :
    p1 ≠ p2 ∧ p1 ≠ p3 ∧ p2 ≠ p3 := by
  have hne : (Except.ok POTION : Except fault Char) ≠ .ok ' ' := by
    intro h; injection h with h; exact absurd h (by decide)
  refine ⟨?_, ?_, ?_⟩
  · intro e
    rw [set_cell_get h1, ← e] at g2
    simp only [and_self, if_true] at g2
    exact hne g2
  · intro e
    rw [set_cell_get h2, set_cell_get h1, ← e] at g3
    simp only [and_self, if_true] at g3
    split at g3
    · exact hne g3
    · exact hne g3
  · intro e
    rw [set_cell_get h2, ← e] at g3
    simp only [and_self, if_true] at g3
    exact hne g3

/-! ## The log only grows -/

theorem walk_step_log {rand : Nat → Nat} {s s1 : gen_state} (h : walk_step rand s = .ok s1) :
    ∃ l, s1.log = s.log ++ l := by
  unfold walk_step at h
  repeat' split at h
  all_goals first
    | (cases h; done)
    | (cases h; exact ⟨_, rfl⟩)

theorem walk_log (rand : Nat → Nat) :
    ∀ (fuel : Nat) (s s1 : gen_state), walk rand fuel s = .ok s1 → ∃ l, s1.log = s.log ++ l := by
  intro fuel
  induction fuel with
  | zero => intro s s1 h; simp [walk] at h
  | succ fuel ih =>
    intro s s1 h
    simp only [walk] at h
    split at h
    · injection h with h; subst h; exact ⟨[], by simp⟩
    · split at h
      · cases h
      · rename_i s2 hs2
        obtain ⟨l1, hl1⟩ := walk_step_log hs2
        obtain ⟨l2, hl2⟩ := ih s2 s1 h
        exact ⟨l1 ++ l2, by rw [hl2, hl1, List.append_assoc]⟩

theorem potions_pre {m0 m1 m2 : maze} {p1 p2 p3 : Nat × Nat}
    (h1 : set_cell m0 (p1.1 : Int) (p1.2 : Int) POTION = .ok m1)
    (g2 : mat_get m1.a (p2.1 : Int) (p2.2 : Int) = .ok ' ')
    (h2 : set_cell m1 (p2.1 : Int) (p2.2 : Int) POTION = .ok m2)
    (g3 : mat_get m2.a (p3.1 : Int) (p3.2 : Int) = .ok ' ') :
    mat_get m0.a (p2.1 : Int) (p2.2 : Int) = .ok ' ' ∧
      mat_get m0.a (p3.1 : Int) (p3.2 : Int) = .ok ' ' := by
  have hne : (Except.ok POTION : Except fault Char) ≠ .ok ' ' := by
    intro h; injection h with h; exact absurd h (by decide)
  constructor
  · rw [set_cell_get h1] at g2
    split at g2
    · exact absurd g2 hne
    · exact g2
  · rw [set_cell_get h2, set_cell_get h1] at g3
    split at g3
    · exact absurd g3 hne
    · split at g3
      · exact absurd g3 hne
      · exact g3
theorem gen_init_shape {w h cs : Nat} {rand : Nat → Nat} {s : gen_state}
    (hs : gen_init w h cs rand = .ok s) : log_shape s.log := by
  unfold gen_init at hs
  simp only at hs
  repeat' split at hs
  all_goals first
    | (cases hs; done)
    | (cases hs; exact log_shape.init _ _)

theorem walk_step_shape {rand : Nat → Nat} {s s1 : gen_state} (h : walk_step rand s = .ok s1)
    (hl : log_shape s.log) : log_shape s1.log := by
  unfold walk_step at h
  repeat' split at h
  all_goals first
    | (cases h; done)
    | (cases h; exact log_shape.enter _ _ _ _ _ hl)
    | (cases h; exact log_shape.retire _ _ hl)

theorem walk_shape (rand : Nat → Nat) :
    ∀ (fuel : Nat) (s s1 : gen_state), walk rand fuel s = .ok s1 → log_shape s.log →
      log_shape s1.log := by
  intro fuel
  induction fuel with
  | zero => intro s s1 h; simp [walk] at h
  | succ fuel ih =>
    intro s s1 h hl
    simp only [walk] at h
    split at h
    · injection h with h; subst h; exact hl
    · split at h
      · cases h
      · rename_i s2 hs2
        exact ih s2 s1 h (walk_step_shape hs2 hl)

/-! ## More fuel gives the same result -/

theorem place_potion_fuel_mono (rand : Nat → Nat) :
    ∀ (fuel : Nat) (s s1 : gen_state), place_potion rand fuel s = .ok s1 →
      ∀ k, place_potion rand (fuel + k) s = .ok s1 := by
  intro fuel
  induction fuel with
  | zero => intro s s1 h; simp [place_potion] at h
  | succ fuel ih =>
    intro s s1 h k
    have e : fuel + 1 + k = (fuel + k) + 1 := by omega
    rw [e]
    simp only [place_potion] at h ⊢
    split at h
    · cases h
    · rename_i row hrow
      split at h
      · cases h
      · rename_i col hcol
        split at h
        · cases h
        · rename_i ch hch
          try simp only [hch]
          split at h
          · rename_i hne
            rw [if_pos hne]
            exact ih _ s1 h k
          · rename_i hne
            rw [if_neg hne]
            exact h

theorem generate_fuel_mono {w h cs : Nat} {rand : Nat → Nat} {fuel : Nat} {m : maze}
    (hg : generate_maze w h cs rand fuel = .ok m) (k : Nat) :
    generate_maze w h cs rand (fuel + k) = .ok m := by
  unfold generate_maze generate_maze_state at hg ⊢
  split at hg
  · cases hg
  · rename_i s3 hs3
    split at hs3
    · cases hs3
    · rename_i s hs
      obtain ⟨s1, s2, h1, h2, h3⟩ := place_potions_ok rand fuel s s3 hs3
      have hb := build_fuel_mono hs k
      have k1 := place_potion_fuel_mono rand fuel s s1 h1 k
      have k2 := place_potion_fuel_mono rand fuel s1 s2 h2 k
      have k3 := place_potion_fuel_mono rand fuel s2 s3 h3 k
      simp only [hb, place_potions, for_up, k1, k2, k3]
      exact hg

/-! ## Blocks and wall lines -/

/-- Every push of a cell is either the one that follows its mark or the one
that precedes a remove_wall from it. -/
theorem pushes_at_eq {l : List event} (hl : log_shape l) (c : cell) :
    pushes_at l c = (marks_of l).count c + entered_from l c := by
  induction hl with
  | init c0 r =>
    simp only [pushes_at, entered_from, pushes_of, marks_of, walls_of, List.countP_cons,
      List.countP_nil, List.count_cons, List.count_nil, beq_iff_eq, decide_eq_true_eq]
    omega
  | retire l c1 hl ih =>
    have e1 : pushes_of (l ++ [event.pop c1]) = pushes_of l := by
      rw [pushes_of_append]; simp [pushes_of]
    have e2 : marks_of (l ++ [event.pop c1]) = marks_of l := by
      rw [marks_of_append]; simp [marks_of]
    have e3 : walls_of (l ++ [event.pop c1]) = walls_of l := by
      rw [walls_of_append]; simp [walls_of]
    simp only [pushes_at, entered_from, e1, e2, e3] at ih ⊢
    exact ih
  | enter l c1 n r1 r2 hl ih =>
    have e1 : pushes_of (l ++ [event.pop c1, event.push c1 r1, event.mark n,
        event.remove_wall c1 n, event.push n r2]) = pushes_of l ++ [(c1, r1), (n, r2)] := by
      rw [pushes_of_append]; rfl
    have e2 : marks_of (l ++ [event.pop c1, event.push c1 r1, event.mark n,
        event.remove_wall c1 n, event.push n r2]) = marks_of l ++ [n] := by
      rw [marks_of_append]; rfl
    have e3 : walls_of (l ++ [event.pop c1, event.push c1 r1, event.mark n,
        event.remove_wall c1 n, event.push n r2]) = walls_of l ++ [(c1, n)] := by
      rw [walls_of_append]; rfl
    simp only [pushes_at, entered_from, e1, e2, e3, List.countP_append, List.count_append,
      List.countP_cons, List.countP_nil, List.count_cons, List.count_nil, beq_iff_eq,
      decide_eq_true_eq] at ih ⊢
    omega

theorem countP_gain {α : Type} (p q : α → Bool) :
    ∀ (L : List α) (b : α), b ∈ L → p b = false → q b = true →
      (∀ x, x ∈ L → p x = true → q x = true) → L.countP p + 1 ≤ L.countP q := by
  intro L
  induction L with
  | nil => intro b hb; simp at hb
  | cons a L ih =>
    intro b hb hpb hqb hpq
    have hmono : L.countP p ≤ L.countP q :=
      List.countP_mono_left (fun x hx hp => hpq x (List.mem_cons_of_mem _ hx) hp)
    simp only [List.countP_cons]
    rcases List.mem_cons.mp hb with h1 | h1
    · subst h1
      simp only [hpb, hqb, if_true]
      simp
      omega
    · have := ih b h1 hpb hqb (fun x hx hp => hpq x (List.mem_cons_of_mem _ hx) hp)
      by_cases hpa : p a = true
      · have hqa := hpq a (List.mem_cons_self _ _) hpa
        simp only [hpa, hqa, if_true]
        omega
      · have hpa2 : p a = false := by simpa using hpa
        by_cases hqa : q a = true
        · simp only [hpa2, hqa, if_true]
          simp
          omega
        · have hqa2 : q a = false := by simpa using hqa
          simp only [hpa2, hqa2]
          simp
          omega

theorem grid_adj_symm {x y x1 y1 : Nat} (h : grid_adj x y x1 y1) : grid_adj x1 y1 x y := by
  unfold grid_adj at h ⊢
  omega

theorem candidates_length (cs w h x y : Nat) :
    (candidates cs w h x y).length ≤ 4 ∧ (x = 0 → (candidates cs w h x y).length ≤ 3) := by
  have e : ∀ (p : Prop) [Decidable p] (c : cell),
      (if p then [c] else ([] : List cell)).length ≤ 1 := by
    intro p _ c; split <;> simp
  have e1 := e (0 < y) (centre cs x (y - 1))
  have e2 := e (0 < x) (centre cs (x - 1) y)
  have e3 := e (x + 1 < w) (centre cs (x + 1) y)
  have e4 := e (y + 1 < h) (centre cs x (y + 1))
  simp only [candidates, List.length_append]
  refine ⟨by omega, ?_⟩
  intro hx
  have e5 : (if 0 < x then [centre cs (x - 1) y] else ([] : List cell)).length = 0 := by
    simp [hx]
  omega
/-- In a growing tree the neighbours entered from a cell, plus the parent of
the cell unless it is the root, are among its visited grid neighbours. -/
theorem grows_entered {cs w h : Nat} {vs : List cell} {es : List (cell × cell)}
    (hg : grows cs w h vs es) : ∀ x y, x < w → y < h → centre cs x y ∈ vs →
      es.countP (fun e => decide (e.1 = centre cs x y)) +
          (if vs.head? = some (centre cs x y) then 0 else 1)
        ≤ (candidates cs w h x y).countP (fun n => decide (n ∈ vs)) := by
  induction hg with
  | root x0 y0 hx0 hy0 =>
    intro x y _ _ hc
    simp only [List.mem_singleton] at hc
    simp [hc]
  | step vs es xa ya xb yb hg hxa hya hxb hyb hadj hin hout ih =>
    intro x y hx hy hc
    have hne : vs ≠ [] := List.ne_nil_of_mem hin
    have hhead : (vs ++ [centre cs xb yb]).head? = vs.head? := by
      cases vs with
      | nil => exact absurd rfl hne
      | cons v vs => rfl
    rw [hhead, List.countP_append]
    have hsub : ∀ n, n ∈ candidates cs w h x y → decide (n ∈ vs) = true →
        decide (n ∈ vs ++ [centre cs xb yb]) = true := by
      intro n _ hn
      simp only [decide_eq_true_eq] at hn ⊢
      exact List.mem_append_left _ hn
    by_cases hcv : centre cs x y ∈ vs
    · have hih := ih x y hx hy hcv
      by_cases hac : centre cs xa ya = centre cs x y
      · obtain ⟨r1, r2⟩ := centre_inj hac
        subst r1; subst r2
        have hb : centre cs xb yb ∈ candidates cs w h xa ya :=
          (mem_candidates hx hy).mpr ⟨xb, yb, hxb, hyb, hadj, rfl⟩
        have hgain := countP_gain (fun n => decide (n ∈ vs))
          (fun n => decide (n ∈ vs ++ [centre cs xb yb])) _ _ hb
          (by simpa using hout) (by simp) hsub
        have e0 : [(centre cs xa ya, centre cs xb yb)].countP
            (fun e => decide (e.1 = centre cs xa ya)) = 1 := by
          simp [List.countP_cons]
        rw [e0]
        omega
      · have hmono := List.countP_mono_left hsub
        have e0 : [(centre cs xa ya, centre cs xb yb)].countP
            (fun e => decide (e.1 = centre cs x y)) = 0 := by
          simp [List.countP_cons, hac]
        rw [e0]
        omega
    · have hcb : centre cs x y = centre cs xb yb := by
        rcases List.mem_append.mp hc with h1 | h1
        · exact absurd h1 hcv
        · simpa using h1
      obtain ⟨r1, r2⟩ := centre_inj hcb
      subst r1; subst r2
      have hends := grows_ends hg
      have hzero : es.countP (fun e => decide (e.1 = centre cs x y)) = 0 := by
        rw [List.countP_eq_zero]
        intro e he
        simp only [decide_eq_true_eq]
        intro h1
        exact hout (h1 ▸ (hends e he).1)
      have hab : ¬ centre cs xa ya = centre cs x y := fun h1 => hout (h1 ▸ hin)
      have hroot : ¬ vs.head? = some (centre cs x y) := by
        intro h1
        exact hout (List.mem_of_mem_head? h1)
      have ha : centre cs xa ya ∈ candidates cs w h x y :=
        (mem_candidates hx hy).mpr ⟨xa, ya, hxa, hya, grid_adj_symm hadj, rfl⟩
      have hpos : 0 < (candidates cs w h x y).countP
          (fun n => decide (n ∈ vs ++ [centre cs x y])) := by
        rw [List.countP_pos_iff]
        exact ⟨_, ha, by simpa using Or.inl hin⟩
      have e0 : [(centre cs xa ya, centre cs x y)].countP
          (fun e => decide (e.1 = centre cs x y)) = 0 := by
        simp [List.countP_cons, hab]
      rw [hzero, e0, if_neg hroot]
      omega

/-- At most 3 neighbours are entered from any cell when the root lies in
column 0 of the grid. -/
theorem grows_entered_le {cs w h : Nat} {vs : List cell} {es : List (cell × cell)}
    (hg : grows cs w h vs es) {y0 : Nat} (hroot : vs.head? = some (centre cs 0 y0))
    (c : cell) : es.countP (fun e => decide (e.1 = c)) ≤ 3 := by
  by_cases hc : c ∈ vs
  · obtain ⟨x, y, hx, hy, rfl⟩ := grows_centre hg c hc
    have h1 := grows_entered hg x y hx hy hc
    have h2 : (candidates cs w h x y).countP (fun n => decide (n ∈ vs))
        ≤ (candidates cs w h x y).length := List.countP_le_length _
    have h3 := candidates_length cs w h x y
    by_cases hr : vs.head? = some (centre cs x y)
    · rw [hroot] at hr
      injection hr with hr
      obtain ⟨r1, _⟩ := centre_inj hr
      have := h3.2 r1.symm
      rw [if_pos (by rw [hroot, hr])] at h1
      omega
    · rw [if_neg hr] at h1
      omega
  · have hends := grows_ends hg
    have hzero : es.countP (fun e => decide (e.1 = c)) = 0 := by
      rw [List.countP_eq_zero]
      intro e he
      simp only [decide_eq_true_eq]
      intro h1
      exact hc (h1 ▸ (hends e he).1)
    omega
theorem walk_upto_shape (rand : Nat → Nat) :
    ∀ (n : Nat) (s s1 : gen_state), walk_upto rand n s = .ok s1 → log_shape s.log →
      log_shape s1.log ∧ ∃ l, s1.log = s.log ++ l := by
  intro n
  induction n with
  | zero =>
    intro s s1 h hl
    simp only [walk_upto] at h
    injection h with h
    subst h
    exact ⟨hl, [], by simp⟩
  | succ n ih =>
    intro s s1 h hl
    simp only [walk_upto] at h
    split at h
    · injection h with h; subst h; exact ⟨hl, [], by simp⟩
    · split at h
      · cases h
      · rename_i s2 hs2
        obtain ⟨l1, hl1⟩ := walk_step_log hs2
        obtain ⟨hsh, l2, hl2⟩ := ih s2 s1 h (walk_step_shape hs2 hl)
        exact ⟨hsh, l1 ++ l2, by rw [hl2, hl1, List.append_assoc]⟩
/-! ## Dependence on the rand stream

Each part of generate_maze reads the stream only at the positions it counts in
the field rng, so a run is determined by the values it consumed. -/

/-- The body of the walk loop reads the rand stream at most at the position
s.rng, and only when it advances the counter. -/
theorem walk_step_reads (rand1 rand2 : Nat → Nat) {s s1 : gen_state}
    (h : walk_step rand1 s = .ok s1) (hr : s.rng < s1.rng → rand1 s.rng = rand2 s.rng) :
    walk_step rand2 s = .ok s1 ∧ s.rng ≤ s1.rng := by
  unfold walk_step at h ⊢
  split at h
  · cases h
  · rename_i c st1 hpop
    split at h
    · cases h
    · rename_i N hN
      split at h
      · rename_i hlen
        try rw [if_pos hlen]
        split at h
        · cases h
        · rename_i r1 st2 hp1
          split at h
          · cases h
          · rename_i k hk
            split at h
            · cases h
            · rename_i next hnext
              split at h
              · cases h
              · rename_i m1 hm1
                split at h
                · cases h
                · rename_i m2 hm2
                  split at h
                  · cases h
                  · rename_i r2 st3 hp2
                    injection h with h
                    subst h
                    have e := hr (Nat.lt_succ_self _)
                    rw [← e]
                    try simp only [hk, hnext, hm1, hm2, hp2]
                    exact ⟨trivial, Nat.le_succ _⟩
      · rename_i hlen
        try rw [if_neg hlen]
        injection h with h
        subst h
        exact ⟨rfl, le_refl _⟩

theorem walk_reads (rand1 rand2 : Nat → Nat) (fuel : Nat) :
    ∀ {s sf : gen_state}, walk rand1 fuel s = .ok sf →
      (∀ n, s.rng ≤ n → n < sf.rng → rand1 n = rand2 n) →
      walk rand2 fuel s = .ok sf ∧ s.rng ≤ sf.rng := by
  induction fuel with
  | zero => intro s sf h; cases h
  | succ fuel ih =>
    intro s sf h hr
    unfold walk at h ⊢
    split at h
    · rename_i he
      rw [if_pos he]
      injection h with h
      subst h
      exact ⟨rfl, le_refl _⟩
    · rename_i he
      rw [if_neg he]
      split at h
      · cases h
      · rename_i s1 hs1
        -- the step advances the counter by at most one
        have hmono : s.rng ≤ s1.rng := (walk_step_reads rand1 rand1 hs1 (fun _ => rfl)).2
        obtain ⟨k1, k2⟩ := ih h (fun n a b => hr n (le_trans hmono a) b)
        obtain ⟨j1, _⟩ := walk_step_reads rand1 rand2 hs1
          (fun hlt => hr _ (le_refl _) (lt_of_lt_of_le hlt k2))
        simp only [j1]
        exact ⟨k1, le_trans hmono k2⟩

theorem place_potion_reads (rand1 rand2 : Nat → Nat) (fuel : Nat) :
    ∀ {s sf : gen_state}, place_potion rand1 fuel s = .ok sf →
      (∀ n, s.rng ≤ n → n < sf.rng → rand1 n = rand2 n) →
      place_potion rand2 fuel s = .ok sf ∧ s.rng + 2 ≤ sf.rng := by
  induction fuel with
  | zero => intro s sf h; cases h
  | succ fuel ih =>
    intro s sf h hr
    unfold place_potion at h
    split at h
    · cases h
    · rename_i row hrow
      split at h
      · cases h
      · rename_i col hcol
        split at h
        · cases h
        · rename_i ch hch
          split at h
          · rename_i hne
            obtain ⟨k1, k2⟩ := ih h (fun n a b => hr n (by simp only [] at a; omega) b)
            simp only [] at k2
            have e0 := hr s.rng (le_refl _) (by omega)
            have e1 := hr (s.rng + 1) (by omega) (by omega)
            refine ⟨?_, by omega⟩
            unfold place_potion
            rw [← e0, ← e1]
            simp only [hrow, hcol, hch]
            rw [if_pos hne]
            exact k1
          · rename_i hne
            split at h
            · cases h
            · rename_i m1 hm1
              injection h with h
              subst h
              have e0 := hr s.rng (le_refl _) (by simp only []; omega)
              have e1 := hr (s.rng + 1) (by omega) (by simp only []; omega)
              refine ⟨?_, le_refl _⟩
              unfold place_potion
              rw [← e0, ← e1]
              simp only [hrow, hcol, hch]
              rw [if_neg hne]
              simp only [hm1]

theorem gen_init_reads {w h cs : Nat} (rand1 rand2 : Nat → Nat) {s0 : gen_state}
    (h0 : gen_init w h cs rand1 = .ok s0) (hr : rand1 0 = rand2 0) :
    gen_init w h cs rand2 = .ok s0 ∧ s0.rng = 1 := by
  refine ⟨?_, ?_⟩
  · rw [← h0]
    unfold gen_init
    rw [hr]
  · unfold gen_init at h0
    simp only [] at h0
    split at h0
    · cases h0
    · split at h0
      · cases h0
      · split at h0
        · cases h0
        · injection h0 with h0
          subst h0
          rfl

theorem build_maze_reads {w h cs : Nat} (rand1 rand2 : Nat → Nat) {fuel : Nat}
    {s : gen_state} (hb : build_maze w h cs rand1 fuel = .ok s)
    (hr : ∀ n, n < s.rng → rand1 n = rand2 n) :
    build_maze w h cs rand2 fuel = .ok s ∧ 1 ≤ s.rng := by
  obtain ⟨s0, s1, hs0, hs1⟩ := build_maze_walk hb
  have hrng : s.rng = s1.rng := by
    simp only [build_maze, hs0, hs1] at hb
    split at hb
    · cases hb
    · split at hb
      · cases hb
      · split at hb
        · cases hb
        · injection hb with hb
          subst hb
          rfl
  have h01 : s0.rng = 1 := (gen_init_reads rand1 rand1 hs0 rfl).2
  have hmono : s0.rng ≤ s1.rng := (walk_reads rand1 rand1 fuel hs1 (fun _ _ _ => rfl)).2
  obtain ⟨k0, _⟩ := gen_init_reads rand1 rand2 hs0 (hr 0 (by omega))
  obtain ⟨k1, _⟩ := walk_reads rand1 rand2 fuel hs1
    (fun n _ b => hr n (by omega))
  refine ⟨?_, by omega⟩
  simp only [build_maze, hs0, hs1] at hb
  simp only [build_maze, k0, k1]
  exact hb

/-- The result of generate_maze depends on the rand stream only through the
values at the positions below the final value of the counter, the number of
calls of rand() of the run. -/
theorem generate_state_reads {w h cs : Nat} (rand1 rand2 : Nat → Nat) {fuel : Nat}
    {s : gen_state} (hg : generate_maze_state w h cs rand1 fuel = .ok s)
    (hr : ∀ n, n < s.rng → rand1 n = rand2 n) :
    generate_maze_state w h cs rand2 fuel = .ok s := by
  unfold generate_maze_state at hg ⊢
  split at hg
  · cases hg
  · rename_i sb hsb
    obtain ⟨s1, s2, h1, h2, h3⟩ := place_potions_ok rand1 fuel sb s hg
    have m1 := (place_potion_reads rand1 rand1 fuel h1 (fun _ _ _ => rfl)).2
    have m2 := (place_potion_reads rand1 rand1 fuel h2 (fun _ _ _ => rfl)).2
    have m3 := (place_potion_reads rand1 rand1 fuel h3 (fun _ _ _ => rfl)).2
    obtain ⟨kb, _⟩ := build_maze_reads rand1 rand2 hsb (fun n a => hr n (by omega))
    obtain ⟨k1, _⟩ := place_potion_reads rand1 rand2 fuel h1
      (fun n _ b => hr n (by omega))
    obtain ⟨k2, _⟩ := place_potion_reads rand1 rand2 fuel h2
      (fun n _ b => hr n (by omega))
    obtain ⟨k3, _⟩ := place_potion_reads rand1 rand2 fuel h3
      (fun n _ b => hr n (by omega))
    simp only [kb, place_potions, for_up, k1, k2, k3]

/-! ## The frontier stack -/

/-- Claim C9: on a stack as built by init_stack (capacity+1 slots, top_of_stack
within capacity), stack_push returns -1 exactly when top_of_stack equals
capacity and then leaves the whole stack unchanged; otherwise it returns 0,
advances top_of_stack by one, stores the cell in the new top slot and leaves
every other slot, slot 0 included, unchanged. -/
theorem stack_push_spec (s : stack) (c : cell)
    (hlen : s.cell_list.length = s.capacity + 1) (htop : s.top_of_stack ≤ s.capacity) :
    ∃ ret s1, stack_push s c = .ok (ret, s1) ∧
      (ret = -1 ↔ s.top_of_stack = s.capacity) ∧
      (s.top_of_stack = s.capacity → s1 = s) ∧
      (s.top_of_stack ≠ s.capacity →
        ret = 0 ∧ s1.top_of_stack = s.top_of_stack + 1 ∧
        s1.cell_list[s1.top_of_stack]? = some c ∧
        (∀ i, i ≠ s.top_of_stack + 1 → s1.cell_list[i]? = s.cell_list[i]?) ∧
        s1.cell_list.length = s.cell_list.length ∧ s1.capacity = s.capacity) := by
  by_cases h : s.top_of_stack = s.capacity
  · refine ⟨-1, s, by simp [stack_push, h], by simp [h], fun _ => rfl, fun h1 => absurd h h1⟩
  · have hlt : s.top_of_stack + 1 < s.cell_list.length := by omega
    refine ⟨0, { s with top_of_stack := s.top_of_stack + 1,
                        cell_list := s.cell_list.set (s.top_of_stack + 1) c },
      by simp only [stack_push, h, hlt, if_true, if_false], by simp [h],
      fun h1 => absurd h1 h, fun _ => ⟨rfl, rfl, ?_, ?_, by simp, rfl⟩⟩
    · simp [List.getElem?_set, hlt]
    · intro i hi
      have : ¬ s.top_of_stack + 1 = i := fun h2 => hi h2.symm
      simp [List.getElem?_set, this]

theorem stack_push_spec_witness :
    ∃ ret s1, stack_push (init_stack 2) ⟨3, 5⟩ = .ok (ret, s1) ∧
      (ret = -1 ↔ (init_stack 2).top_of_stack = (init_stack 2).capacity) ∧
      ((init_stack 2).top_of_stack = (init_stack 2).capacity → s1 = init_stack 2) ∧
      ((init_stack 2).top_of_stack ≠ (init_stack 2).capacity →
        ret = 0 ∧ s1.top_of_stack = (init_stack 2).top_of_stack + 1 ∧
        s1.cell_list[s1.top_of_stack]? = some ⟨3, 5⟩ ∧
        (∀ i, i ≠ (init_stack 2).top_of_stack + 1 →
          s1.cell_list[i]? = (init_stack 2).cell_list[i]?) ∧
        s1.cell_list.length = (init_stack 2).cell_list.length ∧
        s1.capacity = (init_stack 2).capacity) :=
  stack_push_spec (init_stack 2) ⟨3, 5⟩ (by decide) (by decide)

/-- Claim C10: stack_pop on an empty stack (top_of_stack = 0) does not fail:
it returns the content of slot 0 and leaves the stack as it was, still empty;
and stack_isempty holds exactly when top_of_stack is 0. -/
theorem stack_pop_empty (s : stack) (hlen : s.cell_list.length = s.capacity + 1)
    (h0 : s.top_of_stack = 0) :
    (∃ c, s.cell_list[0]? = some c ∧ stack_pop s = .ok (c, s)) ∧
      stack_isempty s = true ∧
      (∀ t : stack, stack_isempty t = true ↔ t.top_of_stack = 0) := by
  refine ⟨?_, by simp [stack_isempty, h0], fun t => by simp [stack_isempty]⟩
  have hpos : 0 < s.cell_list.length := by omega
  refine ⟨s.cell_list[0], List.getElem?_eq_getElem hpos, ?_⟩
  simp [stack_pop, h0, List.getElem?_eq_getElem hpos]

theorem stack_pop_empty_witness :
    (∃ c, (init_stack 4).cell_list[0]? = some c ∧
        stack_pop (init_stack 4) = .ok (c, init_stack 4)) ∧
      stack_isempty (init_stack 4) = true ∧
      (∀ t : stack, stack_isempty t = true ↔ t.top_of_stack = 0) :=
  stack_pop_empty (init_stack 4) (by decide) (by decide)

/-! ## The generator: claims -/

/-- Claim C1 (perfectness): for width, height, cell_size at least 1, any rand
stream and fuel at least 2*width*height, the walk loop of generate_maze ends
with an empty stack; the cells it marked are the width*height cell centres,
each exactly once; remove_wall was called width*height - 1 times, every time
between the cell just popped and the neighbour just marked (log_shape), which
is a grid neighbour of it not visited before (grows); and the pairs form a
spanning tree of the grid: every centre is joined to the start cell by carved
edges, and no carved edge closes a cycle. -/
theorem walk_spanning_tree (w h cs : Nat) (hw1 : 1 ≤ w) (hh1 : 1 ≤ h) (hcs1 : 1 ≤ cs)
    (rand : Nat → Nat) (fuel : Nat) (hfuel : 2 * w * h ≤ fuel) :
    ∃ s0 s1, gen_init w h cs rand = .ok s0 ∧ walk rand fuel s0 = .ok s1 ∧
      stack_isempty s1.stack = true ∧
      (marks_of s1.log).Perm (all_centres cs w h) ∧
      (walls_of s1.log).length = w * h - 1 ∧
      log_shape s1.log ∧
      grows cs w h (marks_of s1.log) (walls_of s1.log) ∧
      (∀ c, c ∈ all_centres cs w h →
        linked (walls_of s1.log) (centre cs 0 (rand 0 % h)) c) ∧
      (∀ e, e ∈ walls_of s1.log → ¬ linked ((walls_of s1.log).erase e) e.1 e.2) := by
  obtain ⟨s0, s1, s, hs0, hs1, hi0, hi1, htop, _, _, _, _, _⟩ :=
    build_maze_spec hcs1 hw1 hh1 rand fuel hfuel
  obtain ⟨t0, ht0, _, hlog0, _⟩ := gen_init_inv hcs1 hw1 hh1 rand
  rw [hs0] at ht0
  injection ht0 with ht0
  subst ht0
  obtain ⟨l, hl⟩ := walk_log rand fuel s0 s1 hs1
  have hperm := inv_final_perm hi1 htop
  have hhead : (marks_of s1.log).head? = some (centre cs 0 (rand 0 % h)) := by
    rw [hl, marks_of_append, hlog0]
    rfl
  refine ⟨s0, s1, hs0, hs1, by simp [stack_isempty, htop], hperm, ?_,
    walk_shape rand fuel s0 s1 hs1 (gen_init_shape hs0), hi1.tree, ?_,
    grows_acyclic hi1.tree⟩
  · have h1 := grows_length hi1.tree
    have h2 := hperm.length_eq
    rw [all_centres_length] at h2
    omega
  · intro c hc
    exact grows_linked hi1.tree _ hhead c (hperm.mem_iff.mpr hc)

theorem walk_spanning_tree_witness :
    1 ≤ 2 ∧ 1 ≤ 2 ∧ 1 ≤ 1 ∧ 2 * 2 * 2 ≤ 8 ∧
    ∃ s0 s1, gen_init 2 2 1 (rand_of [1, 0, 0, 0]) = .ok s0 ∧
      walk (rand_of [1, 0, 0, 0]) 8 s0 = .ok s1 ∧
      stack_isempty s1.stack = true ∧
      (marks_of s1.log).Perm (all_centres 1 2 2) ∧
      (walls_of s1.log).length = 2 * 2 - 1 ∧
      log_shape s1.log ∧
      grows 1 2 2 (marks_of s1.log) (walls_of s1.log) ∧
      (∀ c, c ∈ all_centres 1 2 2 →
        linked (walls_of s1.log) (centre 1 0 (rand_of [1, 0, 0, 0] 0 % 2)) c) ∧
      (∀ e, e ∈ walls_of s1.log → ¬ linked ((walls_of s1.log).erase e) e.1 e.2) :=
  ⟨by decide, by decide, by decide, by decide,
    walk_spanning_tree 2 2 1 (by decide) (by decide) (by decide) (rand_of [1, 0, 0, 0]) 8
      (by decide)⟩

/-- Claim C8 (capacity is sufficient): for width, height, cell_size at least 1
and any rand stream, at every test of the loop condition of the walk (after
any number n of iterations) the stack has capacity width*height, its
top_of_stack does not exceed the capacity, and every call of stack_push made
so far, the initial one included, returned 0. -/
theorem capacity_sufficient (w h cs : Nat) (hw1 : 1 ≤ w) (hh1 : 1 ≤ h) (hcs1 : 1 ≤ cs)
    (rand : Nat → Nat) (n : Nat) :
    ∃ s0 s, gen_init w h cs rand = .ok s0 ∧ walk_upto rand n s0 = .ok s ∧
      s.stack.capacity = w * h ∧ s.stack.top_of_stack ≤ s.stack.capacity ∧
      (∀ p, p ∈ pushes_of s.log → p.2 = 0) ∧
      (pushes_of s.log).length + 1 = 2 * (marks_of s.log).length := by
  obtain ⟨s0, hs0, hi0, _, _⟩ := gen_init_inv hcs1 hw1 hh1 rand
  obtain ⟨s, hs, hi⟩ := walk_upto_inv hcs1 rand n s0 hi0
  exact ⟨s0, s, hs0, hs, hi.st_cap, hi.st_top, hi.pushes_ok, hi.pushes_len⟩

theorem capacity_sufficient_witness :
    1 ≤ 2 ∧ 1 ≤ 2 ∧ 1 ≤ 1 ∧
    ∃ s0 s, gen_init 2 2 1 (rand_of [1, 0, 0, 0]) = .ok s0 ∧
      walk_upto (rand_of [1, 0, 0, 0]) 3 s0 = .ok s ∧
      s.stack.capacity = 2 * 2 ∧ s.stack.top_of_stack ≤ s.stack.capacity ∧
      (∀ p, p ∈ pushes_of s.log → p.2 = 0) ∧
      (pushes_of s.log).length + 1 = 2 * (marks_of s.log).length :=
  ⟨by decide, by decide, by decide,
    capacity_sufficient 2 2 1 (by decide) (by decide) (by decide) (rand_of [1, 0, 0, 0]) 3⟩
/-- Claim C5 (marker count): whenever generate_maze returns a maze, its matrix
holds exactly NEEDED_POTIONS = 3 potions; they were written one after another
at three pairwise distinct cells, each of which held a passage immediately
before the write; and the returned matrix is the matrix built before the
potions with those three cells changed and no other. -/
theorem marker_count (w h cs : Nat) (hw1 : 1 ≤ w) (hh1 : 1 ≤ h) (hcs1 : 1 ≤ cs)
    (rand : Nat → Nat) (fuel : Nat) (m : maze)
    (hg : generate_maze w h cs rand fuel = .ok m) :
    count_glyph m.a POTION = NEEDED_POTIONS ∧
    ∃ (s : gen_state) (m1 m2 : maze) (p1 p2 p3 : Nat × Nat),
      build_maze w h cs rand fuel = .ok s ∧
      p1 ≠ p2 ∧ p1 ≠ p3 ∧ p2 ≠ p3 ∧
      mat_get s.maze.a (p1.1 : Int) (p1.2 : Int) = .ok ' ' ∧
      set_cell s.maze (p1.1 : Int) (p1.2 : Int) POTION = .ok m1 ∧
      mat_get m1.a (p2.1 : Int) (p2.2 : Int) = .ok ' ' ∧
      set_cell m1 (p2.1 : Int) (p2.2 : Int) POTION = .ok m2 ∧
      mat_get m2.a (p3.1 : Int) (p3.2 : Int) = .ok ' ' ∧
      set_cell m2 (p3.1 : Int) (p3.2 : Int) POTION = .ok m ∧
      (∀ r c : Int, mat_get m.a r c =
        if (r = (p1.1 : Int) ∧ c = (p1.2 : Int)) ∨ (r = (p2.1 : Int) ∧ c = (p2.2 : Int)) ∨
            (r = (p3.1 : Int) ∧ c = (p3.2 : Int)) then .ok POTION
        else mat_get s.maze.a r c) ∧
      (∀ r c : Int, mat_get s.maze.a r c ≠ .ok POTION) := by
  obtain ⟨s, m1, m2, p1, p2, p3, hs, hb, _, _, _, g1, h1, g2, h2, g3, h3⟩ :=
    potions_trace hcs1 hw1 hh1 hg
  obtain ⟨d1, d2, d3⟩ := potions_distinct h1 g2 h2 g3
  have hpre : ∀ (r c : Int) (ch : Char), mat_get s.maze.a r c = .ok ch → ch ≠ POTION := by
    intro r c ch hch
    rcases hb.content r c ch hch with e | e <;> rw [e] <;> decide
  have c0 : count_glyph s.maze.a POTION = 0 := count_glyph_zero hpre
  have c1 := count_glyph_set (set_cell_ok h1).1 g1 (by decide)
  have c2 := count_glyph_set (set_cell_ok h2).1 g2 (by decide)
  have c3 := count_glyph_set (set_cell_ok h3).1 g3 (by decide)
  refine ⟨by rw [c3, c2, c1, c0], s, m1, m2, p1, p2, p3, hs, d1, d2, d3, g1, h1, g2, h2, g3, h3,
    potions_get h1 h2 h3, ?_⟩
  intro r c hrc
  exact hpre r c _ hrc rfl

theorem marker_count_witness :
    1 ≤ 2 ∧ 1 ≤ 1 ∧ 1 ≤ 1 ∧
    ∃ m, generate_maze 2 1 1 (rand_of [0, 0, 1, 1, 1, 2, 1, 3]) 8 = .ok m ∧
      count_glyph m.a POTION = NEEDED_POTIONS ∧
      ∃ (s : gen_state) (m1 m2 : maze) (p1 p2 p3 : Nat × Nat),
        build_maze 2 1 1 (rand_of [0, 0, 1, 1, 1, 2, 1, 3]) 8 = .ok s ∧
        p1 ≠ p2 ∧ p1 ≠ p3 ∧ p2 ≠ p3 ∧
        mat_get s.maze.a (p1.1 : Int) (p1.2 : Int) = .ok ' ' ∧
        set_cell s.maze (p1.1 : Int) (p1.2 : Int) POTION = .ok m1 ∧
        mat_get m1.a (p2.1 : Int) (p2.2 : Int) = .ok ' ' ∧
        set_cell m1 (p2.1 : Int) (p2.2 : Int) POTION = .ok m2 ∧
        mat_get m2.a (p3.1 : Int) (p3.2 : Int) = .ok ' ' ∧
        set_cell m2 (p3.1 : Int) (p3.2 : Int) POTION = .ok m ∧
        (∀ r c : Int, mat_get m.a r c =
          if (r = (p1.1 : Int) ∧ c = (p1.2 : Int)) ∨ (r = (p2.1 : Int) ∧ c = (p2.2 : Int)) ∨
              (r = (p3.1 : Int) ∧ c = (p3.2 : Int)) then .ok POTION
          else mat_get s.maze.a r c) ∧
        (∀ r c : Int, mat_get s.maze.a r c ≠ .ok POTION) :=
  ⟨by decide, by decide, by decide,
    ⟨["wwwww".toList, " ### ".toList, "wwwww".toList], 5, 3, 1⟩, rfl,
    marker_count 2 1 1 (by decide) (by decide) (by decide)
      (rand_of [0, 0, 1, 1, 1, 2, 1, 3]) 8 _ rfl⟩

/-- Claim C6 (no leak of the visited mark): for width, height, cell_size at
least 1, every cell of the matrix built before the potions (which exists for
fuel 2*width*height or more) is wall or passage, and every cell of a matrix
returned by generate_maze is wall 'w', passage ' ' or potion '#'; the mark
'v' occurs nowhere in it. -/
theorem no_visited_leak (w h cs : Nat) (hw1 : 1 ≤ w) (hh1 : 1 ≤ h) (hcs1 : 1 ≤ cs)
    (rand : Nat → Nat) (fuel : Nat) (m : maze)
    (hg : generate_maze w h cs rand fuel = .ok m) :
    (∃ s, build_maze w h cs rand (2 * w * h) = .ok s ∧
      ∀ row, row ∈ s.maze.a → ∀ ch, ch ∈ row → ch = WALL ∨ ch = ' ') ∧
    (∀ row, row ∈ m.a → ∀ ch, ch ∈ row → ch = WALL ∨ ch = ' ' ∨ ch = POTION) ∧
    (∀ row, row ∈ m.a → 'v' ∉ row) := by
  obtain ⟨_, _, t, _, _, _, _, _, ht, _, _, _, hbt⟩ :=
    build_maze_spec hcs1 hw1 hh1 rand (2 * w * h) (le_refl _)
  obtain ⟨s, m1, m2, p1, p2, p3, hs, hb, _, _, _, _, h1, _, h2, _, h3⟩ :=
    potions_trace hcs1 hw1 hh1 hg
  have hall : ∀ row, row ∈ m.a → ∀ ch, ch ∈ row → ch = WALL ∨ ch = ' ' ∨ ch = POTION := by
    intro row hrow ch hch
    obtain ⟨r, c, hrc⟩ := mem_mat_get hrow hch
    rw [potions_get h1 h2 h3] at hrc
    split at hrc
    · injection hrc with e; exact Or.inr (Or.inr e.symm)
    · rcases hb.content _ _ ch hrc with e | e
      · exact Or.inl e
      · exact Or.inr (Or.inl e)
  refine ⟨⟨t, ht, ?_⟩, hall, ?_⟩
  · intro row hrow ch hch
    obtain ⟨r, c, hrc⟩ := mem_mat_get hrow hch
    exact hbt.content _ _ ch hrc
  · intro row hrow hv
    rcases hall row hrow 'v' hv with e | e | e <;> exact absurd e (by decide)

theorem no_visited_leak_witness :
    1 ≤ 2 ∧ 1 ≤ 1 ∧ 1 ≤ 1 ∧
    ∃ m, generate_maze 2 1 1 (rand_of [0, 0, 1, 1, 1, 2, 1, 3]) 8 = .ok m ∧
      (∃ s, build_maze 2 1 1 (rand_of [0, 0, 1, 1, 1, 2, 1, 3]) (2 * 2 * 1) = .ok s ∧
        ∀ row, row ∈ s.maze.a → ∀ ch, ch ∈ row → ch = WALL ∨ ch = ' ') ∧
      (∀ row, row ∈ m.a → ∀ ch, ch ∈ row → ch = WALL ∨ ch = ' ' ∨ ch = POTION) ∧
      (∀ row, row ∈ m.a → 'v' ∉ row) :=
  ⟨by decide, by decide, by decide,
    ⟨["wwwww".toList, " ### ".toList, "wwwww".toList], 5, 3, 1⟩, rfl,
    no_visited_leak 2 1 1 (by decide) (by decide) (by decide)
      (rand_of [0, 0, 1, 1, 1, 2, 1, 3]) 8 _ rfl⟩
/-- Claim C2 (full reachability) fails for even cell_size: with width 1,
height 2, cell_size 2 and a rand stream whose first value is odd, the walk
starts in logical cell (0, 1) and steps up to (0, 0); remove_wall then writes
row 4, the top row of the block of (0, 1), instead of the wall row 3.  In the
returned matrix the entrance (1, 0) is open, row 3 is all wall, and no cell of
the block of logical cell (0, 1) is reachable from the entrance. -/
theorem even_cell_size_unreachable :
    ∃ m, generate_maze 1 2 2 (rand_of [1, 0, 1, 1, 2, 1, 1, 2]) 8 = .ok m ∧
      m.a = ["wwww".toList, " ##w".toList, "w# w".toList, "wwww".toList, "w  w".toList,
             "w   ".toList, "wwww".toList] ∧
      open_cell m.a 1 0 ∧
      ∀ r c : Int, in_block 2 0 1 r c → ¬ reachable m.a 1 0 r c := by
  refine ⟨⟨["wwww".toList, " ##w".toList, "w# w".toList, "wwww".toList, "w  w".toList,
             "w   ".toList, "wwww".toList], 4, 7, 2⟩, rfl, rfl, ⟨' ', rfl, by decide⟩, ?_⟩
  have hrow3 : ∀ c : Int, ¬ open_cell ["wwww".toList, " ##w".toList, "w# w".toList,
      "wwww".toList, "w  w".toList, "w   ".toList, "wwww".toList] 3 c := by
    rintro c ⟨ch, hch, hne⟩
    have hd : Dims ["wwww".toList, " ##w".toList, "w# w".toList,
        "wwww".toList, "w  w".toList, "w   ".toList, "wwww".toList] 7 4 := by
      refine ⟨rfl, ?_⟩
      intro row hrow
      simp only [List.mem_cons, List.mem_singleton, List.not_mem_nil, or_false] at hrow
      rcases hrow with h | h | h | h | h | h | h <;> rw [h] <;> rfl
    have hb := mat_get_bounds hd hch
    obtain ⟨_, _, h0, h4⟩ := hb
    have hc : c = 0 ∨ c = 1 ∨ c = 2 ∨ c = 3 := by omega
    rcases hc with rfl | rfl | rfl | rfl <;>
      (injection hch with hch; exact hne hch.symm)
  have hkey : ∀ r c : Int, reachable ["wwww".toList, " ##w".toList, "w# w".toList,
      "wwww".toList, "w  w".toList, "w   ".toList, "wwww".toList] 1 0 r c → r ≤ 2 := by
    intro r c hr
    induction hr with
    | start _ => omega
    | move r1 c1 r2 c2 _ hm ho ih =>
      by_contra hgt
      have h3 : r2 = 3 := by
        rcases hm with ⟨h1, _⟩ | ⟨_, h1 | h1⟩ <;> omega
      subst h3
      exact hrow3 c2 ho
  intro r c hb hr
  have := hkey r c hr
  simp only [in_block] at hb
  omega

/-- Claim C3 (boundary integrity) fails after marker placement: with width 2,
height 1, cell_size 1 and the first potion draw landing on row 1, column 0,
the potion is written on the entrance.  In the returned matrix column 0 holds
'#' at row 1 and no passage cell at all. -/
theorem potion_on_entrance :
    ∃ m, generate_maze 2 1 1 (rand_of [0, 0, 1, 0, 1, 1, 1, 2]) 8 = .ok m ∧
      m.a = ["wwwww".toList, "###  ".toList, "wwwww".toList] ∧
      mat_get m.a 1 0 = .ok POTION ∧
      ∀ r : Int, mat_get m.a r 0 ≠ .ok ' ' := by
  refine ⟨⟨["wwwww".toList, "###  ".toList, "wwwww".toList], 5, 3, 1⟩, rfl, rfl, rfl, ?_⟩
  intro r hr
  have hd : Dims ["wwwww".toList, "###  ".toList, "wwwww".toList] 3 5 := by
    refine ⟨rfl, ?_⟩
    intro row hrow
    simp only [List.mem_cons, List.mem_singleton, List.not_mem_nil, or_false] at hrow
    rcases hrow with h | h | h <;> rw [h] <;> rfl
  have hb := mat_get_bounds hd hr
  obtain ⟨h0, h3, _, _⟩ := hb
  have hc : r = 0 ∨ r = 1 ∨ r = 2 := by omega
  rcases hc with rfl | rfl | rfl <;>
    (injection hr with hr; exact absurd hr (by decide))

/-! ## Further claims: stack, mapper, neighbours -/

/-- Claim C11 (LIFO round trip): on a stack as built by init_stack with
top_of_stack below capacity, stack_push of c succeeds and the stack_pop that
follows returns exactly c and restores top_of_stack, capacity and the slots
0..top_of_stack (hence the cells on the stack); and whenever two pushes of c1
then c2 both succeed, two pops return c2 then c1 and restore top_of_stack and
the slots 0..top_of_stack. -/
theorem stack_push_pop (s : stack) (c : cell)
    (hlen : s.cell_list.length = s.capacity + 1) (htop : s.top_of_stack < s.capacity) :
    (∃ s1 s2, stack_push s c = .ok (0, s1) ∧ stack_pop s1 = .ok (c, s2) ∧
      s2.top_of_stack = s.top_of_stack ∧ s2.capacity = s.capacity ∧
      (∀ i, i ≤ s.top_of_stack → s2.cell_list[i]? = s.cell_list[i]?) ∧
      stack_cells s2 = stack_cells s) ∧
    (∀ (c1 c2 : cell) (s1 s2 : stack), stack_push s c1 = .ok (0, s1) →
      stack_push s1 c2 = .ok (0, s2) →
      ∃ s3 s4, stack_pop s2 = .ok (c2, s3) ∧ stack_pop s3 = .ok (c1, s4) ∧
        s4.top_of_stack = s.top_of_stack ∧ s4.capacity = s.capacity ∧
        (∀ i, i ≤ s.top_of_stack → s4.cell_list[i]? = s.cell_list[i]?) ∧
        stack_cells s4 = stack_cells s) := by
  have push_eq : ∀ (t : stack) (d : cell) (t1 : stack), stack_push t d = .ok (0, t1) →
      t.top_of_stack + 1 < t.cell_list.length ∧
      t1 = { t with top_of_stack := t.top_of_stack + 1,
                    cell_list := t.cell_list.set (t.top_of_stack + 1) d } := by
    intro t d t1 h
    unfold stack_push at h
    split at h
    · injection h with h; injection h with h1 h2; exact absurd h1 (by decide)
    · split at h
      · rename_i hlt
        injection h with h; injection h with h1 h2
        exact ⟨hlt, h2.symm⟩
      · cases h
  have pop_top : ∀ (t : stack) (d : cell), t.top_of_stack + 1 < t.cell_list.length →
      stack_pop { t with top_of_stack := t.top_of_stack + 1,
                         cell_list := t.cell_list.set (t.top_of_stack + 1) d }
        = .ok (d, { t with cell_list := t.cell_list.set (t.top_of_stack + 1) d }) := by
    intro t d hlt
    simp [stack_pop, List.getElem?_set, hlt]
  have cells_set : ∀ (t : stack) (d : cell),
      stack_cells { t with cell_list := t.cell_list.set (t.top_of_stack + 1) d }
        = stack_cells t := by
    intro t d
    apply List.ext_getElem?
    intro i
    simp only [stack_cells, List.getElem?_take, List.getElem?_drop, List.getElem?_set]
    by_cases hi : i < t.top_of_stack
    · have : ¬ t.top_of_stack + 1 = 1 + i := by omega
      simp [hi, this]
    · simp [hi]
  have slots_set : ∀ (l : List cell) (k : Nat) (d : cell) (i : Nat), i < k →
      (l.set k d)[i]? = l[i]? := by
    intro l k d i hi
    have : ¬ k = i := by omega
    simp [List.getElem?_set, this]
  constructor
  · have hlt : s.top_of_stack + 1 < s.cell_list.length := by omega
    have hne : ¬ s.top_of_stack = s.capacity := by omega
    refine ⟨_, { s with cell_list := s.cell_list.set (s.top_of_stack + 1) c }, ?_,
      pop_top s c hlt, rfl, rfl, ?_, cells_set s c⟩
    · simp only [stack_push, hne, hlt, if_true, if_false]
    · intro i hi
      exact slots_set _ _ _ _ (by omega)
  · intro c1 c2 s1 s2 h1 h2
    obtain ⟨hlt1, e1⟩ := push_eq s c1 s1 h1
    obtain ⟨hlt2, e2⟩ := push_eq s1 c2 s2 h2
    subst e2
    let l2 := (s.cell_list.set (s.top_of_stack + 1) c1).set (s.top_of_stack + 1 + 1) c2
    refine ⟨{ s1 with cell_list := s1.cell_list.set (s1.top_of_stack + 1) c2 },
      { s with cell_list := l2 }, pop_top s1 c2 hlt2, ?_, rfl, rfl, ?_, ?_⟩
    · subst e1
      have hlt3 : s.top_of_stack + 1 < s.cell_list.length := hlt1
      simp [stack_pop, List.getElem?_set, hlt3]
    · intro i hi
      rw [slots_set _ _ _ _ (by omega), slots_set _ _ _ _ (by omega)]
    · apply List.ext_getElem?
      intro i
      simp only [stack_cells, List.getElem?_take, List.getElem?_drop, List.getElem?_set]
      by_cases hi : i < s.top_of_stack
      · have a1 : ¬ s.top_of_stack + 1 = 1 + i := by omega
        have a2 : ¬ s.top_of_stack + 1 + 1 = 1 + i := by omega
        simp [l2, hi, a1, a2, List.getElem?_set]
      · simp [hi]

theorem stack_push_pop_witness :
    (init_stack 2).cell_list.length = (init_stack 2).capacity + 1 ∧
    (init_stack 2).top_of_stack < (init_stack 2).capacity ∧
    (∃ s1 s2, stack_push (init_stack 2) ⟨3, 5⟩ = .ok (0, s1) ∧
      stack_pop s1 = .ok (⟨3, 5⟩, s2) ∧
      s2.top_of_stack = (init_stack 2).top_of_stack ∧ s2.capacity = (init_stack 2).capacity ∧
      (∀ i, i ≤ (init_stack 2).top_of_stack → s2.cell_list[i]? = (init_stack 2).cell_list[i]?) ∧
      stack_cells s2 = stack_cells (init_stack 2)) ∧
    (∀ (c1 c2 : cell) (s1 s2 : stack), stack_push (init_stack 2) c1 = .ok (0, s1) →
      stack_push s1 c2 = .ok (0, s2) →
      ∃ s3 s4, stack_pop s2 = .ok (c2, s3) ∧ stack_pop s3 = .ok (c1, s4) ∧
        s4.top_of_stack = (init_stack 2).top_of_stack ∧
        s4.capacity = (init_stack 2).capacity ∧
        (∀ i, i ≤ (init_stack 2).top_of_stack →
          s4.cell_list[i]? = (init_stack 2).cell_list[i]?) ∧
        stack_cells s4 = stack_cells (init_stack 2)) :=
  ⟨by decide, by decide, stack_push_pop (init_stack 2) ⟨3, 5⟩ (by decide) (by decide)⟩
/-- Claim C14 (get_available_neighbours is exact): in a maze of logical size
w x h with cell_size at least 1 and a matrix of the matching dimensions, at
the centre of logical cell (cx, cy) the function returns the list of the
centres of (cx, cy-1), (cx-1, cy), (cx+1, cy), (cx, cy+1), in this order,
restricted to those inside the grid whose centre does not hold 'v'.  The
count is at most 4, every returned cell is the centre of a grid neighbour not
marked 'v', and every grid neighbour not marked 'v' is returned. -/
theorem neighbours_exact (m : maze) (hcs1 : 1 ≤ m.cell_size)
    (hd : Dims m.a ((m.cell_size + 1) * m.h + 1) ((m.cell_size + 1) * m.w + 1))
    (cx cy : Nat) (hx : cx < m.w) (hy : cy < m.h) :
    ∃ N, get_available_neighbours m (centre m.cell_size cx cy) = .ok N ∧ N.length ≤ 4 ∧
      N = (candidates m.cell_size m.w m.h cx cy).filter (fun n => !is_v m.a n.y n.x) ∧
      (∀ n, n ∈ N → ∃ x1 y1, x1 < m.w ∧ y1 < m.h ∧ grid_adj cx cy x1 y1 ∧
        n = centre m.cell_size x1 y1 ∧ mat_get m.a n.y n.x ≠ .ok 'v') ∧
      (∀ x1 y1, x1 < m.w → y1 < m.h → grid_adj cx cy x1 y1 →
        mat_get m.a (centre m.cell_size x1 y1).y (centre m.cell_size x1 y1).x ≠ .ok 'v' →
        centre m.cell_size x1 y1 ∈ N) := by
  have hspec := get_available_neighbours_spec (m := m) rfl hcs1 rfl rfl hd hx hy
  have hv : ∀ n : cell, (!is_v m.a n.y n.x) = true ↔ mat_get m.a n.y n.x ≠ .ok 'v' := by
    intro n
    have h1 := is_v_iff m.a n.y n.x
    rw [ne_eq, ← h1]
    simp
  refine ⟨_, hspec, ?_, rfl, ?_, ?_⟩
  · refine le_trans (List.length_filter_le _ _) ?_
    simp only [candidates, List.length_append]
    have e : ∀ (p : Prop) [Decidable p] (c : cell),
        (if p then [c] else ([] : List cell)).length ≤ 1 := by
      intro p _ c; split <;> simp
    have e1 := e (0 < cy) (centre m.cell_size cx (cy - 1))
    have e2 := e (0 < cx) (centre m.cell_size (cx - 1) cy)
    have e3 := e (cx + 1 < m.w) (centre m.cell_size (cx + 1) cy)
    have e4 := e (cy + 1 < m.h) (centre m.cell_size cx (cy + 1))
    omega
  · intro n hn
    rw [List.mem_filter, mem_candidates hx hy, hv] at hn
    obtain ⟨⟨x1, y1, a1, a2, a3, a4⟩, a5⟩ := hn
    exact ⟨x1, y1, a1, a2, a3, a4, a5⟩
  · intro x1 y1 a1 a2 a3 a5
    rw [List.mem_filter, mem_candidates hx hy, hv]
    exact ⟨⟨x1, y1, a1, a2, a3, rfl⟩, a5⟩

theorem neighbours_exact_witness :
    1 ≤ demo_maze.cell_size ∧
    Dims demo_maze.a ((demo_maze.cell_size + 1) * demo_maze.h + 1)
      ((demo_maze.cell_size + 1) * demo_maze.w + 1) ∧
    1 < demo_maze.w ∧ 0 < demo_maze.h ∧
    ∃ N, get_available_neighbours demo_maze (centre demo_maze.cell_size 1 0) = .ok N ∧
      N.length ≤ 4 ∧
      N = (candidates demo_maze.cell_size demo_maze.w demo_maze.h 1 0).filter
        (fun n => !is_v demo_maze.a n.y n.x) ∧
      (∀ n, n ∈ N → ∃ x1 y1, x1 < demo_maze.w ∧ y1 < demo_maze.h ∧ grid_adj 1 0 x1 y1 ∧
        n = centre demo_maze.cell_size x1 y1 ∧ mat_get demo_maze.a n.y n.x ≠ .ok 'v') ∧
      (∀ x1 y1, x1 < demo_maze.w → y1 < demo_maze.h → grid_adj 1 0 x1 y1 →
        mat_get demo_maze.a (centre demo_maze.cell_size x1 y1).y
          (centre demo_maze.cell_size x1 y1).x ≠ .ok 'v' →
        centre demo_maze.cell_size x1 y1 ∈ N) :=
  have hd : Dims demo_maze.a ((demo_maze.cell_size + 1) * demo_maze.h + 1)
      ((demo_maze.cell_size + 1) * demo_maze.w + 1) :=
    ⟨rfl, by
      intro row hrow
      simp only [demo_maze, List.mem_cons, List.mem_singleton, List.not_mem_nil,
        or_false] at hrow
      rcases hrow with h | h | h | h | h <;> rw [h] <;> rfl⟩
  ⟨by decide, hd, by decide, by decide,
    neighbours_exact demo_maze (by decide) hd 1 0 (by decide) (by decide)⟩
/-- Claim C16 (the walk terminates with bounded work): for width, height,
cell_size at least 1 and any rand stream, the while loop of generate_maze
ends within 2*width*height tests of its condition (fuel 2*width*height is
enough, and more fuel gives the same final state) with an empty stack, and
the calls of stack_push made by then, the initial one included, number
2*width*height - 1, which is at most 2*width*height; the state handed to the
potion placement carries the same log. -/
theorem walk_terminates (w h cs : Nat) (hw1 : 1 ≤ w) (hh1 : 1 ≤ h) (hcs1 : 1 ≤ cs)
    (rand : Nat → Nat) (fuel : Nat) (hfuel : 2 * w * h ≤ fuel) :
    ∃ s0 s1 s, gen_init w h cs rand = .ok s0 ∧ walk rand (2 * w * h) s0 = .ok s1 ∧
      walk rand fuel s0 = .ok s1 ∧ stack_isempty s1.stack = true ∧
      (pushes_of s1.log).length + 1 = 2 * w * h ∧ (pushes_of s1.log).length ≤ 2 * w * h ∧
      build_maze w h cs rand fuel = .ok s ∧ s.log = s1.log := by
  obtain ⟨s0, s1, _, hs0, hs1, _, hi1, htop, _, _, _, _, _⟩ :=
    build_maze_spec hcs1 hw1 hh1 rand (2 * w * h) (le_refl _)
  obtain ⟨t0, t1, t, ht0, ht1, _, _, _, htb, _, _, hlog, _⟩ :=
    build_maze_spec hcs1 hw1 hh1 rand fuel hfuel
  rw [hs0] at ht0
  injection ht0 with ht0
  subst ht0
  have hmono := walk_fuel_mono rand (2 * w * h) s0 s1 hs1 (fuel - 2 * w * h)
  have e : 2 * w * h + (fuel - 2 * w * h) = fuel := by omega
  rw [e] at hmono
  rw [hmono] at ht1
  injection ht1 with ht1
  subst ht1
  have hlen := (inv_final_perm hi1 htop).length_eq
  rw [all_centres_length] at hlen
  have hp := hi1.pushes_len
  rw [hlen] at hp
  have e2 : 2 * w * h = 2 * (w * h) := by ring
  refine ⟨s0, s1, t, hs0, hs1, hmono, by simp [stack_isempty, htop], ?_, ?_, htb, hlog⟩
  · omega
  · omega

theorem walk_terminates_witness :
    1 ≤ 2 ∧ 1 ≤ 2 ∧ 1 ≤ 1 ∧ 2 * 2 * 2 ≤ 9 ∧
    ∃ s0 s1 s, gen_init 2 2 1 (rand_of [1, 0, 0, 0]) = .ok s0 ∧
      walk (rand_of [1, 0, 0, 0]) (2 * 2 * 2) s0 = .ok s1 ∧
      walk (rand_of [1, 0, 0, 0]) 9 s0 = .ok s1 ∧ stack_isempty s1.stack = true ∧
      (pushes_of s1.log).length + 1 = 2 * 2 * 2 ∧ (pushes_of s1.log).length ≤ 2 * 2 * 2 ∧
      build_maze 2 2 1 (rand_of [1, 0, 0, 0]) 9 = .ok s ∧ s.log = s1.log :=
  ⟨by decide, by decide, by decide, by decide,
    walk_terminates 2 2 1 (by decide) (by decide) (by decide) (rand_of [1, 0, 0, 0]) 9
      (by decide)⟩
/-- Claim C12 (determinism): generate_maze has no state besides its arguments
and the values of rand().  If a run with the stream rand1 returns after s1.rng
calls of rand(), and rand2 agrees with rand1 at those s1.rng positions (in
particular if the two streams are identical), then every run with the same
width, height and cell_size on rand2 that returns, whatever fuel it was given,
returns the same maze: the same dimensions and the same content in every
cell. -/
theorem generate_maze_deterministic (w h cs : Nat) (rand1 rand2 : Nat → Nat)
    (fuel1 fuel2 : Nat) (s1 : gen_state) (m1 m2 : maze)
    (hs : generate_maze_state w h cs rand1 fuel1 = .ok s1)
    (hr : ∀ n, n < s1.rng → rand1 n = rand2 n)
    (h1 : generate_maze w h cs rand1 fuel1 = .ok m1)
    (h2 : generate_maze w h cs rand2 fuel2 = .ok m2) :
    m1 = m2 ∧ m1.h = m2.h ∧ m1.w = m2.w ∧ m1.a = m2.a ∧
      ∀ r c : Int, mat_get m1.a r c = mat_get m2.a r c := by
  have hs2 := generate_state_reads rand1 rand2 hs hr
  have e1 : generate_maze w h cs rand2 fuel1 = .ok m1 := by
    rw [← h1]
    simp only [generate_maze, hs, hs2]
  have k1 := generate_fuel_mono e1 fuel2
  have k2 := generate_fuel_mono h2 fuel1
  rw [Nat.add_comm fuel2 fuel1, k1] at k2
  injection k2 with k2
  subst k2
  exact ⟨rfl, rfl, rfl, rfl, fun _ _ => rfl⟩

theorem generate_maze_deterministic_witness :
    ∃ s1, generate_maze_state 2 1 1 (rand_of [0, 0, 1, 1, 1, 2, 1, 3]) 8 = .ok s1 ∧
      (∀ n, n < s1.rng → rand_of [0, 0, 1, 1, 1, 2, 1, 3] n
        = rand_of [0, 0, 1, 1, 1, 2, 1, 3, 7, 5] n) ∧
      rand_of [0, 0, 1, 1, 1, 2, 1, 3] 8 ≠ rand_of [0, 0, 1, 1, 1, 2, 1, 3, 7, 5] 8 ∧
      ∃ m1 m2, generate_maze 2 1 1 (rand_of [0, 0, 1, 1, 1, 2, 1, 3]) 8 = .ok m1 ∧
        generate_maze 2 1 1 (rand_of [0, 0, 1, 1, 1, 2, 1, 3, 7, 5]) 11 = .ok m2 ∧
        m1 = m2 ∧ m1.h = m2.h ∧ m1.w = m2.w ∧ m1.a = m2.a ∧
        ∀ r c : Int, mat_get m1.a r c = mat_get m2.a r c :=
  have hs : ∃ s1, generate_maze_state 2 1 1 (rand_of [0, 0, 1, 1, 1, 2, 1, 3]) 8 = .ok s1 ∧
      s1.rng = 8 := ⟨_, rfl, rfl⟩
  match hs with
  | ⟨s1, e1, e2⟩ =>
    have hr : ∀ n, n < s1.rng → rand_of [0, 0, 1, 1, 1, 2, 1, 3] n
        = rand_of [0, 0, 1, 1, 1, 2, 1, 3, 7, 5] n := by
      intro n hn
      rw [e2] at hn
      interval_cases n <;> rfl
    ⟨s1, e1, hr, by decide,
      ⟨["wwwww".toList, " ### ".toList, "wwwww".toList], 5, 3, 1⟩,
      ⟨["wwwww".toList, " ### ".toList, "wwwww".toList], 5, 3, 1⟩, rfl, rfl,
      generate_maze_deterministic 2 1 1 _ _ 8 11 s1 _ _ e1 hr rfl rfl⟩

/-- Claim C13 (remove_wall carves the separating wall) fails for even
cell_size when b is above a: with cell_size 2, in a matrix of walls for 1 x 2
logical cells, a the centre of logical cell (0, 1) and b the centre of (0, 0),
remove_wall writes row 4, the top row of the block of a, and leaves the wall
row 3 between the two blocks as it was. -/
theorem remove_wall_even_up :
    ∃ m1, remove_wall ⟨List.replicate 7 "wwww".toList, 1, 2, 2⟩ (centre 2 0 1) (centre 2 0 0)
        = .ok m1 ∧
      m1.a = ["wwww".toList, "wwww".toList, "wwww".toList, "wwww".toList, "w  w".toList,
              "wwww".toList, "wwww".toList] ∧
      mat_get m1.a 3 1 = .ok WALL ∧ mat_get m1.a 3 2 = .ok WALL ∧
      mat_get m1.a 4 1 = .ok ' ' ∧ mat_get m1.a 4 2 = .ok ' ' :=
  ⟨⟨["wwww".toList, "wwww".toList, "wwww".toList, "wwww".toList, "w  w".toList,
      "wwww".toList, "wwww".toList], 1, 2, 2⟩, rfl, rfl, rfl, rfl, rfl, rfl⟩
/-- Claim C18 (fixed entrance and exit positions): for width, height,
cell_size at least 1, in a maze returned by generate_maze, with h and w its
matrix dimensions, a cell of column 0 is not a wall exactly when its row is 1,
a cell of the last column w-1 is not a wall exactly when its row is h-2, for
every rand stream; the exit cell (h-2, w-1) holds a passage; and a non-wall
cell of the last column is the one the test of exitMaze accepts for a player
standing left of it. -/
theorem entrance_exit_fixed (w h cs : Nat) (hw1 : 1 ≤ w) (hh1 : 1 ≤ h) (hcs1 : 1 ≤ cs)
    (rand : Nat → Nat) (fuel : Nat) (m : maze)
    (hg : generate_maze w h cs rand fuel = .ok m) :
    (∀ (r : Int) (ch : Char), mat_get m.a r 0 = .ok ch → (ch ≠ WALL ↔ r = 1)) ∧
    (∀ (r : Int) (ch : Char), mat_get m.a r ((m.w : Int) - 1) = .ok ch →
      (ch ≠ WALL ↔ r = (m.h : Int) - 2)) ∧
    (∃ ch, mat_get m.a 1 0 = .ok ch ∧ ch ≠ WALL) ∧
    mat_get m.a ((m.h : Int) - 2) ((m.w : Int) - 1) = .ok ' ' ∧
    (∀ (r c : Int) (ch : Char), mat_get m.a r c = .ok ch → c = (m.w : Int) - 1 → ch ≠ WALL →
      exit_test m r (c - 1)) := by
  obtain ⟨s, m1, m2, p1, p2, p3, hs, hb, b1, b2, b3, g1, h1, g2, h2, g3, h3⟩ :=
    potions_trace hcs1 hw1 hh1 hg
  obtain ⟨g2a, g3a⟩ := potions_pre h1 g2 h2 g3
  have hget := potions_get h1 h2 h3
  have f1 := (set_cell_ok h1).2
  have f2 := (set_cell_ok h2).2
  have f3 := (set_cell_ok h3).2
  have ehh : m.h = (cs + 1) * h + 1 := by rw [f3.2.1, f2.2.1, f1.2.1, hb.hh]
  have eww : m.w = (cs + 1) * w + 1 := by rw [f3.1, f2.1, f1.1, hb.hw]
  have hW := mul_succ_le cs (show 0 < w by omega)
  have hH := mul_succ_le cs (show 0 < h by omega)
  simp only [Nat.mul_zero, Nat.zero_add] at hW hH
  have hne : (' ' : Char) ≠ 'w' := by decide
  -- where a cell that is not a wall can be, in the returned matrix
  have hopen : ∀ (r c : Int) (ch : Char), mat_get m.a r c = .ok ch → ch ≠ WALL →
      (1 ≤ r ∧ r + 1 < (((cs + 1) * h + 1 : Nat) : Int) ∧
        1 ≤ c ∧ c + 1 < (((cs + 1) * w + 1 : Nat) : Int)) ∨
      (r = 1 ∧ c = 0) ∨
      (r = ((((cs + 1) * h - 1 : Nat)) : Int) ∧ c = ((((cs + 1) * w : Nat)) : Int)) := by
    intro r c ch hch hnw
    rw [hget] at hch
    split at hch
    · rename_i hp
      rcases hp with ⟨e1, e2⟩ | ⟨e1, e2⟩ | ⟨e1, e2⟩
      · rw [e1, e2]; exact hb.border _ _ _ g1 hne
      · rw [e1, e2]; exact hb.border _ _ _ g2a hne
      · rw [e1, e2]; exact hb.border _ _ _ g3a hne
    · exact hb.border r c ch hch hnw
  have hent : ∃ ch, mat_get m.a 1 0 = .ok ch ∧ ch ≠ WALL := by
    have h0 := hget 1 0
    rw [hb.entrance] at h0
    split at h0
    · exact ⟨POTION, h0, by decide⟩
    · exact ⟨' ', h0, by decide⟩
  have hexit : mat_get m.a ((m.h : Int) - 2) ((m.w : Int) - 1) = .ok ' ' := by
    have e1 : (m.h : Int) - 2 = ((((cs + 1) * h - 1 : Nat)) : Int) := by omega
    have e2 : (m.w : Int) - 1 = ((((cs + 1) * w : Nat)) : Int) := by omega
    rw [e1, e2, hget, hb.exit_cell]
    have hnp : ¬ (((((cs + 1) * h - 1 : Nat) : Int) = (p1.1 : Int) ∧
        (((cs + 1) * w : Nat) : Int) = (p1.2 : Int)) ∨
        ((((cs + 1) * h - 1 : Nat) : Int) = (p2.1 : Int) ∧
        (((cs + 1) * w : Nat) : Int) = (p2.2 : Int)) ∨
        ((((cs + 1) * h - 1 : Nat) : Int) = (p3.1 : Int) ∧
        (((cs + 1) * w : Nat) : Int) = (p3.2 : Int))) := by omega
    rw [if_neg hnp]
  refine ⟨?_, ?_, hent, hexit, ?_⟩
  · intro r ch hch
    constructor
    · intro hnw
      rcases hopen r 0 ch hch hnw with a | a | a
      · omega
      · exact a.1
      · omega
    · intro hr
      subst hr
      obtain ⟨ch1, hch1, hnw1⟩ := hent
      rw [hch] at hch1
      injection hch1 with e
      rw [e]; exact hnw1
  · intro r ch hch
    constructor
    · intro hnw
      rcases hopen r _ ch hch hnw with a | a | a
      · omega
      · omega
      · omega
    · intro hr
      subst hr
      rw [hexit] at hch
      injection hch with e
      rw [← e]; decide
  · intro r c ch hch hc hnw
    subst hc
    rcases hopen r _ ch hch hnw with a | a | a
    · omega
    · omega
    · constructor
      · omega
      · ring

theorem entrance_exit_fixed_witness :
    1 ≤ 2 ∧ 1 ≤ 1 ∧ 1 ≤ 1 ∧
    ∃ m, generate_maze 2 1 1 (rand_of [0, 0, 1, 0, 1, 1, 1, 2]) 8 = .ok m ∧
      (∀ (r : Int) (ch : Char), mat_get m.a r 0 = .ok ch → (ch ≠ WALL ↔ r = 1)) ∧
      (∀ (r : Int) (ch : Char), mat_get m.a r ((m.w : Int) - 1) = .ok ch →
        (ch ≠ WALL ↔ r = (m.h : Int) - 2)) ∧
      (∃ ch, mat_get m.a 1 0 = .ok ch ∧ ch ≠ WALL) ∧
      mat_get m.a ((m.h : Int) - 2) ((m.w : Int) - 1) = .ok ' ' ∧
      (∀ (r c : Int) (ch : Char), mat_get m.a r c = .ok ch → c = (m.w : Int) - 1 →
        ch ≠ WALL → exit_test m r (c - 1)) :=
  ⟨by decide, by decide, by decide,
    ⟨["wwwww".toList, "###  ".toList, "wwwww".toList], 5, 3, 1⟩, rfl,
    entrance_exit_fixed 2 1 1 (by decide) (by decide) (by decide)
      (rand_of [0, 0, 1, 0, 1, 1, 1, 2]) 8 _ rfl⟩
/-- Counterexample to claim C17 as stated: with width 1, height 3, cell_size
1 and rand values 1, 0, 0 the walk starts in the middle cell (0, 1), enters
(0, 0) from it, comes back and enters (0, 2) from it: the centre of (0, 1) is
pushed 3 times, more than twice. -/
theorem start_cell_pushed_thrice :
    ∃ s0 s, gen_init 1 3 1 (rand_of [1, 0, 0]) = .ok s0 ∧
      walk (rand_of [1, 0, 0]) 6 s0 = .ok s ∧ stack_isempty s.stack = true ∧
      pushes_at s.log (centre 1 0 1) = 3 ∧ ¬ pushes_at s.log (centre 1 0 1) ≤ 2 :=
  ⟨_, _, rfl, rfl, rfl, by decide, by decide⟩

/-- Claim C17, amended: for width, height, cell_size at least 1 and any rand
stream, at every test of the loop condition of the walk every cell has been
pushed once if it has been visited, and once more for each neighbour entered
from it; at most 3 neighbours are entered from a cell, so every logical cell
is pushed at most 4 times. -/
theorem pushes_per_cell (w h cs : Nat) (hw1 : 1 ≤ w) (hh1 : 1 ≤ h) (hcs1 : 1 ≤ cs)
    (rand : Nat → Nat) (n : Nat) (c : cell) :
    ∃ s0 s, gen_init w h cs rand = .ok s0 ∧ walk_upto rand n s0 = .ok s ∧
      pushes_at s.log c = (marks_of s.log).count c + entered_from s.log c ∧
      (marks_of s.log).count c ≤ 1 ∧ entered_from s.log c ≤ 3 ∧ pushes_at s.log c ≤ 4 := by
  obtain ⟨s0, hs0, hi0, hlog0, _⟩ := gen_init_inv hcs1 hw1 hh1 rand
  obtain ⟨s, hs, hi⟩ := walk_upto_inv hcs1 rand n s0 hi0
  obtain ⟨hsh, l, hl⟩ := walk_upto_shape rand n s0 s hs (gen_init_shape hs0)
  have hhead : (marks_of s.log).head? = some (centre cs 0 (rand 0 % h)) := by
    rw [hl, marks_of_append, hlog0]
    rfl
  have h1 := pushes_at_eq hsh c
  have h2 : (marks_of s.log).count c ≤ 1 :=
    List.nodup_iff_count_le_one.mp (grows_nodup hi.tree) c
  have h3 : entered_from s.log c ≤ 3 := grows_entered_le hi.tree hhead c
  exact ⟨s0, s, hs0, hs, h1, h2, h3, by omega⟩

theorem pushes_per_cell_witness :
    1 ≤ 1 ∧ 1 ≤ 3 ∧ 1 ≤ 1 ∧
    ∃ s0 s, gen_init 1 3 1 (rand_of [1, 0, 0]) = .ok s0 ∧
      walk_upto (rand_of [1, 0, 0]) 6 s0 = .ok s ∧
      pushes_at s.log (centre 1 0 1)
        = (marks_of s.log).count (centre 1 0 1) + entered_from s.log (centre 1 0 1) ∧
      (marks_of s.log).count (centre 1 0 1) ≤ 1 ∧ entered_from s.log (centre 1 0 1) ≤ 3 ∧
      pushes_at s.log (centre 1 0 1) ≤ 4 :=
  ⟨by decide, by decide, by decide,
    pushes_per_cell 1 3 1 (by decide) (by decide) (by decide) (rand_of [1, 0, 0]) 6
      (centre 1 0 1)⟩

end MazeGen
